import Mathlib

/-!
# Min-max heap (`cmmheap.h`, `mmheap.h`): embedding and verification

The C header `cmmheap.h` and the C++ template header `mmheap.h` implement a
fixed-capacity min-max heap over parallel arrays `value` / `index`.

Modelling conventions.

* A C array reached through a pointer (`double *A`, `int *B`) is a total map
  `Nat → V` from 0-based offsets to contents; a store `A[j] = x` is
  `Function.update A j x`.
* `double` values are elements of a linearly ordered type `V` (the ordered,
  NaN-free part of the doubles); the `NAN` that the C peek functions return on
  an empty heap is `none`.
* `int` tags are `Int`; `NAI` is `-1`.
* Positions, lengths and capacities are natural numbers (the C `int`s involved
  are never negative). In the first embedding of the repair routines `i << 1`,
  `i >> 1`, `i >> 2` are the `Nat` shifts, which never overflow: that embedding
  is the code only as long as `2 * length + 1` fits an `int`, and it serves as
  the reference for the checked embedding below.
* `int` results used as flags are `Nat` (`0` / `1`); C++ `bool` is `Bool`.
* Each recursive repair routine is a structurally recursive function with an
  explicit recursion budget (`*_fuel`); the routine itself instantiates the
  budget with a bound that is never exhausted (shown by the `*_unfold`
  theorems, which restate the C recursion equations verbatim).
* Storage handed out by `malloc` / `new` has indeterminate contents, which the
  creating functions take as parameters (`fresh_value`, `fresh_index`).
* A `for` loop is a recursion on the number of iterations done; a `while` loop
  has a recursion budget, instantiated with a bound that is never exhausted.
* Where aliasing matters (copies), heaps live in a `Memory` of numbered blocks
  and are reached through pointers; the allocator hands out fresh block
  numbers.
* The checked embedding (`*_run`) is the code with the range of `int` and the
  array bounds made explicit: every left shift and increment is checked
  against `INT_MAX` (a signed overflow stops the evaluation), the recursion
  budget is explicit and its exhaustion is a failure, and the indices accessed
  are logged. Whatever depends on the left shifts of trickle-down (the
  removals, the selection routines, the trickle-down rules, index safety,
  termination) is stated for the checked routines; below the limit
  `2 * length + 1 <= INT_MAX` they are shown to return what the unchecked ones
  return.
-/

set_option autoImplicit false


namespace cmmheap

/-! ## `cmmheap.h` -/

/-- The `minmaxheap` struct: `value`, `index`, `length`, `maxlength`. -/
structure minmaxheap (V : Type) where
  value : Nat → V
  index : Nat → Int
  length : Nat
  maxlength : Nat

/-- The constant `NAI` ("not an index"). -/
def NAI : Int := -1

/-- The loop `while (i >>= 1) r++;` of `msbpos`, with a recursion budget. -/
def msbpos_loop : Nat → Nat → Nat → Nat
  | 0, _, r => r
  | fuel + 1, i, r => if i >>> 1 ≠ 0 then msbpos_loop fuel (i >>> 1) (r + 1) else r

/-- The function `msbpos` (cmmheap.h:66): `0` for `i <= 0`, otherwise `1` plus the number of
right shifts until `i` becomes zero. -/
def msbpos (i : Int) : Nat :=
  if i ≤ 0 then 0 else msbpos_loop i.toNat i.toNat 1

/-- The function `isminlevel` (cmmheap.h:77), for a 1-based position `i`. -/
def isminlevel (i : Int) : Nat :=
  if msbpos i &&& 1 ≠ 0 then 1 else 0

/-- The function `__ab_swap` (cmmheap.h:85): exchange slots `i` and `j` in both arrays. -/
def __ab_swap {V : Type} (A : Nat → V) (B : Nat → Int) (i j : Nat) :
    (Nat → V) × (Nat → Int) :=
  let tmpa := A j
  let A := Function.update A j (A i)
  let A := Function.update A i tmpa
  let tmpb := B j
  let B := Function.update B j (B i)
  let B := Function.update B i tmpb
  (A, B)

/-- The recursion of `__bubble_up_min` (cmmheap.h:96) with a recursion budget. -/
def __bubble_up_min_fuel {V : Type} [LinearOrder V] :
    Nat → (Nat → V) → (Nat → Int) → Nat → (Nat → V) × (Nat → Int)
  | 0, A, B, _ => (A, B)
  | fuel + 1, A, B, i =>
    let grandparenti := i >>> 2
    if grandparenti ≠ 0 then
      if A (i - 1) < A (grandparenti - 1) then
        let AB := __ab_swap A B (i - 1) (grandparenti - 1)
        __bubble_up_min_fuel fuel AB.1 AB.2 grandparenti
      else (A, B)
    else (A, B)

/-- The function `__bubble_up_min` (cmmheap.h:96); every call moves to `i >> 2 < i`, so a
budget of `i` calls is never exhausted. -/
def __bubble_up_min {V : Type} [LinearOrder V] (A : Nat → V) (B : Nat → Int) (i : Nat) :
    (Nat → V) × (Nat → Int) :=
  __bubble_up_min_fuel i A B i

/-- The recursion of `__bubble_up_max` (cmmheap.h:107) with a recursion budget. -/
def __bubble_up_max_fuel {V : Type} [LinearOrder V] :
    Nat → (Nat → V) → (Nat → Int) → Nat → (Nat → V) × (Nat → Int)
  | 0, A, B, _ => (A, B)
  | fuel + 1, A, B, i =>
    let grandparenti := i >>> 2
    if grandparenti ≠ 0 then
      if A (i - 1) > A (grandparenti - 1) then
        let AB := __ab_swap A B (i - 1) (grandparenti - 1)
        __bubble_up_max_fuel fuel AB.1 AB.2 grandparenti
      else (A, B)
    else (A, B)

/-- The function `__bubble_up_max` (cmmheap.h:107). -/
def __bubble_up_max {V : Type} [LinearOrder V] (A : Nat → V) (B : Nat → Int) (i : Nat) :
    (Nat → V) × (Nat → Int) :=
  __bubble_up_max_fuel i A B i

/-- The function `__bubble_up` (cmmheap.h:118). -/
def __bubble_up {V : Type} [LinearOrder V] (A : Nat → V) (B : Nat → Int) (i : Nat) :
    (Nat → V) × (Nat → Int) :=
  let parenti := i >>> 1
  if isminlevel i ≠ 0 then
    if parenti ≠ 0 then
      if A (i - 1) > A (parenti - 1) then
        let AB := __ab_swap A B (i - 1) (parenti - 1)
        __bubble_up_max AB.1 AB.2 parenti
      else
        __bubble_up_min A B i
    else
      __bubble_up_min A B i
  else
    if parenti ≠ 0 then
      if A (i - 1) < A (parenti - 1) then
        let AB := __ab_swap A B (i - 1) (parenti - 1)
        __bubble_up_min AB.1 AB.2 parenti
      else
        __bubble_up_max A B i
    else
      __bubble_up_max A B i

/-- The candidate `m` that `__trickle_down_min` computes (cmmheap.h:154-191) once it knows that
`lchild <= maxi`: the position of the smallest value among the children and grandchildren of
`i` that exist. The positions are natural numbers here and the shifts cannot overflow: this
is what the C code computes as long as `4 * i + 3` fits an `int` when `i` has two children;
`__trickle_down_min_m_run` is the same computation with the shifts and increments checked
against `INT_MAX`. -/
def __trickle_down_min_m {V : Type} [LinearOrder V] (A : Nat → V) (i maxi : Nat) : Nat :=
  let lchild := i <<< 1
  let rchild := lchild + 1
  if rchild ≤ maxi then
    let m := if A (lchild - 1) < A (rchild - 1) then lchild else rchild
    let llchild := lchild <<< 1
    let lrchild := llchild + 1
    let rlchild := rchild <<< 1
    let rrchild := rlchild + 1
    let m := if llchild ≤ maxi then (if A (llchild - 1) < A (m - 1) then llchild else m) else m
    let m := if lrchild ≤ maxi then (if A (lrchild - 1) < A (m - 1) then lrchild else m) else m
    let m := if rlchild ≤ maxi then (if A (rlchild - 1) < A (m - 1) then rlchild else m) else m
    let m := if rrchild ≤ maxi then (if A (rrchild - 1) < A (m - 1) then rrchild else m) else m
    m
  else
    lchild

/-- The recursion of `__trickle_down_min` (cmmheap.h:149) with a recursion budget. The
positions are natural numbers here and `i << 1` cannot overflow: this is the C code as long
as the child and grandchild positions it computes fit an `int` (in particular whenever
`2 * maxi + 1 <= INT_MAX`); `__trickle_down_min_run` is the same recursion with the shifts
and increments checked against `INT_MAX`. -/
def __trickle_down_min_fuel {V : Type} [LinearOrder V] :
    Nat → (Nat → V) → (Nat → Int) → Nat → Nat → (Nat → V) × (Nat → Int)
  | 0, A, B, _, _ => (A, B)
  | fuel + 1, A, B, i, maxi =>
    let lchild := i <<< 1
    if lchild > maxi then (A, B)
    else
      let rchild := lchild + 1
      let m := __trickle_down_min_m A i maxi
      if m > rchild then
        if A (m - 1) < A (i - 1) then
          let AB := __ab_swap A B (i - 1) (m - 1)
          let parentm := m >>> 1
          let AB :=
            if AB.1 (m - 1) > AB.1 (parentm - 1) then __ab_swap AB.1 AB.2 (m - 1) (parentm - 1)
            else AB
          __trickle_down_min_fuel fuel AB.1 AB.2 m maxi
        else (A, B)
      else
        if A (m - 1) < A (i - 1) then __ab_swap A B (i - 1) (m - 1)
        else (A, B)

/-- The function `__trickle_down_min` (cmmheap.h:149); every call moves to a grandchild
`m > i` with `m <= maxi`, so a budget of `maxi` calls is never exhausted. -/
def __trickle_down_min {V : Type} [LinearOrder V] (A : Nat → V) (B : Nat → Int)
    (i maxi : Nat) : (Nat → V) × (Nat → Int) :=
  __trickle_down_min_fuel maxi A B i maxi

/-- The candidate `m` that `__trickle_down_max` computes (cmmheap.h:217-254), over natural
numbers as for `__trickle_down_min_m`; `__trickle_down_max_m_run` is the same computation
checked against `INT_MAX`. -/
def __trickle_down_max_m {V : Type} [LinearOrder V] (A : Nat → V) (i maxi : Nat) : Nat :=
  let lchild := i <<< 1
  let rchild := lchild + 1
  if rchild ≤ maxi then
    let m := if A (lchild - 1) > A (rchild - 1) then lchild else rchild
    let llchild := lchild <<< 1
    let lrchild := llchild + 1
    let rlchild := rchild <<< 1
    let rrchild := rlchild + 1
    let m := if llchild ≤ maxi then (if A (llchild - 1) > A (m - 1) then llchild else m) else m
    let m := if lrchild ≤ maxi then (if A (lrchild - 1) > A (m - 1) then lrchild else m) else m
    let m := if rlchild ≤ maxi then (if A (rlchild - 1) > A (m - 1) then rlchild else m) else m
    let m := if rrchild ≤ maxi then (if A (rrchild - 1) > A (m - 1) then rrchild else m) else m
    m
  else
    lchild

/-- The recursion of `__trickle_down_max` (cmmheap.h:212) with a recursion budget, over
natural numbers as for `__trickle_down_min_fuel`; `__trickle_down_max_run` is the same
recursion checked against `INT_MAX`. -/
def __trickle_down_max_fuel {V : Type} [LinearOrder V] :
    Nat → (Nat → V) → (Nat → Int) → Nat → Nat → (Nat → V) × (Nat → Int)
  | 0, A, B, _, _ => (A, B)
  | fuel + 1, A, B, i, maxi =>
    let lchild := i <<< 1
    if lchild > maxi then (A, B)
    else
      let rchild := lchild + 1
      let m := __trickle_down_max_m A i maxi
      if m > rchild then
        if A (m - 1) > A (i - 1) then
          let AB := __ab_swap A B (i - 1) (m - 1)
          let parentm := m >>> 1
          let AB :=
            if AB.1 (m - 1) < AB.1 (parentm - 1) then __ab_swap AB.1 AB.2 (m - 1) (parentm - 1)
            else AB
          __trickle_down_max_fuel fuel AB.1 AB.2 m maxi
        else (A, B)
      else
        if A (m - 1) > A (i - 1) then __ab_swap A B (i - 1) (m - 1)
        else (A, B)

/-- The function `__trickle_down_max` (cmmheap.h:212). -/
def __trickle_down_max {V : Type} [LinearOrder V] (A : Nat → V) (B : Nat → Int)
    (i maxi : Nat) : (Nat → V) × (Nat → Int) :=
  __trickle_down_max_fuel maxi A B i maxi

/-- The function `__trickle_down` (cmmheap.h:275), over natural numbers;
`__trickle_down_run` is the same function checked against `INT_MAX`. -/
def __trickle_down {V : Type} [LinearOrder V] (A : Nat → V) (B : Nat → Int)
    (i maxi : Nat) : (Nat → V) × (Nat → Int) :=
  if isminlevel i ≠ 0 then __trickle_down_min A B i maxi
  else __trickle_down_max A B i maxi

/-- The function `mmheap_getlength` (cmmheap.h:285). -/
def mmheap_getlength {V : Type} (mmheap : minmaxheap V) : Nat := mmheap.length

/-- The function `mmheap_getmaxlength` (cmmheap.h:289). -/
def mmheap_getmaxlength {V : Type} (mmheap : minmaxheap V) : Nat := mmheap.maxlength

/-- The function `mmheap_peekmin_value` (cmmheap.h:293); `none` is `NAN`. -/
def mmheap_peekmin_value {V : Type} (mmheap : minmaxheap V) : Option V :=
  if mmheap.length = 0 then none
  else some (mmheap.value 0)

/-- The function `mmheap_peekmin_index` (cmmheap.h:300). -/
def mmheap_peekmin_index {V : Type} (mmheap : minmaxheap V) : Int :=
  if mmheap.length = 0 then NAI
  else mmheap.index 0

/-- The function `mmheap_peekmax_value` (cmmheap.h:307); `none` is `NAN`. -/
def mmheap_peekmax_value {V : Type} [LinearOrder V] (mmheap : minmaxheap V) : Option V :=
  if mmheap.length = 0 then none
  else if mmheap.length = 1 then some (mmheap.value 0)
  else if mmheap.length = 2 then some (mmheap.value 1)
  else if mmheap.value 1 ≥ mmheap.value 2 then some (mmheap.value 1)
  else some (mmheap.value 2)

/-- The function `mmheap_peekmax_index` (cmmheap.h:325). -/
def mmheap_peekmax_index {V : Type} [LinearOrder V] (mmheap : minmaxheap V) : Int :=
  if mmheap.length = 0 then NAI
  else if mmheap.length = 1 then mmheap.index 0
  else if mmheap.length = 2 then mmheap.index 1
  else if mmheap.value 1 ≥ mmheap.value 2 then mmheap.index 1
  else mmheap.index 2

/-- The function `mmheap_insert` (cmmheap.h:345): the returned flag and the heap afterwards. -/
def mmheap_insert {V : Type} [LinearOrder V] (mmheap : minmaxheap V) (v : V) (i : Int) :
    Nat × minmaxheap V :=
  if mmheap.length = mmheap.maxlength then (0, mmheap)
  else
    let A := mmheap.value
    let B := mmheap.index
    let j := mmheap.length
    let length := mmheap.length + 1
    let A := Function.update A j v
    let B := Function.update B j i
    let AB := __bubble_up A B length
    (1, { value := AB.1, index := AB.2, length := length, maxlength := mmheap.maxlength })

/-- The function `mmheap_removemin` (cmmheap.h:365): the returned flag and the heap
afterwards, with `__trickle_down` over natural numbers; `mmheap_removemin_run` is the same
function checked against `INT_MAX`. -/
def mmheap_removemin {V : Type} [LinearOrder V] (mmheap : minmaxheap V) :
    Nat × minmaxheap V :=
  if mmheap.length = 0 then (0, mmheap)
  else
    let A := mmheap.value
    let B := mmheap.index
    let last_a := A (mmheap.length - 1)
    let last_b := B (mmheap.length - 1)
    let length := mmheap.length - 1
    let A := Function.update A 0 last_a
    let B := Function.update B 0 last_b
    let AB := __trickle_down A B 1 length
    (1, { value := AB.1, index := AB.2, length := length, maxlength := mmheap.maxlength })

/-- The 1-based position `iins` that `mmheap_removemax` vacates (cmmheap.h:395-408), for a
non-empty heap. -/
def mmheap_removemax_iins {V : Type} [LinearOrder V] (mmheap : minmaxheap V) : Nat :=
  if mmheap.length = 1 then 1
  else if mmheap.length = 2 then 2
  else if mmheap.value 1 ≥ mmheap.value 2 then 2
  else 3

/-- The function `mmheap_removemax` (cmmheap.h:384): the returned flag and the heap
afterwards, with `__trickle_down` over natural numbers; `mmheap_removemax_run` is the same
function checked against `INT_MAX`. -/
def mmheap_removemax {V : Type} [LinearOrder V] (mmheap : minmaxheap V) :
    Nat × minmaxheap V :=
  if mmheap.length = 0 then (0, mmheap)
  else
    let A := mmheap.value
    let B := mmheap.index
    let last_a := A (mmheap.length - 1)
    let last_b := B (mmheap.length - 1)
    let iins := mmheap_removemax_iins mmheap
    let length := mmheap.length - 1
    let A := Function.update A (iins - 1) last_a
    let B := Function.update B (iins - 1) last_b
    let AB := __trickle_down A B iins length
    (1, { value := AB.1, index := AB.2, length := length, maxlength := mmheap.maxlength })

end cmmheap

/-! ## `mmheap.h`: the helper templates of namespace `MinMaxHeapAux` -/

namespace MinMaxHeapAux

/-- The loop `while (i >>= 1) r++;` of `__msbpos`, with a recursion budget. -/
def __msbpos_loop : Nat → Nat → Nat → Nat
  | 0, _, r => r
  | fuel + 1, i, r => if i >>> 1 ≠ 0 then __msbpos_loop fuel (i >>> 1) (r + 1) else r

/-- The function `__msbpos` (mmheap.h:31): `0` for `i <= 0`, otherwise `1` plus the number of
right shifts until `i` becomes zero. -/
def __msbpos (i : Int) : Nat :=
  if i ≤ 0 then 0 else __msbpos_loop i.toNat i.toNat 1

/-- The function `__isminlevel` (mmheap.h:41), for a 1-based position `i`. -/
def __isminlevel (i : Int) : Nat :=
  if __msbpos i &&& 1 ≠ 0 then 1 else 0

/-- The function template `__ab_swap` (mmheap.h:47): exchange slots `i` and `j` in both arrays. -/
def __ab_swap {V I : Type} (A : Nat → V) (B : Nat → I) (i j : Nat) :
    (Nat → V) × (Nat → I) :=
  let tmpa := A j
  let A := Function.update A j (A i)
  let A := Function.update A i tmpa
  let tmpb := B j
  let B := Function.update B j (B i)
  let B := Function.update B i tmpb
  (A, B)

/-- The recursion of `__bubble_up_min` (mmheap.h:59) with a recursion budget. -/
def __bubble_up_min_fuel {V I : Type} [LinearOrder V] :
    Nat → (Nat → V) → (Nat → I) → Nat → (Nat → V) × (Nat → I)
  | 0, A, B, _ => (A, B)
  | fuel + 1, A, B, i =>
    let grandparenti := i >>> 2
    if grandparenti ≠ 0 then
      if A (i - 1) < A (grandparenti - 1) then
        let AB := __ab_swap A B (i - 1) (grandparenti - 1)
        __bubble_up_min_fuel fuel AB.1 AB.2 grandparenti
      else (A, B)
    else (A, B)

/-- The function template `__bubble_up_min` (mmheap.h:59); every call moves to `i >> 2 < i`, so a
budget of `i` calls is never exhausted. -/
def __bubble_up_min {V I : Type} [LinearOrder V] (A : Nat → V) (B : Nat → I) (i : Nat) :
    (Nat → V) × (Nat → I) :=
  __bubble_up_min_fuel i A B i

/-- The recursion of `__bubble_up_max` (mmheap.h:70) with a recursion budget. -/
def __bubble_up_max_fuel {V I : Type} [LinearOrder V] :
    Nat → (Nat → V) → (Nat → I) → Nat → (Nat → V) × (Nat → I)
  | 0, A, B, _ => (A, B)
  | fuel + 1, A, B, i =>
    let grandparenti := i >>> 2
    if grandparenti ≠ 0 then
      if A (i - 1) > A (grandparenti - 1) then
        let AB := __ab_swap A B (i - 1) (grandparenti - 1)
        __bubble_up_max_fuel fuel AB.1 AB.2 grandparenti
      else (A, B)
    else (A, B)

/-- The function template `__bubble_up_max` (mmheap.h:70). -/
def __bubble_up_max {V I : Type} [LinearOrder V] (A : Nat → V) (B : Nat → I) (i : Nat) :
    (Nat → V) × (Nat → I) :=
  __bubble_up_max_fuel i A B i

/-- The function template `__bubble_up` (mmheap.h:81). -/
def __bubble_up {V I : Type} [LinearOrder V] (A : Nat → V) (B : Nat → I) (i : Nat) :
    (Nat → V) × (Nat → I) :=
  let parenti := i >>> 1
  if __isminlevel i ≠ 0 then
    if parenti ≠ 0 then
      if A (i - 1) > A (parenti - 1) then
        let AB := __ab_swap A B (i - 1) (parenti - 1)
        __bubble_up_max AB.1 AB.2 parenti
      else
        __bubble_up_min A B i
    else
      __bubble_up_min A B i
  else
    if parenti ≠ 0 then
      if A (i - 1) < A (parenti - 1) then
        let AB := __ab_swap A B (i - 1) (parenti - 1)
        __bubble_up_min AB.1 AB.2 parenti
      else
        __bubble_up_max A B i
    else
      __bubble_up_max A B i

/-- The candidate `m` that `__trickle_down_min` computes (mmheap.h:116-153) once it knows that
`lchild <= maxi`: the position of the smallest value among the children and grandchildren of
`i` that exist. The positions are natural numbers here, as in `cmmheap.__trickle_down_min_m`:
this is what the code computes as long as `4 * i + 3` fits an `int` when `i` has two
children. -/
def __trickle_down_min_m {V : Type} [LinearOrder V] (A : Nat → V) (i maxi : Nat) : Nat :=
  let lchild := i <<< 1
  let rchild := lchild + 1
  if rchild ≤ maxi then
    let m := if A (lchild - 1) < A (rchild - 1) then lchild else rchild
    let llchild := lchild <<< 1
    let lrchild := llchild + 1
    let rlchild := rchild <<< 1
    let rrchild := rlchild + 1
    let m := if llchild ≤ maxi then (if A (llchild - 1) < A (m - 1) then llchild else m) else m
    let m := if lrchild ≤ maxi then (if A (lrchild - 1) < A (m - 1) then lrchild else m) else m
    let m := if rlchild ≤ maxi then (if A (rlchild - 1) < A (m - 1) then rlchild else m) else m
    let m := if rrchild ≤ maxi then (if A (rrchild - 1) < A (m - 1) then rrchild else m) else m
    m
  else
    lchild

/-- The recursion of `__trickle_down_min` (mmheap.h:111) with a recursion budget, over
natural numbers as in `cmmheap.__trickle_down_min_fuel`: this is the code as long as the
child and grandchild positions it computes fit an `int`. -/
def __trickle_down_min_fuel {V I : Type} [LinearOrder V] :
    Nat → (Nat → V) → (Nat → I) → Nat → Nat → (Nat → V) × (Nat → I)
  | 0, A, B, _, _ => (A, B)
  | fuel + 1, A, B, i, maxi =>
    let lchild := i <<< 1
    if lchild > maxi then (A, B)
    else
      let rchild := lchild + 1
      let m := __trickle_down_min_m A i maxi
      if m > rchild then
        if A (m - 1) < A (i - 1) then
          let AB := __ab_swap A B (i - 1) (m - 1)
          let parentm := m >>> 1
          let AB :=
            if AB.1 (m - 1) > AB.1 (parentm - 1) then __ab_swap AB.1 AB.2 (m - 1) (parentm - 1)
            else AB
          __trickle_down_min_fuel fuel AB.1 AB.2 m maxi
        else (A, B)
      else
        if A (m - 1) < A (i - 1) then __ab_swap A B (i - 1) (m - 1)
        else (A, B)

/-- The function template `__trickle_down_min` (mmheap.h:111); every call moves to a grandchild
`m > i` with `m <= maxi`, so a budget of `maxi` calls is never exhausted. -/
def __trickle_down_min {V I : Type} [LinearOrder V] (A : Nat → V) (B : Nat → I)
    (i maxi : Nat) : (Nat → V) × (Nat → I) :=
  __trickle_down_min_fuel maxi A B i maxi

/-- The candidate `m` that `__trickle_down_max` computes (mmheap.h:179-216), over natural
numbers as for `__trickle_down_min_m`. -/
def __trickle_down_max_m {V : Type} [LinearOrder V] (A : Nat → V) (i maxi : Nat) : Nat :=
  let lchild := i <<< 1
  let rchild := lchild + 1
  if rchild ≤ maxi then
    let m := if A (lchild - 1) > A (rchild - 1) then lchild else rchild
    let llchild := lchild <<< 1
    let lrchild := llchild + 1
    let rlchild := rchild <<< 1
    let rrchild := rlchild + 1
    let m := if llchild ≤ maxi then (if A (llchild - 1) > A (m - 1) then llchild else m) else m
    let m := if lrchild ≤ maxi then (if A (lrchild - 1) > A (m - 1) then lrchild else m) else m
    let m := if rlchild ≤ maxi then (if A (rlchild - 1) > A (m - 1) then rlchild else m) else m
    let m := if rrchild ≤ maxi then (if A (rrchild - 1) > A (m - 1) then rrchild else m) else m
    m
  else
    lchild

/-- The recursion of `__trickle_down_max` (mmheap.h:174) with a recursion budget, over
natural numbers as for `__trickle_down_min_fuel`. -/
def __trickle_down_max_fuel {V I : Type} [LinearOrder V] :
    Nat → (Nat → V) → (Nat → I) → Nat → Nat → (Nat → V) × (Nat → I)
  | 0, A, B, _, _ => (A, B)
  | fuel + 1, A, B, i, maxi =>
    let lchild := i <<< 1
    if lchild > maxi then (A, B)
    else
      let rchild := lchild + 1
      let m := __trickle_down_max_m A i maxi
      if m > rchild then
        if A (m - 1) > A (i - 1) then
          let AB := __ab_swap A B (i - 1) (m - 1)
          let parentm := m >>> 1
          let AB :=
            if AB.1 (m - 1) < AB.1 (parentm - 1) then __ab_swap AB.1 AB.2 (m - 1) (parentm - 1)
            else AB
          __trickle_down_max_fuel fuel AB.1 AB.2 m maxi
        else (A, B)
      else
        if A (m - 1) > A (i - 1) then __ab_swap A B (i - 1) (m - 1)
        else (A, B)

/-- The function template `__trickle_down_max` (mmheap.h:174). -/
def __trickle_down_max {V I : Type} [LinearOrder V] (A : Nat → V) (B : Nat → I)
    (i maxi : Nat) : (Nat → V) × (Nat → I) :=
  __trickle_down_max_fuel maxi A B i maxi

/-- The function template `__trickle_down` (mmheap.h:238). -/
def __trickle_down {V I : Type} [LinearOrder V] (A : Nat → V) (B : Nat → I)
    (i maxi : Nat) : (Nat → V) × (Nat → I) :=
  if __isminlevel i ≠ 0 then __trickle_down_min A B i maxi
  else __trickle_down_max A B i maxi

end MinMaxHeapAux

/-! ## `mmheap.h`: the class template `MinMaxHeap<V, I>` -/

/-- The data members of `MinMaxHeap<V, I>`: `value`, `index`, `length`, `maxlength`. -/
structure MinMaxHeap (V I : Type) where
  value : Nat → V
  index : Nat → I
  length : Nat
  maxlength : Nat

/-- An output argument passed by pointer (`V *v`, `I *i`): the null pointer, or a cell with
its current content. -/
inductive OutPtr (T : Type) where
  | null : OutPtr T
  | cell (content : T) : OutPtr T

/-- The test `v == nullptr`. -/
def OutPtr.isNull {T : Type} : OutPtr T → Bool
  | OutPtr.null => true
  | OutPtr.cell _ => false

namespace MinMaxHeap

/-- The member `PeekMinValue` (mmheap.h:283): the returned flag and the output cell
afterwards. -/
def PeekMinValue {V I : Type} (h : MinMaxHeap V I) (v : OutPtr V) : Bool × OutPtr V :=
  if h.length = 0 ∨ v.isNull = true then (false, v)
  else (true, OutPtr.cell (h.value 0))

/-- The member `PeekMaxValue` (mmheap.h:289). -/
def PeekMaxValue {V I : Type} [LinearOrder V] (h : MinMaxHeap V I) (v : OutPtr V) :
    Bool × OutPtr V :=
  if h.length = 0 ∨ v.isNull = true then (false, v)
  else if h.length = 1 then (true, OutPtr.cell (h.value 0))
  else if h.length = 2 then (true, OutPtr.cell (h.value 1))
  else if h.value 1 ≥ h.value 2 then (true, OutPtr.cell (h.value 1))
  else (true, OutPtr.cell (h.value 2))

/-- The member `PeekMinIndex` (mmheap.h:305). -/
def PeekMinIndex {V I : Type} (h : MinMaxHeap V I) (i : OutPtr I) : Bool × OutPtr I :=
  if h.length = 0 ∨ i.isNull = true then (false, i)
  else (true, OutPtr.cell (h.index 0))

/-- The member `PeekMaxIndex` (mmheap.h:311). -/
def PeekMaxIndex {V I : Type} [LinearOrder V] (h : MinMaxHeap V I) (i : OutPtr I) :
    Bool × OutPtr I :=
  if h.length = 0 ∨ i.isNull = true then (false, i)
  else if h.length = 1 then (true, OutPtr.cell (h.index 0))
  else if h.length = 2 then (true, OutPtr.cell (h.index 1))
  else if h.value 1 ≥ h.value 2 then (true, OutPtr.cell (h.index 1))
  else (true, OutPtr.cell (h.index 2))

/-- The member `PeekMin` (mmheap.h:327), `PeekMinValue(v) || PeekMinIndex(i)`: the second
call is made only when the first returns `false`. The result is the returned flag and the two
output cells afterwards. -/
def PeekMin {V I : Type} (h : MinMaxHeap V I) (v : OutPtr V) (i : OutPtr I) :
    Bool × OutPtr V × OutPtr I :=
  let r1 := PeekMinValue h v
  if r1.1 = true then (true, r1.2, i)
  else
    let r2 := PeekMinIndex h i
    (r2.1, r1.2, r2.2)

/-- The member `PeekMax` (mmheap.h:331), `PeekMaxValue(v) || PeekMaxIndex(i)`. -/
def PeekMax {V I : Type} [LinearOrder V] (h : MinMaxHeap V I) (v : OutPtr V) (i : OutPtr I) :
    Bool × OutPtr V × OutPtr I :=
  let r1 := PeekMaxValue h v
  if r1.1 = true then (true, r1.2, i)
  else
    let r2 := PeekMaxIndex h i
    (r2.1, r1.2, r2.2)

/-- The member `Insert` (mmheap.h:337): the returned flag and the object afterwards. -/
def Insert {V I : Type} [LinearOrder V] (h : MinMaxHeap V I) (v : V) (i : I) :
    Bool × MinMaxHeap V I :=
  if h.length = h.maxlength then (false, h)
  else
    let A := h.value
    let B := h.index
    let j := h.length
    let length := h.length + 1
    let A := Function.update A j v
    let B := Function.update B j i
    let AB := MinMaxHeapAux.__bubble_up A B length
    (true, { value := AB.1, index := AB.2, length := length, maxlength := h.maxlength })

/-- The member `RemoveMin` (mmheap.h:349). -/
def RemoveMin {V I : Type} [LinearOrder V] (h : MinMaxHeap V I) : Bool × MinMaxHeap V I :=
  if h.length = 0 then (false, h)
  else
    let A := h.value
    let B := h.index
    let last_a := A (h.length - 1)
    let last_b := B (h.length - 1)
    let length := h.length - 1
    let A := Function.update A 0 last_a
    let B := Function.update B 0 last_b
    let AB := MinMaxHeapAux.__trickle_down A B 1 length
    (true, { value := AB.1, index := AB.2, length := length, maxlength := h.maxlength })

/-- The position `iins` that `RemoveMax` vacates (mmheap.h:370-381), for a non-empty heap. -/
def RemoveMax_iins {V I : Type} [LinearOrder V] (h : MinMaxHeap V I) : Nat :=
  if h.length = 1 then 1
  else if h.length = 2 then 2
  else if h.value 1 ≥ h.value 2 then 2
  else 3

/-- The member `RemoveMax` (mmheap.h:363). -/
def RemoveMax {V I : Type} [LinearOrder V] (h : MinMaxHeap V I) : Bool × MinMaxHeap V I :=
  if h.length = 0 then (false, h)
  else
    let A := h.value
    let B := h.index
    let last_a := A (h.length - 1)
    let last_b := B (h.length - 1)
    let iins := RemoveMax_iins h
    let length := h.length - 1
    let A := Function.update A (iins - 1) last_a
    let B := Function.update B (iins - 1) last_b
    let AB := MinMaxHeapAux.__trickle_down A B iins length
    (true, { value := AB.1, index := AB.2, length := length, maxlength := h.maxlength })

end MinMaxHeap

namespace cmmheap

/-! ## The min-max heap property and the reference notions of the specification -/

/-- Position `i` lies on a min level: its bit length (`Nat.size`) is odd. -/
def minLevel (i : Nat) : Prop := Nat.size i % 2 = 1

/-- Node `a` dominates the node `d` below it: on a min level the value at `a` is at most the
value at `d`, on a max level it is at least that value (positions are 1-based, position `p`
lives in slot `p - 1`). -/
def dominates {V : Type} [LinearOrder V] (A : Nat → V) (a d : Nat) : Prop :=
  (minLevel a → A (a - 1) ≤ A (d - 1)) ∧ (¬ minLevel a → A (d - 1) ≤ A (a - 1))

/-- The min-max heap property of the first `n` slots of `A`: every position `d <= n` is
dominated by each of its proper ancestors `d / 2 ^ k` (`k >= 1`). -/
def MinMaxHeapProp {V : Type} [LinearOrder V] (A : Nat → V) (n : Nat) : Prop :=
  ∀ d, d ≤ n → ∀ k, 1 ≤ k → 1 ≤ d / 2 ^ k → dominates A (d / 2 ^ k) d

/-- An executable check of the min-max heap property, with the level parity computed by the
code's own `isminlevel`. -/
def heap_check {V : Type} [LinearOrder V] (A : Nat → V) (n : Nat) : Bool :=
  decide (∀ d, d < n + 1 → ∀ k, k < d → 1 ≤ k → 1 ≤ d / 2 ^ k →
    if isminlevel (d / 2 ^ k : Nat) ≠ 0 then A (d / 2 ^ k - 1) ≤ A (d - 1)
    else A (d - 1) ≤ A (d / 2 ^ k - 1))

/-- The multiset of (value, tag) pairs held by the first `n` slots. -/
def slot_pairs {V : Type} (A : Nat → V) (B : Nat → Int) (n : Nat) : Multiset (V × Int) :=
  Multiset.map (fun j => (A j, B j)) (Multiset.range n)

/-- The multiset of (value, tag) pairs stored in a heap (slots `0 .. length - 1`). -/
def pairs {V : Type} (mmheap : minmaxheap V) : Multiset (V × Int) :=
  slot_pairs mmheap.value mmheap.index mmheap.length

/-- Reference minimum: scan slots `0 .. n - 1` from left to right keeping the smallest value
seen (`none` when `n = 0`). -/
def scan_min {V : Type} [LinearOrder V] (A : Nat → V) : Nat → Option V
  | 0 => none
  | n + 1 =>
    match scan_min A n with
    | none => some (A n)
    | some b => if A n < b then some (A n) else some b

/-- Reference maximum: scan slots `0 .. n - 1` from left to right keeping the largest value
seen (`none` when `n = 0`). -/
def scan_max {V : Type} [LinearOrder V] (A : Nat → V) : Nat → Option V
  | 0 => none
  | n + 1 =>
    match scan_max A n with
    | none => some (A n)
    | some b => if b < A n then some (A n) else some b

/-- A sample heap with four stored pairs and capacity six. -/
def example_heap : minmaxheap Int :=
  { value := fun j => [1, 8, 5, 3].getD j 0
    index := fun j => [10, 11, 12, 13].getD j 0
    length := 4
    maxlength := 6 }

/-- A sample full heap with three stored pairs whose largest value sits in the last slot. -/
def example_heap3 : minmaxheap Int :=
  { value := fun j => [1, 5, 8].getD j 0
    index := fun j => [11, 10, 12].getD j 0
    length := 3
    maxlength := 3 }

/-! ## Auxiliary notions used by the proofs -/

/-- Position `a` is a proper ancestor of position `d` in the implicit binary tree. -/
def Anc (a d : Nat) : Prop := ∃ k, 1 ≤ k ∧ d / 2 ^ k = a ∧ 1 ≤ a

/-- Dominance with respect to an arbitrary level predicate `P` ("is a min level"). -/
def domP {V : Type} [LinearOrder V] (P : Nat → Prop) (A : Nat → V) (a d : Nat) : Prop :=
  (P a → A (a - 1) ≤ A (d - 1)) ∧ (¬ P a → A (d - 1) ≤ A (a - 1))

/-- The heap property with respect to `P`, except on the ancestor/descendant pairs singled
out by `E`. -/
def HeapExc {V : Type} [LinearOrder V] (P : Nat → Prop) (E : Nat → Nat → Prop)
    (A : Nat → V) (n : Nat) : Prop :=
  ∀ a d, Anc a d → d ≤ n → ¬ E a d → domP P A a d

/-- The heap property of the first `n` slots with respect to the level predicate `P`. -/
def HeapP {V : Type} [LinearOrder V] (P : Nat → Prop) (A : Nat → V) (n : Nat) : Prop :=
  ∀ a d, Anc a d → d ≤ n → domP P A a d

/-- Position `m` is within the occupancy `maxi`, is one of the candidates `S`, and holds a
smallest value among the candidates that are within the occupancy. -/
def IsMinAmong {V : Type} [LinearOrder V] (A : Nat → V) (maxi : Nat) (S : List Nat)
    (m : Nat) : Prop :=
  m ≤ maxi ∧ m ∈ S ∧ ∀ c, c ∈ S → c ≤ maxi → A (m - 1) ≤ A (c - 1)

/-- A level predicate alternates from one level to the next. -/
def Alternates (P : Nat → Prop) : Prop := ∀ a, 2 ≤ a → (P (a / 2) ↔ ¬ P a)

end cmmheap

namespace cmmheap

/-! ## `cmmheap.h`: creation and copy -/

/-- The function `mmheap_create` (cmmheap.h:33). `fresh_value` and `fresh_index` are the
indeterminate contents of the two arrays that `malloc` hands out; `maxlength` is stored as
given, without any check (the argument is a non-negative `int` here). -/
def mmheap_create {V : Type} (fresh_value : Nat → V) (fresh_index : Nat → Int)
    (maxlength : Nat) : minmaxheap V :=
  { value := fresh_value, index := fresh_index, maxlength := maxlength, length := 0 }

/-- The body of the `for` loop of `ksmallest` (cmmheap-test.c:26-34) at index `i`. The
comparison `x[i] < mmheap_peekmax_value(pheap)` is false when the peek returns `NAN`. -/
def ksmallest_body {V : Type} [LinearOrder V] (x : Nat → V) (k : Nat)
    (pheap : minmaxheap V) (i : Nat) : minmaxheap V :=
  if mmheap_getlength pheap = k then
    match mmheap_peekmax_value pheap with
    | some mx =>
      if x i < mx then (mmheap_insert (mmheap_removemax pheap).2 (x i) i).2
      else pheap
    | none => pheap
  else (mmheap_insert pheap (x i) i).2

/-- The `for` loop of `ksmallest` (cmmheap-test.c:25): the heap after the iterations
`0 .. n - 1`. -/
def ksmallest_for {V : Type} [LinearOrder V] (x : Nat → V) (k : Nat) (pheap : minmaxheap V) :
    Nat → minmaxheap V
  | 0 => pheap
  | i + 1 => ksmallest_body x k (ksmallest_for x k pheap i) i

/-- The `while` loop of `ksmallest` (cmmheap-test.c:38-43) with a recursion budget: the final
`i` and the output arrays `xk`, `ik`. -/
def ksmallest_while {V : Type} [LinearOrder V] :
    Nat → minmaxheap V → Nat → (Nat → Option V) → (Nat → Int) →
      Nat × (Nat → Option V) × (Nat → Int)
  | 0, _, i, xk, ik => (i, xk, ik)
  | fuel + 1, pheap, i, xk, ik =>
    if mmheap_getlength pheap ≠ 0 then
      let xk := Function.update xk i (mmheap_peekmin_value pheap)
      let ik := Function.update ik i (mmheap_peekmin_index pheap)
      let pheap := (mmheap_removemin pheap).2
      ksmallest_while fuel pheap (i + 1) xk ik
    else (i, xk, ik)

/-- The function `ksmallest` (cmmheap-test.c:19): the returned count and the output arrays
`xk`, `ik` afterwards. The input `x` holds ordered (NaN-free) values; an output slot holds a
`double`, which is `none` for `NAN`. Every pass of the `while` loop removes one element, so a
budget equal to the heap length is never exhausted. The heap operations are the ones over
natural numbers; `ksmallest_run` is the same function with the checked operations. -/
def ksmallest {V : Type} [LinearOrder V] (fresh_value : Nat → V) (fresh_index : Nat → Int)
    (x : Nat → V) (n k : Nat) (xk : Nat → Option V) (ik : Nat → Int) :
    Nat × (Nat → Option V) × (Nat → Int) :=
  let pheap := mmheap_create fresh_value fresh_index k
  let pheap := ksmallest_for x k pheap n
  ksmallest_while (mmheap_getlength pheap) pheap 0 xk ik

/-- The body of the `for` loop of `klargest` (cmmheap-test.c:55-63) at index `i`. -/
def klargest_body {V : Type} [LinearOrder V] (x : Nat → V) (k : Nat)
    (pheap : minmaxheap V) (i : Nat) : minmaxheap V :=
  if mmheap_getlength pheap = k then
    match mmheap_peekmin_value pheap with
    | some mn =>
      if x i > mn then (mmheap_insert (mmheap_removemin pheap).2 (x i) i).2
      else pheap
    | none => pheap
  else (mmheap_insert pheap (x i) i).2

/-- The `for` loop of `klargest` (cmmheap-test.c:54). -/
def klargest_for {V : Type} [LinearOrder V] (x : Nat → V) (k : Nat) (pheap : minmaxheap V) :
    Nat → minmaxheap V
  | 0 => pheap
  | i + 1 => klargest_body x k (klargest_for x k pheap i) i

/-- The `while` loop of `klargest` (cmmheap-test.c:67-72) with a recursion budget. -/
def klargest_while {V : Type} [LinearOrder V] :
    Nat → minmaxheap V → Nat → (Nat → Option V) → (Nat → Int) →
      Nat × (Nat → Option V) × (Nat → Int)
  | 0, _, i, xk, ik => (i, xk, ik)
  | fuel + 1, pheap, i, xk, ik =>
    if mmheap_getlength pheap ≠ 0 then
      let xk := Function.update xk i (mmheap_peekmax_value pheap)
      let ik := Function.update ik i (mmheap_peekmax_index pheap)
      let pheap := (mmheap_removemax pheap).2
      klargest_while fuel pheap (i + 1) xk ik
    else (i, xk, ik)

/-- The function `klargest` (cmmheap-test.c:48), with the heap operations over natural
numbers; `klargest_run` is the same function with the checked operations. -/
def klargest {V : Type} [LinearOrder V] (fresh_value : Nat → V) (fresh_index : Nat → Int)
    (x : Nat → V) (n k : Nat) (xk : Nat → Option V) (ik : Nat → Int) :
    Nat × (Nat → Option V) × (Nat → Int) :=
  let pheap := mmheap_create fresh_value fresh_index k
  let pheap := klargest_for x k pheap n
  klargest_while (mmheap_getlength pheap) pheap 0 xk ik

end cmmheap

namespace MinMaxHeap

/-- The constructor `MinMaxHeap(int m)` (mmheap.h:252): a non-positive `m` is replaced by 1.
`fresh_value` and `fresh_index` are the indeterminate contents of the arrays from `new`. -/
def construct {V I : Type} (fresh_value : Nat → V) (fresh_index : Nat → I) (m : Int) :
    MinMaxHeap V I :=
  let m := if m ≤ 0 then 1 else m
  { value := fresh_value, index := fresh_index, maxlength := m.toNat, length := 0 }

end MinMaxHeap

namespace cmmheap

/-! ## Call sequences, the peek-max position rule, input pairs -/

/-- One call of a mutating operation of `cmmheap.h`. -/
inductive heap_call (V : Type) where
  | insert (v : V) (t : Int) : heap_call V
  | removemin : heap_call V
  | removemax : heap_call V

/-- The returned flag and the heap after one call. -/
def heap_call.apply {V : Type} [LinearOrder V] : heap_call V → minmaxheap V → Nat × minmaxheap V
  | heap_call.insert v t, h => mmheap_insert h v t
  | heap_call.removemin, h => mmheap_removemin h
  | heap_call.removemax, h => mmheap_removemax h

/-- The pairs `(x[j], j)` for `j < n`, as a multiset: what a selection routine is fed. -/
def input_pairs {V : Type} (x : Nat → V) (n : Nat) : Multiset (V × Int) :=
  Multiset.map (fun j => (x j, (j : Int))) (Multiset.range n)

/-- The reference of the round-trip tests: the first `n` inputs sorted in ascending order. -/
def sorted_input {V : Type} [LinearOrder V] (x : Nat → V) (n : Nat) : List V :=
  List.insertionSort (· ≤ ·) ((List.range n).map x)

/-! ## A memory with pointers, for the aliasing questions -/

/-- One call of a mutating member of `MinMaxHeap<V, I>`. -/
inductive object_call (V I : Type) where
  | Insert (v : V) (i : I) : object_call V I
  | RemoveMin : object_call V I
  | RemoveMax : object_call V I

/-- The returned flag and the object after one call. -/
def object_call.apply {V I : Type} [LinearOrder V] :
    object_call V I → MinMaxHeap V I → Bool × MinMaxHeap V I
  | object_call.Insert v i, h => MinMaxHeap.Insert h v i
  | object_call.RemoveMin, h => MinMaxHeap.RemoveMin h
  | object_call.RemoveMax, h => MinMaxHeap.RemoveMax h

/-- The sample input of the selection scenario: `[9, 3, 7, 1, 8, 2, 5]`. -/
def example_input : Nat → Int := fun j => [9, 3, 7, 1, 8, 2, 5].getD j 0

/-- A sample `MinMaxHeap<int, int>` object holding the single pair `(1, 7)`. -/
def example_object : MinMaxHeap Int Int :=
  { value := fun _ => 1, index := fun _ => 7, length := 1, maxlength := 1 }

end cmmheap

namespace cmmheap

/-- The children and grandchildren of the 1-based position `i` that exist within the occupancy
`maxi`, in the order of the specification: left child, right child, then the grandchildren
from left to right. -/
def candidates (i maxi : Nat) : List Nat :=
  [2 * i, 2 * i + 1, 4 * i, 4 * i + 1, 4 * i + 2, 4 * i + 3].filter (fun c => c ≤ maxi)

/-- The same candidates with the right child before the left child. -/
def candidates_right_first (i maxi : Nat) : List Nat :=
  [2 * i + 1, 2 * i, 4 * i, 4 * i + 1, 4 * i + 2, 4 * i + 3].filter (fun c => c ≤ maxi)

/-- The earliest position of the list `l` that holds a smallest value among the positions of
`l` (`none` for the empty list). -/
def earliest_min {V : Type} [LinearOrder V] (A : Nat → V) (l : List Nat) : Option Nat :=
  l.find? (fun c => l.all (fun d => decide (A (c - 1) ≤ A (d - 1))))

/-- The earliest position of the list `l` that holds a largest value among the positions of
`l` (`none` for the empty list). -/
def earliest_max {V : Type} [LinearOrder V] (A : Nat → V) (l : List Nat) : Option Nat :=
  l.find? (fun c => l.all (fun d => decide (A (d - 1) ≤ A (c - 1))))

/-- Three slots whose second and third hold the same smallest value. -/
def example_tie_min : Nat → Int := fun j => [5, 1, 1].getD j 0

/-- Three slots whose second and third hold the same largest value. -/
def example_tie_max : Nat → Int := fun j => [1, 5, 5].getD j 0

/-! ## The parent correction of trickle-down -/

/-- The arrays with which `__trickle_down_min` recurses from a grandchild `m` that improves on
`i` (cmmheap.h:197-201): the slots of `i` and `m` are exchanged, then the slots of `m` and of
its parent `m >> 1` are exchanged if `A[m-1] > A[parentm-1]` holds at that point. -/
def parent_correction_min {V : Type} [LinearOrder V] (A : Nat → V) (B : Nat → Int)
    (i m : Nat) : (Nat → V) × (Nat → Int) :=
  let AB := __ab_swap A B (i - 1) (m - 1)
  let parentm := m >>> 1
  if AB.1 (m - 1) > AB.1 (parentm - 1) then __ab_swap AB.1 AB.2 (m - 1) (parentm - 1)
  else AB

/-- The arrays with which `__trickle_down_max` recurses from a grandchild `m` that improves on
`i` (cmmheap.h:260-264). -/
def parent_correction_max {V : Type} [LinearOrder V] (A : Nat → V) (B : Nat → Int)
    (i m : Nat) : (Nat → V) × (Nat → Int) :=
  let AB := __ab_swap A B (i - 1) (m - 1)
  let parentm := m >>> 1
  if AB.1 (m - 1) < AB.1 (parentm - 1) then __ab_swap AB.1 AB.2 (m - 1) (parentm - 1)
  else AB

/-- Four slots, a min-max heap below the root, whose root value 5 lies between the smallest
grandchild value 1 and the value 8 of that grandchild's parent. -/
def example_correction_min : Nat → Int := fun j => [5, 8, 7, 1].getD j 0

/-- Four slots in which the root value 9 is above the value 8 of the parent of the smallest
grandchild. -/
def example_correction_swap : Nat → Int := fun j => [9, 8, 7, 1].getD j 0

/-- Eight slots whose root is on a max level when read from position 2: position 2 holds 3,
its grandchild at position 8 holds 9 and that grandchild's parent at position 4 holds 2. -/
def example_correction_max : Nat → Int := fun j => [0, 3, 1, 2, 1, 1, 1, 9].getD j 0

/-- The tags that number the slots. -/
def slot_tags : Nat → Int := fun j => (j : Int)

/-! ## Subtrees -/

/-- Position `p` lies in the subtree rooted at position `i`: `p >> k` is `i` for some `k`
(`k = 0` for `i` itself). -/
def in_subtree (i p : Nat) : Prop := ∃ k, k < p + 1 ∧ p / 2 ^ k = i

instance in_subtree_decidable (i p : Nat) : Decidable (in_subtree i p) :=
  inferInstanceAs (Decidable (∃ k, k < p + 1 ∧ p / 2 ^ k = i))

/-- The multiset of (value, tag) pairs held by the positions of the subtree rooted at `i`
among the first `maxi` slots. -/
def subtree_pairs {V : Type} (A : Nat → V) (B : Nat → Int) (i maxi : Nat) :
    Multiset (V × Int) :=
  Multiset.map (fun j => (A j, B j))
    (Multiset.filter (fun j => in_subtree i (j + 1)) (Multiset.range maxi))

/-- An executable check that every proper descendant of `i` dominates its own descendants
within `maxi`, with the level parity computed by the code's own `isminlevel`. -/
def subtree_check {V : Type} [LinearOrder V] (A : Nat → V) (i maxi : Nat) : Bool :=
  decide (∀ d, d < maxi + 1 → ∀ k, k < d →
    (1 ≤ k ∧ in_subtree i (d / 2 ^ k) ∧ d / 2 ^ k ≠ i) →
    if isminlevel (d / 2 ^ k : Nat) ≠ 0 then A (d / 2 ^ k - 1) ≤ A (d - 1)
    else A (d - 1) ≤ A (d / 2 ^ k - 1))

/-- Seven slots whose root value 6 is out of place while the two subtrees below it are in
order. -/
def example_repair : Nat → Int := fun j => [6, 9, 8, 2, 5, 3, 4].getD j 0

/-- Position `m` splits the list `l` so that every position before it holds a strictly larger
value and every position after it holds a value at least as large. -/
def SplitsMin {V : Type} [LinearOrder V] (A : Nat → V) (l : List Nat) (m : Nat) : Prop :=
  ∃ pre post, l = pre ++ m :: post ∧ (∀ x, x ∈ pre → A (m - 1) < A (x - 1)) ∧
    (∀ x, x ∈ post → A (m - 1) ≤ A (x - 1))

/-! ## The routines with `int` range checks, a recursion budget and an access log

The definitions of this section follow `cmmheap.h` statement by statement, like the ones
above, and add three things: the left shifts and increments of an `int` are checked against
`INT_MAX` (a signed overflow is undefined behaviour in C, so the evaluation stops there with
`fault.overflow`); a call made with an exhausted recursion budget stops with `fault.budget`;
and every array access is recorded, by its 0-based index, in a log that is returned with
the arrays. An `int` is 32 bits wide. -/

/-- The largest value of an `int`. -/
def INT_MAX : Nat := 2147483647

/-- What stops an evaluation: a signed overflow in `int` arithmetic, or an exhausted
recursion budget. -/
inductive fault where
  | overflow : fault
  | budget : fault

/-- The expression `x << 1` for an `int` `x >= 0`. -/
def int_shl1 (x : Nat) : Except fault Nat :=
  if x <<< 1 ≤ INT_MAX then Except.ok (x <<< 1) else Except.error fault.overflow

/-- The expression `x + 1` (and `x++`) for an `int` `x >= 0`. -/
def int_inc (x : Nat) : Except fault Nat :=
  if x + 1 ≤ INT_MAX then Except.ok (x + 1) else Except.error fault.overflow

/-- The value that an `int` expression takes when a signed overflow wraps around (two's
complement on 32 bits), which is how compiled code commonly behaves where C leaves the
behaviour undefined. -/
def int_wrap (x : Int) : Int := Int.bmod x 4294967296

/-- The 0-based index `p - 1` at which the 1-based position `p` is stored. -/
def slot_of (p : Nat) : Int := (p : Int) - 1

/-- The array accesses of `__ab_swap(A, B, i, j)` (cmmheap.h:85), in program order. -/
def __ab_swap_log (i j : Int) : List Int := [j, i, j, i, j, i, j, i]

/-- The function `__bubble_up_min` (cmmheap.h:96), checked and logged. -/
def __bubble_up_min_run {V : Type} [LinearOrder V] :
    Nat → (Nat → V) → (Nat → Int) → Nat → Except fault ((Nat → V) × (Nat → Int) × List Int)
  | 0, _, _, _ => Except.error fault.budget
  | fuel + 1, A, B, i =>
    let grandparenti := i >>> 2
    if grandparenti ≠ 0 then
      if A (i - 1) < A (grandparenti - 1) then
        let AB := __ab_swap A B (i - 1) (grandparenti - 1)
        (__bubble_up_min_run fuel AB.1 AB.2 grandparenti).map fun r =>
          (r.1, r.2.1, [slot_of i, slot_of grandparenti] ++
            __ab_swap_log (slot_of i) (slot_of grandparenti) ++ r.2.2)
      else Except.ok (A, B, [slot_of i, slot_of grandparenti])
    else Except.ok (A, B, [])

/-- The function `__bubble_up_max` (cmmheap.h:107), checked and logged. -/
def __bubble_up_max_run {V : Type} [LinearOrder V] :
    Nat → (Nat → V) → (Nat → Int) → Nat → Except fault ((Nat → V) × (Nat → Int) × List Int)
  | 0, _, _, _ => Except.error fault.budget
  | fuel + 1, A, B, i =>
    let grandparenti := i >>> 2
    if grandparenti ≠ 0 then
      if A (i - 1) > A (grandparenti - 1) then
        let AB := __ab_swap A B (i - 1) (grandparenti - 1)
        (__bubble_up_max_run fuel AB.1 AB.2 grandparenti).map fun r =>
          (r.1, r.2.1, [slot_of i, slot_of grandparenti] ++
            __ab_swap_log (slot_of i) (slot_of grandparenti) ++ r.2.2)
      else Except.ok (A, B, [slot_of i, slot_of grandparenti])
    else Except.ok (A, B, [])

/-- The function `__bubble_up` (cmmheap.h:118), checked and logged; `fuel` is the budget of
the recursion it starts. -/
def __bubble_up_run {V : Type} [LinearOrder V] (fuel : Nat) (A : Nat → V) (B : Nat → Int)
    (i : Nat) : Except fault ((Nat → V) × (Nat → Int) × List Int) :=
  let parenti := i >>> 1
  if isminlevel i ≠ 0 then
    if parenti ≠ 0 then
      if A (i - 1) > A (parenti - 1) then
        let AB := __ab_swap A B (i - 1) (parenti - 1)
        (__bubble_up_max_run fuel AB.1 AB.2 parenti).map fun r =>
          (r.1, r.2.1, [slot_of i, slot_of parenti] ++
            __ab_swap_log (slot_of i) (slot_of parenti) ++ r.2.2)
      else
        (__bubble_up_min_run fuel A B i).map fun r =>
          (r.1, r.2.1, [slot_of i, slot_of parenti] ++ r.2.2)
    else
      __bubble_up_min_run fuel A B i
  else
    if parenti ≠ 0 then
      if A (i - 1) < A (parenti - 1) then
        let AB := __ab_swap A B (i - 1) (parenti - 1)
        (__bubble_up_min_run fuel AB.1 AB.2 parenti).map fun r =>
          (r.1, r.2.1, [slot_of i, slot_of parenti] ++
            __ab_swap_log (slot_of i) (slot_of parenti) ++ r.2.2)
      else
        (__bubble_up_max_run fuel A B i).map fun r =>
          (r.1, r.2.1, [slot_of i, slot_of parenti] ++ r.2.2)
    else
      __bubble_up_max_run fuel A B i

/-- One of the four grandchild blocks of `__trickle_down_min` (such as cmmheap.h:168-172):
`if (g <= maxi) { if (A[g-1] < A[m-1]) m = g; }`, on the current candidate and log. -/
def __trickle_down_min_m_step {V : Type} [LinearOrder V] (A : Nat → V) (maxi : Nat)
    (ml : Nat × List Int) (g : Nat) : Nat × List Int :=
  if g ≤ maxi then
    (if A (g - 1) < A (ml.1 - 1) then g else ml.1, ml.2 ++ [slot_of g, slot_of ml.1])
  else ml

/-- The candidate `m` of `__trickle_down_min` (cmmheap.h:155-191), given `lchild` and
`rchild`, checked and logged. -/
def __trickle_down_min_m_run {V : Type} [LinearOrder V] (A : Nat → V)
    (lchild rchild maxi : Nat) : Except fault (Nat × List Int) :=
  if rchild ≤ maxi then
    let m := if A (lchild - 1) < A (rchild - 1) then lchild else rchild
    let ml := (m, [slot_of lchild, slot_of rchild])
    (int_shl1 lchild).bind fun llchild =>
    (int_inc llchild).bind fun lrchild =>
    (int_shl1 rchild).bind fun rlchild =>
    (int_inc rlchild).bind fun rrchild =>
    let ml := __trickle_down_min_m_step A maxi ml llchild
    let ml := __trickle_down_min_m_step A maxi ml lrchild
    let ml := __trickle_down_min_m_step A maxi ml rlchild
    let ml := __trickle_down_min_m_step A maxi ml rrchild
    Except.ok ml
  else
    Except.ok (lchild, [])

/-- The function `__trickle_down_min` (cmmheap.h:149), checked and logged. -/
def __trickle_down_min_run {V : Type} [LinearOrder V] :
    Nat → (Nat → V) → (Nat → Int) → Nat → Nat →
      Except fault ((Nat → V) × (Nat → Int) × List Int)
  | 0, _, _, _, _ => Except.error fault.budget
  | fuel + 1, A, B, i, maxi =>
    (int_shl1 i).bind fun lchild =>
    if lchild > maxi then Except.ok (A, B, [])
    else
      (int_inc lchild).bind fun rchild =>
      (__trickle_down_min_m_run A lchild rchild maxi).bind fun ml =>
      let m := ml.1
      if m > rchild then
        if A (m - 1) < A (i - 1) then
          let AB := __ab_swap A B (i - 1) (m - 1)
          let parentm := m >>> 1
          let log := ml.2 ++ [slot_of m, slot_of i] ++ __ab_swap_log (slot_of i) (slot_of m) ++
            [slot_of m, slot_of parentm] ++
            (if AB.1 (m - 1) > AB.1 (parentm - 1) then
              __ab_swap_log (slot_of m) (slot_of parentm) else [])
          let AB :=
            if AB.1 (m - 1) > AB.1 (parentm - 1) then __ab_swap AB.1 AB.2 (m - 1) (parentm - 1)
            else AB
          (__trickle_down_min_run fuel AB.1 AB.2 m maxi).map fun r =>
            (r.1, r.2.1, log ++ r.2.2)
        else Except.ok (A, B, ml.2 ++ [slot_of m, slot_of i])
      else
        if A (m - 1) < A (i - 1) then
          let AB := __ab_swap A B (i - 1) (m - 1)
          Except.ok (AB.1, AB.2,
            ml.2 ++ [slot_of m, slot_of i] ++ __ab_swap_log (slot_of i) (slot_of m))
        else Except.ok (A, B, ml.2 ++ [slot_of m, slot_of i])

/-- One of the four grandchild blocks of `__trickle_down_max` (such as cmmheap.h:231-235):
`if (g <= maxi) { if (A[g-1] > A[m-1]) m = g; }`, on the current candidate and log. -/
def __trickle_down_max_m_step {V : Type} [LinearOrder V] (A : Nat → V) (maxi : Nat)
    (ml : Nat × List Int) (g : Nat) : Nat × List Int :=
  if g ≤ maxi then
    (if A (g - 1) > A (ml.1 - 1) then g else ml.1, ml.2 ++ [slot_of g, slot_of ml.1])
  else ml

/-- The candidate `m` of `__trickle_down_max` (cmmheap.h:218-254), given `lchild` and
`rchild`, checked and logged. -/
def __trickle_down_max_m_run {V : Type} [LinearOrder V] (A : Nat → V)
    (lchild rchild maxi : Nat) : Except fault (Nat × List Int) :=
  if rchild ≤ maxi then
    let m := if A (lchild - 1) > A (rchild - 1) then lchild else rchild
    let ml := (m, [slot_of lchild, slot_of rchild])
    (int_shl1 lchild).bind fun llchild =>
    (int_inc llchild).bind fun lrchild =>
    (int_shl1 rchild).bind fun rlchild =>
    (int_inc rlchild).bind fun rrchild =>
    let ml := __trickle_down_max_m_step A maxi ml llchild
    let ml := __trickle_down_max_m_step A maxi ml lrchild
    let ml := __trickle_down_max_m_step A maxi ml rlchild
    let ml := __trickle_down_max_m_step A maxi ml rrchild
    Except.ok ml
  else
    Except.ok (lchild, [])

/-- The function `__trickle_down_max` (cmmheap.h:212), checked and logged. -/
def __trickle_down_max_run {V : Type} [LinearOrder V] :
    Nat → (Nat → V) → (Nat → Int) → Nat → Nat →
      Except fault ((Nat → V) × (Nat → Int) × List Int)
  | 0, _, _, _, _ => Except.error fault.budget
  | fuel + 1, A, B, i, maxi =>
    (int_shl1 i).bind fun lchild =>
    if lchild > maxi then Except.ok (A, B, [])
    else
      (int_inc lchild).bind fun rchild =>
      (__trickle_down_max_m_run A lchild rchild maxi).bind fun ml =>
      let m := ml.1
      if m > rchild then
        if A (m - 1) > A (i - 1) then
          let AB := __ab_swap A B (i - 1) (m - 1)
          let parentm := m >>> 1
          let log := ml.2 ++ [slot_of m, slot_of i] ++ __ab_swap_log (slot_of i) (slot_of m) ++
            [slot_of m, slot_of parentm] ++
            (if AB.1 (m - 1) < AB.1 (parentm - 1) then
              __ab_swap_log (slot_of m) (slot_of parentm) else [])
          let AB :=
            if AB.1 (m - 1) < AB.1 (parentm - 1) then __ab_swap AB.1 AB.2 (m - 1) (parentm - 1)
            else AB
          (__trickle_down_max_run fuel AB.1 AB.2 m maxi).map fun r =>
            (r.1, r.2.1, log ++ r.2.2)
        else Except.ok (A, B, ml.2 ++ [slot_of m, slot_of i])
      else
        if A (m - 1) > A (i - 1) then
          let AB := __ab_swap A B (i - 1) (m - 1)
          Except.ok (AB.1, AB.2,
            ml.2 ++ [slot_of m, slot_of i] ++ __ab_swap_log (slot_of i) (slot_of m))
        else Except.ok (A, B, ml.2 ++ [slot_of m, slot_of i])

/-- The function `__trickle_down` (cmmheap.h:275), checked and logged; `fuel` is the budget
of the recursion it starts. -/
def __trickle_down_run {V : Type} [LinearOrder V] (fuel : Nat) (A : Nat → V) (B : Nat → Int)
    (i maxi : Nat) : Except fault ((Nat → V) × (Nat → Int) × List Int) :=
  if isminlevel i ≠ 0 then __trickle_down_min_run fuel A B i maxi
  else __trickle_down_max_run fuel A B i maxi

/-- The array accesses of `mmheap_peekmin_value` (cmmheap.h:293). -/
def mmheap_peekmin_value_log {V : Type} (mmheap : minmaxheap V) : List Int :=
  if mmheap.length = 0 then [] else [0]

/-- The array accesses of `mmheap_peekmin_index` (cmmheap.h:300). -/
def mmheap_peekmin_index_log {V : Type} (mmheap : minmaxheap V) : List Int :=
  if mmheap.length = 0 then [] else [0]

/-- The array accesses of `mmheap_peekmax_value` (cmmheap.h:307). -/
def mmheap_peekmax_value_log {V : Type} [LinearOrder V] (mmheap : minmaxheap V) : List Int :=
  if mmheap.length = 0 then []
  else if mmheap.length = 1 then [0]
  else if mmheap.length = 2 then [1]
  else if mmheap.value 1 ≥ mmheap.value 2 then [1, 2, 1]
  else [1, 2, 2]

/-- The array accesses of `mmheap_peekmax_index` (cmmheap.h:325). -/
def mmheap_peekmax_index_log {V : Type} [LinearOrder V] (mmheap : minmaxheap V) : List Int :=
  if mmheap.length = 0 then []
  else if mmheap.length = 1 then [0]
  else if mmheap.length = 2 then [1]
  else if mmheap.value 1 ≥ mmheap.value 2 then [1, 2, 1]
  else [1, 2, 2]

/-- The function `mmheap_insert` (cmmheap.h:345), checked and logged: the returned flag,
the heap afterwards and the array accesses. The recursion started by `__bubble_up` gets a
budget of `length` calls. -/
def mmheap_insert_run {V : Type} [LinearOrder V] (mmheap : minmaxheap V) (v : V) (i : Int) :
    Except fault (Nat × minmaxheap V × List Int) :=
  if mmheap.length = mmheap.maxlength then Except.ok (0, mmheap, [])
  else
    let A := mmheap.value
    let B := mmheap.index
    let j := mmheap.length
    (int_inc mmheap.length).bind fun length =>
    let A := Function.update A j v
    let B := Function.update B j i
    (__bubble_up_run length A B length).map fun r =>
      (1, { value := r.1, index := r.2.1, length := length, maxlength := mmheap.maxlength },
        [(j : Int), (j : Int)] ++ r.2.2)

/-- The function `mmheap_removemin` (cmmheap.h:365), checked and logged. The recursion started
by `__trickle_down` gets a budget of `length + 1` calls. -/
def mmheap_removemin_run {V : Type} [LinearOrder V] (mmheap : minmaxheap V) :
    Except fault (Nat × minmaxheap V × List Int) :=
  if mmheap.length = 0 then Except.ok (0, mmheap, [])
  else
    let A := mmheap.value
    let B := mmheap.index
    let last_a := A (mmheap.length - 1)
    let last_b := B (mmheap.length - 1)
    let log := [(mmheap.length : Int) - 1, (mmheap.length : Int) - 1]
    let length := mmheap.length - 1
    let A := Function.update A 0 last_a
    let B := Function.update B 0 last_b
    let log := log ++ [0, 0]
    (__trickle_down_run (length + 1) A B 1 length).map fun r =>
      (1, { value := r.1, index := r.2.1, length := length, maxlength := mmheap.maxlength },
        log ++ r.2.2)

/-- The function `mmheap_removemax` (cmmheap.h:384), checked and logged. -/
def mmheap_removemax_run {V : Type} [LinearOrder V] (mmheap : minmaxheap V) :
    Except fault (Nat × minmaxheap V × List Int) :=
  if mmheap.length = 0 then Except.ok (0, mmheap, [])
  else
    let A := mmheap.value
    let B := mmheap.index
    let last_a := A (mmheap.length - 1)
    let last_b := B (mmheap.length - 1)
    let log := [(mmheap.length : Int) - 1, (mmheap.length : Int) - 1]
    let iins := mmheap_removemax_iins mmheap
    let log := log ++
      (if mmheap.length = 1 then [] else if mmheap.length = 2 then [] else [1, 2])
    let length := mmheap.length - 1
    let A := Function.update A (iins - 1) last_a
    let B := Function.update B (iins - 1) last_b
    let log := log ++ [slot_of iins, slot_of iins]
    (__trickle_down_run (length + 1) A B iins length).map fun r =>
      (1, { value := r.1, index := r.2.1, length := length, maxlength := mmheap.maxlength },
        log ++ r.2.2)

/-- Every index of the log lies in `0 .. n - 1`. -/
def log_within (n : Nat) (log : List Int) : Prop :=
  ∀ j, j ∈ log → 0 ≤ j ∧ j < (n : Int)

/-- Whether an evaluation stopped at a signed overflow. -/
def stops_at_overflow {α : Type} : Except fault α → Bool
  | Except.error fault.overflow => true
  | _ => false

/-- A min-max heap with `2^30 + 1` stored pairs: the root holds 0, the positions `4^t`
(`t = 1 .. 15`) on the leftmost path hold 1, every other position holds 2; the tags number
the slots. -/
def big_heap : minmaxheap Int :=
  { value := fun j =>
      if j = 0 then 0
      else if j + 1 ∈ [4, 16, 64, 256, 1024, 4096, 16384, 65536, 262144, 1048576, 4194304,
        16777216, 67108864, 268435456, 1073741824] then 1
      else 2
    index := fun j => (j : Int)
    length := 1073741825
    maxlength := 1073741825 }

end cmmheap

namespace cmmheap

/-! ## The selection routines and two large heaps, in the range of `int` -/

/-- What a checked evaluation returned; `none` when it stopped at a fault. -/
def returned {α : Type} : Except fault α → Option α
  | Except.ok a => some a
  | Except.error _ => none

/-- The body of the `for` loop of `ksmallest` (cmmheap-test.c:26-34) at index `i`, with the
heap operations checked. -/
def ksmallest_body_run {V : Type} [LinearOrder V] (x : Nat → V) (k : Nat)
    (pheap : minmaxheap V) (i : Nat) : Except fault (minmaxheap V) :=
  if mmheap_getlength pheap = k then
    match mmheap_peekmax_value pheap with
    | some mx =>
      if x i < mx then
        (mmheap_removemax_run pheap).bind fun r =>
        (mmheap_insert_run r.2.1 (x i) i).map fun s => s.2.1
      else Except.ok pheap
    | none => Except.ok pheap
  else (mmheap_insert_run pheap (x i) i).map fun s => s.2.1

/-- The `for` loop of `ksmallest` (cmmheap-test.c:25), checked: the heap after the iterations
`0 .. n - 1`, each followed by the increment `i++`. -/
def ksmallest_for_run {V : Type} [LinearOrder V] (x : Nat → V) (k : Nat)
    (pheap : minmaxheap V) : Nat → Except fault (minmaxheap V)
  | 0 => Except.ok pheap
  | i + 1 =>
    (ksmallest_for_run x k pheap i).bind fun pheap =>
    (ksmallest_body_run x k pheap i).bind fun pheap =>
    (int_inc i).map fun _ => pheap

/-- The `while` loop of `ksmallest` (cmmheap-test.c:38-43), checked; running out of the
recursion budget is a failure. -/
def ksmallest_while_run {V : Type} [LinearOrder V] :
    Nat → minmaxheap V → Nat → (Nat → Option V) → (Nat → Int) →
      Except fault (Nat × (Nat → Option V) × (Nat → Int))
  | 0, _, _, _, _ => Except.error fault.budget
  | fuel + 1, pheap, i, xk, ik =>
    if mmheap_getlength pheap ≠ 0 then
      let xk := Function.update xk i (mmheap_peekmin_value pheap)
      let ik := Function.update ik i (mmheap_peekmin_index pheap)
      (mmheap_removemin_run pheap).bind fun r =>
      (int_inc i).bind fun i1 =>
      ksmallest_while_run fuel r.2.1 i1 xk ik
    else Except.ok (i, xk, ik)

/-- The function `ksmallest` (cmmheap-test.c:19), checked: the returned count and the output
arrays `xk`, `ik` afterwards, or the fault at which the evaluation stops. The `while` loop
gets a budget of one pass per stored pair and one for the final test. -/
def ksmallest_run {V : Type} [LinearOrder V] (fresh_value : Nat → V)
    (fresh_index : Nat → Int) (x : Nat → V) (n k : Nat) (xk : Nat → Option V)
    (ik : Nat → Int) : Except fault (Nat × (Nat → Option V) × (Nat → Int)) :=
  let pheap := mmheap_create fresh_value fresh_index k
  (ksmallest_for_run x k pheap n).bind fun pheap =>
  ksmallest_while_run (mmheap_getlength pheap + 1) pheap 0 xk ik

/-- The body of the `for` loop of `klargest` (cmmheap-test.c:55-63) at index `i`, with the
heap operations checked. -/
def klargest_body_run {V : Type} [LinearOrder V] (x : Nat → V) (k : Nat)
    (pheap : minmaxheap V) (i : Nat) : Except fault (minmaxheap V) :=
  if mmheap_getlength pheap = k then
    match mmheap_peekmin_value pheap with
    | some mn =>
      if x i > mn then
        (mmheap_removemin_run pheap).bind fun r =>
        (mmheap_insert_run r.2.1 (x i) i).map fun s => s.2.1
      else Except.ok pheap
    | none => Except.ok pheap
  else (mmheap_insert_run pheap (x i) i).map fun s => s.2.1

/-- The `for` loop of `klargest` (cmmheap-test.c:54), checked. -/
def klargest_for_run {V : Type} [LinearOrder V] (x : Nat → V) (k : Nat)
    (pheap : minmaxheap V) : Nat → Except fault (minmaxheap V)
  | 0 => Except.ok pheap
  | i + 1 =>
    (klargest_for_run x k pheap i).bind fun pheap =>
    (klargest_body_run x k pheap i).bind fun pheap =>
    (int_inc i).map fun _ => pheap

/-- The `while` loop of `klargest` (cmmheap-test.c:67-72), checked. -/
def klargest_while_run {V : Type} [LinearOrder V] :
    Nat → minmaxheap V → Nat → (Nat → Option V) → (Nat → Int) →
      Except fault (Nat × (Nat → Option V) × (Nat → Int))
  | 0, _, _, _, _ => Except.error fault.budget
  | fuel + 1, pheap, i, xk, ik =>
    if mmheap_getlength pheap ≠ 0 then
      let xk := Function.update xk i (mmheap_peekmax_value pheap)
      let ik := Function.update ik i (mmheap_peekmax_index pheap)
      (mmheap_removemax_run pheap).bind fun r =>
      (int_inc i).bind fun i1 =>
      klargest_while_run fuel r.2.1 i1 xk ik
    else Except.ok (i, xk, ik)

/-- The function `klargest` (cmmheap-test.c:48), checked. -/
def klargest_run {V : Type} [LinearOrder V] (fresh_value : Nat → V)
    (fresh_index : Nat → Int) (x : Nat → V) (n k : Nat) (xk : Nat → Option V)
    (ik : Nat → Int) : Except fault (Nat × (Nat → Option V) × (Nat → Int)) :=
  let pheap := mmheap_create fresh_value fresh_index k
  (klargest_for_run x k pheap n).bind fun pheap =>
  klargest_while_run (mmheap_getlength pheap + 1) pheap 0 xk ik

/-- A min-max heap with `2^30 + 2` stored pairs: the root holds 0, the positions `2 * 4^t`
(`t = 0 .. 14`) on the leftmost path hold 2, every other position holds 1; the tags number
the slots. -/
def big_heap_max : minmaxheap Int :=
  { value := fun j =>
      if j = 0 then 0
      else if j + 1 ∈ [2, 8, 32, 128, 512, 2048, 8192, 32768, 131072, 524288, 2097152,
        8388608, 33554432, 134217728, 536870912] then 2
      else 1
    index := fun j => (j : Int)
    length := 1073741826
    maxlength := 1073741826 }

/-- An input of `2^30 + 2` values: the values of `big_heap` in the order of its slots,
followed by a 3. -/
def big_input : Nat → Int :=
  fun j => if j = 1073741825 then 3 else big_heap.value j

end cmmheap

namespace cmmheap

/-! ## Levels -/

theorem size_half (i : Nat) (hi : 1 ≤ i) : Nat.size i = Nat.size (i / 2) + 1 := by
  apply le_antisymm
  · rw [Nat.size_le, pow_succ]
    have := Nat.lt_size_self (i / 2)
    omega
  · have h1 : Nat.size (i / 2) < Nat.size i := by
      rw [Nat.lt_size]
      have h2 : Nat.size (i / 2) ≤ Nat.size (i / 2) := le_refl _
      by_cases h0 : i / 2 = 0
      · rw [h0]; simpa using hi
      · have h3 : Nat.size (i / 2) - 1 < Nat.size (i / 2) := by
          have := Nat.size_pos.2 (Nat.pos_of_ne_zero h0); omega
        rw [Nat.lt_size] at h3
        have h4 : 2 ^ Nat.size (i / 2) = 2 ^ (Nat.size (i / 2) - 1) * 2 := by
          rw [← pow_succ]; congr 1
          have := Nat.size_pos.2 (Nat.pos_of_ne_zero h0); omega
        omega
    omega

theorem msbpos_loop_eq (f : Nat) : ∀ i r, 1 ≤ i → i ≤ f →
    msbpos_loop f i r = r + Nat.size i - 1 := by
  induction f with
  | zero => intro i r h1 h2; omega
  | succ f ih =>
    intro i r h1 h2
    have hs := size_half i h1
    simp only [msbpos_loop, Nat.shiftRight_eq_div_pow, pow_one]
    by_cases h0 : i / 2 = 0
    · rw [if_neg (by simpa using h0)]
      rw [h0, Nat.size_zero] at hs
      omega
    · rw [if_pos h0, ih (i / 2) (r + 1) (by omega) (by omega)]
      omega

theorem msbpos_nat (i : Nat) : msbpos (i : Int) = Nat.size i := by
  unfold msbpos
  by_cases h : i = 0
  · subst h; simp
  · have h1 : 1 ≤ i := Nat.pos_of_ne_zero h
    rw [if_neg (by omega)]
    simp only [Int.toNat_ofNat]
    rw [msbpos_loop_eq i i 1 h1 le_rfl]
    omega

theorem isminlevel_ne_zero_iff (i : Nat) : isminlevel (i : Int) ≠ 0 ↔ minLevel i := by
  unfold isminlevel minLevel
  rw [msbpos_nat, Nat.and_one_is_mod]
  split_ifs with h
  · simp; omega
  · simp; omega

theorem minLevel_one : minLevel 1 := by
  unfold minLevel; rw [Nat.size_one]

theorem minLevel_half (a : Nat) (h : 2 ≤ a) : minLevel (a / 2) ↔ ¬ minLevel a := by
  unfold minLevel
  rw [size_half a (by omega)]
  omega

theorem alternates_minLevel : Alternates minLevel := fun a h => minLevel_half a h

theorem alternates_not (P : Nat → Prop) (hP : Alternates P) : Alternates (fun a => ¬ P a) := by
  intro a h
  have := hP a h
  tauto

theorem Alternates.quarter {P : Nat → Prop} (hP : Alternates P) (a : Nat) (h : 4 ≤ a) :
    P (a / 4) ↔ P a := by
  have h1 := hP a (by omega)
  have h2 := hP (a / 2) (by omega)
  have h3 : a / 2 / 2 = a / 4 := by omega
  rw [h3] at h2
  tauto

theorem Alternates.double {P : Nat → Prop} (hP : Alternates P) (a : Nat) (h : 1 ≤ a) :
    P (2 * a) ↔ ¬ P a := by
  have h1 := hP (2 * a) (by omega)
  have h3 : 2 * a / 2 = a := by omega
  rw [h3] at h1
  tauto

theorem Alternates.double_succ {P : Nat → Prop} (hP : Alternates P) (a : Nat) (h : 1 ≤ a) :
    P (2 * a + 1) ↔ ¬ P a := by
  have h1 := hP (2 * a + 1) (by omega)
  have h3 : (2 * a + 1) / 2 = a := by omega
  rw [h3] at h1
  tauto

/-! ## Ancestors -/

theorem Anc.pos {a d : Nat} (h : Anc a d) : 1 ≤ a := by
  obtain ⟨k, _, _, h⟩ := h; exact h

theorem Anc.parent {d : Nat} (h : 2 ≤ d) : Anc (d / 2) d :=
  ⟨1, le_rfl, by simp, by omega⟩

theorem Anc.up {a d : Nat} (h : Anc a d) : a = d / 2 ∨ Anc a (d / 2) := by
  obtain ⟨k, hk, hd, ha⟩ := h
  by_cases h1 : k = 1
  · subst h1; left; simpa using hd.symm
  · right
    refine ⟨k - 1, by omega, ?_, ha⟩
    rw [← hd, Nat.div_div_eq_div_mul, ← pow_succ']
    congr 2; omega

theorem Anc.of_half {a d : Nat} (h : Anc a (d / 2)) : Anc a d := by
  obtain ⟨k, hk, hd, ha⟩ := h
  refine ⟨k + 1, by omega, ?_, ha⟩
  rw [← hd, Nat.div_div_eq_div_mul, ← pow_succ']

theorem Anc.two_mul_le {a d : Nat} (h : Anc a d) : 2 * a ≤ d := by
  obtain ⟨k, hk, hd, ha⟩ := h
  have h2 : 2 ^ k = 2 ^ (k - 1) * 2 := by rw [← pow_succ]; congr 1; omega
  have h3 : d / 2 ^ k = d / 2 / 2 ^ (k - 1) := by
    rw [h2, Nat.div_div_eq_div_mul, mul_comm]
  have h4 : d / 2 / 2 ^ (k - 1) ≤ d / 2 := Nat.div_le_self _ _
  omega

theorem Anc.lt {a d : Nat} (h : Anc a d) : a < d := by
  have := h.two_mul_le; have := h.pos; omega

theorem Anc.trans {a b c : Nat} (h1 : Anc a b) (h2 : Anc b c) : Anc a c := by
  obtain ⟨k, hk, hd, ha⟩ := h1
  obtain ⟨l, hl, hd2, hb⟩ := h2
  refine ⟨l + k, by omega, ?_, ha⟩
  rw [pow_add, ← Nat.div_div_eq_div_mul, hd2, hd]

theorem Anc.up_iff {a d : Nat} : Anc a d ↔ 1 ≤ a ∧ (a = d / 2 ∨ Anc a (d / 2)) := by
  constructor
  · intro h; exact ⟨h.pos, h.up⟩
  · rintro ⟨h1, h2 | h2⟩
    · subst h2; exact Anc.parent (by omega)
    · exact h2.of_half

theorem Anc.left {a : Nat} (h : 1 ≤ a) : Anc a (2 * a) := by
  have := @Anc.parent (2 * a) (by omega)
  rwa [show 2 * a / 2 = a by omega] at this

theorem Anc.right {a : Nat} (h : 1 ≤ a) : Anc a (2 * a + 1) := by
  have := @Anc.parent (2 * a + 1) (by omega)
  rwa [show (2 * a + 1) / 2 = a by omega] at this

/-- Downward decomposition: a proper descendant is a child or lies below a child. -/
theorem Anc.down {a d : Nat} (h : Anc a d) :
    d = 2 * a ∨ d = 2 * a + 1 ∨ Anc (2 * a) d ∨ Anc (2 * a + 1) d := by
  obtain ⟨k, hk, hd, ha⟩ := h
  induction k generalizing d with
  | zero => omega
  | succ k ih =>
    by_cases h1 : k = 0
    · subst h1
      simp at hd
      omega
    · have h3 : d / 2 / 2 ^ k = a := by
        rw [← hd, Nat.div_div_eq_div_mul, ← pow_succ']
      rcases ih (by omega) h3 with h | h | h | h
      · right; right; left
        rw [← h]; exact Anc.parent (by omega)
      · right; right; right
        rw [← h]; exact Anc.parent (by omega)
      · right; right; left; exact h.of_half
      · right; right; right; exact h.of_half

theorem Anc.root {d : Nat} (h : 2 ≤ d) : Anc 1 d := by
  induction d using Nat.strong_induction_on with
  | _ d ih =>
    by_cases h1 : d / 2 = 1
    · rw [← h1]; exact Anc.parent h
    · exact (ih (d / 2) (by omega) (by omega)).of_half

theorem Anc.two_or_three {d : Nat} (h : 4 ≤ d) : Anc 2 d ∨ Anc 3 d := by
  rcases (Anc.root (show 2 ≤ d by omega)).down with h1 | h1 | h1 | h1
  · omega
  · omega
  · exact Or.inl h1
  · exact Or.inr h1

end cmmheap

namespace cmmheap

/-! ## Swapping two slots -/

theorem ab_swap_fst {V : Type} (A : Nat → V) (B : Nat → Int) (x y k : Nat) :
    (__ab_swap A B x y).1 k = if k = x then A y else if k = y then A x else A k := by
  simp only [__ab_swap, Function.update_apply]

theorem ab_swap_snd {V : Type} (A : Nat → V) (B : Nat → Int) (x y k : Nat) :
    (__ab_swap A B x y).2 k = if k = x then B y else if k = y then B x else B k := by
  simp only [__ab_swap, Function.update_apply]

/-- The effect of `__ab_swap` at 1-based positions. -/
theorem ab_swap_pos {V : Type} (A : Nat → V) (B : Nat → Int) (i j p : Nat)
    (hi : 1 ≤ i) (hj : 1 ≤ j) (hp : 1 ≤ p) :
    (__ab_swap A B (i - 1) (j - 1)).1 (p - 1) =
      if p = i then A (j - 1) else if p = j then A (i - 1) else A (p - 1) := by
  rw [ab_swap_fst]
  have e1 : (p - 1 = i - 1) ↔ p = i := by omega
  have e2 : (p - 1 = j - 1) ↔ p = j := by omega
  simp only [e1, e2]

/-! ## The recursion budgets are never exhausted -/

theorem bubble_up_min_fuel_stable {V : Type} [LinearOrder V] (f1 : Nat) :
    ∀ (f2 i : Nat) (A : Nat → V) (B : Nat → Int), i ≤ f1 → i ≤ f2 →
      __bubble_up_min_fuel f1 A B i = __bubble_up_min_fuel f2 A B i := by
  induction f1 with
  | zero =>
    intro f2 i A B h1 h2
    have hi : i = 0 := by omega
    subst hi
    cases f2 with
    | zero => rfl
    | succ f2 => simp [__bubble_up_min_fuel, Nat.shiftRight_eq_div_pow]
  | succ f1 ih =>
    intro f2 i A B h1 h2
    cases f2 with
    | zero =>
      have hi : i = 0 := by omega
      subst hi
      simp [__bubble_up_min_fuel, Nat.shiftRight_eq_div_pow]
    | succ f2 =>
      simp only [__bubble_up_min_fuel, Nat.shiftRight_eq_div_pow]
      by_cases hg : i / 2 ^ 2 ≠ 0
      · rw [if_pos hg, if_pos hg]
        have hlt : i / 2 ^ 2 ≤ f1 ∧ i / 2 ^ 2 ≤ f2 := by
          have : i / 2 ^ 2 = i / 4 := by norm_num
          omega
        split_ifs
        · exact ih _ _ _ _ hlt.1 hlt.2
        · rfl
      · rw [if_neg hg, if_neg hg]

/-- The recursion equation of `__bubble_up_min`, as in the C source. -/
theorem bubble_up_min_unfold {V : Type} [LinearOrder V] (A : Nat → V) (B : Nat → Int)
    (i : Nat) :
    __bubble_up_min A B i =
      if i >>> 2 ≠ 0 then
        if A (i - 1) < A (i >>> 2 - 1) then
          __bubble_up_min (__ab_swap A B (i - 1) (i >>> 2 - 1)).1
            (__ab_swap A B (i - 1) (i >>> 2 - 1)).2 (i >>> 2)
        else (A, B)
      else (A, B) := by
  unfold __bubble_up_min
  cases i with
  | zero => simp [__bubble_up_min_fuel]
  | succ i =>
    simp only [__bubble_up_min_fuel]
    split_ifs with h1 h2
    · apply bubble_up_min_fuel_stable
      · simp only [Nat.shiftRight_eq_div_pow]
        have : (i + 1) / 2 ^ 2 = (i + 1) / 4 := by norm_num
        omega
      · exact le_rfl
    · rfl
    · rfl

/-! ## Order duality: the max-side routines are the min-side routines of the dual order -/

theorem bubble_up_max_fuel_dual {V : Type} [LinearOrder V] (f : Nat) (A : Nat → V)
    (B : Nat → Int) (i : Nat) :
    __bubble_up_max_fuel f A B i = __bubble_up_min_fuel (V := Vᵒᵈ) f A B i := by
  induction f generalizing A B i with
  | zero => rfl
  | succ f ih =>
    simp only [__bubble_up_max_fuel, __bubble_up_min_fuel]
    simp only [ih]
    rfl

theorem bubble_up_max_dual {V : Type} [LinearOrder V] (A : Nat → V) (B : Nat → Int)
    (i : Nat) : __bubble_up_max A B i = __bubble_up_min (V := Vᵒᵈ) A B i :=
  bubble_up_max_fuel_dual i A B i

/-- The recursion equation of `__bubble_up_max`, as in the C source. -/
theorem bubble_up_max_unfold {V : Type} [LinearOrder V] (A : Nat → V) (B : Nat → Int)
    (i : Nat) :
    __bubble_up_max A B i =
      if i >>> 2 ≠ 0 then
        if A (i - 1) > A (i >>> 2 - 1) then
          __bubble_up_max (__ab_swap A B (i - 1) (i >>> 2 - 1)).1
            (__ab_swap A B (i - 1) (i >>> 2 - 1)).2 (i >>> 2)
        else (A, B)
      else (A, B) := by
  rw [bubble_up_max_dual, bubble_up_min_unfold (V := Vᵒᵈ), bubble_up_max_dual]
  rfl

theorem domP_dual {V : Type} [LinearOrder V] (P : Nat → Prop) (A : Nat → V) (a d : Nat) :
    domP (V := Vᵒᵈ) (fun x => ¬ P x) A a d ↔ domP P A a d := by
  unfold domP
  constructor
  · rintro ⟨h1, h2⟩
    exact ⟨fun h => h2 (not_not.2 h), fun h => h1 h⟩
  · rintro ⟨h1, h2⟩
    exact ⟨fun h => h2 h, fun h => h1 (not_not.1 h)⟩

theorem HeapP_dual {V : Type} [LinearOrder V] (P : Nat → Prop) (A : Nat → V) (n : Nat) :
    HeapP (V := Vᵒᵈ) (fun x => ¬ P x) A n ↔ HeapP P A n := by
  unfold HeapP
  simp only [domP_dual]

theorem HeapExc_dual {V : Type} [LinearOrder V] (P : Nat → Prop) (E : Nat → Nat → Prop)
    (A : Nat → V) (n : Nat) :
    HeapExc (V := Vᵒᵈ) (fun x => ¬ P x) E A n ↔ HeapExc P E A n := by
  unfold HeapExc
  simp only [domP_dual]

end cmmheap

namespace cmmheap

/-! ## Dominance: elementary facts -/

theorem domP_of_min {V : Type} [LinearOrder V] {P : Nat → Prop} {A : Nat → V} {a d : Nat}
    (h : P a) : domP P A a d ↔ A (a - 1) ≤ A (d - 1) := by
  unfold domP
  constructor
  · intro h1; exact h1.1 h
  · intro h1; exact ⟨fun _ => h1, fun h2 => absurd h h2⟩

theorem domP_of_max {V : Type} [LinearOrder V] {P : Nat → Prop} {A : Nat → V} {a d : Nat}
    (h : ¬ P a) : domP P A a d ↔ A (d - 1) ≤ A (a - 1) := by
  unfold domP
  constructor
  · intro h1; exact h1.2 h
  · intro h1; exact ⟨fun h2 => absurd h2 h, fun _ => h1⟩

/-- Dominance only depends on the two values involved. -/
theorem domP_congr {V : Type} [LinearOrder V] {P : Nat → Prop} {A A' : Nat → V}
    {a d e : Nat} (h1 : A' (a - 1) = A (a - 1)) (h2 : A' (d - 1) = A (e - 1)) :
    domP P A' a d ↔ domP P A a e := by
  unfold domP
  rw [h1, h2]

/-- Dominance is inherited by a smaller (min level) or larger (max level) ancestor value. -/
theorem domP_anc_value {V : Type} [LinearOrder V] {P : Nat → Prop} {A A' : Nat → V}
    {a d e : Nat} (h : domP P A a e) (h2 : A' (d - 1) = A (e - 1))
    (hmin : P a → A' (a - 1) ≤ A (a - 1)) (hmax : ¬ P a → A (a - 1) ≤ A' (a - 1)) :
    domP P A' a d := by
  unfold domP at *
  rw [h2]
  exact ⟨fun hp => le_trans (hmin hp) (h.1 hp), fun hp => le_trans (h.2 hp) (hmax hp)⟩

theorem HeapP_of_HeapExc {V : Type} [LinearOrder V] {P : Nat → Prop} {E : Nat → Nat → Prop}
    {A : Nat → V} {n : Nat} (h : HeapExc P E A n)
    (hE : ∀ a d, Anc a d → d ≤ n → E a d → domP P A a d) : HeapP P A n := by
  intro a d had hd
  by_cases he : E a d
  · exact hE a d had hd he
  · exact h a d had hd he

theorem HeapP.mono {V : Type} [LinearOrder V] {P : Nat → Prop} {A : Nat → V} {n m : Nat}
    (h : HeapP P A n) (hm : m ≤ n) : HeapP P A m :=
  fun a d had hd => h a d had (le_trans hd hm)

theorem HeapP.toExc {V : Type} [LinearOrder V] {P : Nat → Prop} {A : Nat → V} {n : Nat}
    (h : HeapP P A n) (E : Nat → Nat → Prop) : HeapExc P E A n :=
  fun a d had hd _ => h a d had hd

theorem Anc.up4 {a i : Nat} (h : Anc a i) :
    a = i / 2 ∨ a = i / 4 ∨ Anc a (i / 4) := by
  rcases h.up with h1 | h1
  · exact Or.inl h1
  · rcases h1.up with h2 | h2
    · right; left; omega
    · right; right
      rwa [show i / 2 / 2 = i / 4 by omega] at h2

theorem Anc.grand {i : Nat} (hi : 4 ≤ i) : Anc (i / 4) i := by
  have h1 : Anc (i / 2 / 2) (i / 2) := Anc.parent (by omega)
  rw [show i / 2 / 2 = i / 4 by omega] at h1
  exact h1.of_half

/-! ## Bubble-up along the grandparent chain -/

/-- Bubble-up in the min direction: if the heap property with respect to `P` holds except
that the value at the min-level position `i` may be smaller than values at min-level
ancestors of `i`, then `__bubble_up_min` restores the heap property. -/
theorem bubble_up_min_heapP {V : Type} [LinearOrder V] (P : Nat → Prop) (hP : Alternates P)
    (n : Nat) : ∀ (i : Nat) (A : Nat → V) (B : Nat → Int), 1 ≤ i → i ≤ n → P i →
      HeapExc P (fun a d => d = i ∧ P a) A n → HeapP P (__bubble_up_min A B i).1 n := by
  intro i
  induction i using Nat.strong_induction_on with
  | _ i ih =>
    intro A B h1 hn hPi hE
    rw [bubble_up_min_unfold]
    simp only [Nat.shiftRight_eq_div_pow]
    rw [show (2 : Nat) ^ 2 = 4 by norm_num]
    by_cases hg : i / 4 ≠ 0
    · rw [if_pos hg]
      have hi4 : 4 ≤ i := by omega
      have hPg : P (i / 4) := (hP.quarter i hi4).2 hPi
      have hPp : ¬ P (i / 2) := by
        have := hP i (by omega); tauto
      by_cases hlt : A (i - 1) < A (i / 4 - 1)
      · rw [if_pos hlt]
        apply ih (i / 4) (by omega) _ _ (by omega) (by omega) hPg
        have hAi : (__ab_swap A B (i - 1) (i / 4 - 1)).1 (i - 1) = A (i / 4 - 1) := by
          rw [ab_swap_pos A B i (i / 4) i h1 (by omega) h1]; simp
        have hAg : (__ab_swap A B (i - 1) (i / 4 - 1)).1 (i / 4 - 1) = A (i - 1) := by
          rw [ab_swap_pos A B i (i / 4) (i / 4) h1 (by omega) (by omega)]
          rw [if_neg (by omega), if_pos rfl]
        have hAo : ∀ q, 1 ≤ q → q ≠ i → q ≠ i / 4 →
            (__ab_swap A B (i - 1) (i / 4 - 1)).1 (q - 1) = A (q - 1) := by
          intro q hq h2 h3
          rw [ab_swap_pos A B i (i / 4) q h1 (by omega) hq, if_neg h2, if_neg h3]
        intro a d had hd hex
        have ha1 := had.pos
        have hlt' := had.lt
        by_cases hdi : d = i
        · subst hdi
          rcases had.up4 with h | h | h
          · subst h
            rw [domP_of_max hPp, hAi, hAo _ (by omega) (by omega) (by omega)]
            have := hE (d / 4) (d / 2)
              (by have := @Anc.parent (d / 2) (by omega)
                  rwa [show d / 2 / 2 = d / 4 by omega] at this)
              (by omega) (by simp only [not_and]; intro h; omega)
            exact (domP_of_min hPg).1 this
          · subst h
            rw [domP_of_min hPg, hAi, hAg]
            exact le_of_lt hlt
          · have hlt2 := h.lt
            rw [domP_congr (hAo a ha1 (by omega) (by omega)) hAi]
            exact hE a (d / 4) h (by omega) (by simp only [not_and]; intro h; omega)
        · by_cases hdg : d = i / 4
          · subst hdg
            have hPa : ¬ P a := fun h => hex ⟨rfl, h⟩
            rw [domP_of_max hPa, hAg, hAo a ha1 (by omega) (by omega)]
            have := hE a i (had.trans (Anc.grand hi4)) hn (by simp only [not_and]; intro _; exact hPa)
            exact (domP_of_max hPa).1 this
          · have hAd := hAo d (by omega) hdi hdg
            by_cases hai : a = i
            · subst hai
              rw [domP_of_min hPi, hAi, hAd]
              have := hE (a / 4) d ((Anc.grand hi4).trans had) hd
                (by simp only [not_and]; intro h; exact absurd h hdi)
              exact (domP_of_min hPg).1 this
            · by_cases hag : a = i / 4
              · subst hag
                rw [domP_of_min hPg, hAg, hAd]
                have := hE (i / 4) d had hd
                  (by simp only [not_and]; intro h; exact absurd h hdi)
                exact le_trans (le_of_lt hlt) ((domP_of_min hPg).1 this)
              · rw [domP_congr (hAo a ha1 hai hag) hAd]
                exact hE a d had hd (by simp only [not_and]; intro h; exact absurd h hdi)
      · rw [if_neg hlt]
        apply HeapP_of_HeapExc hE
        rintro a d had hd ⟨rfl, hPa⟩
        rw [domP_of_min hPa]
        rcases had.up4 with h | h | h
        · subst h; exact absurd hPa hPp
        · subst h; exact not_lt.1 hlt
        · have := hE a (d / 4) h (by omega) (by simp only [not_and]; intro h; omega)
          exact le_trans ((domP_of_min hPa).1 this) (not_lt.1 hlt)
    · rw [if_neg hg]
      apply HeapP_of_HeapExc hE
      rintro a d had hd ⟨rfl, hPa⟩
      exfalso
      have h2 := had.two_mul_le
      have h3 := had.pos
      rcases had.up with h | h
      · subst h
        have := hP d (by omega)
        tauto
      · have := h.two_mul_le
        have := h.pos
        omega

end cmmheap

namespace cmmheap

theorem bubble_up_min_fuel_dual {V : Type} [LinearOrder V] (f : Nat) (A : Nat → V)
    (B : Nat → Int) (i : Nat) :
    __bubble_up_min_fuel f A B i = __bubble_up_max_fuel (V := Vᵒᵈ) f A B i := by
  induction f generalizing A B i with
  | zero => rfl
  | succ f ih =>
    simp only [__bubble_up_max_fuel, __bubble_up_min_fuel]
    simp only [ih]
    rfl

theorem bubble_up_min_dual {V : Type} [LinearOrder V] (A : Nat → V) (B : Nat → Int)
    (i : Nat) : __bubble_up_min A B i = __bubble_up_max (V := Vᵒᵈ) A B i :=
  bubble_up_min_fuel_dual i A B i

/-- Bubble-up in the max direction, by order duality. -/
theorem bubble_up_max_heapP {V : Type} [LinearOrder V] (P : Nat → Prop) (hP : Alternates P)
    (n : Nat) (i : Nat) (A : Nat → V) (B : Nat → Int) (h1 : 1 ≤ i) (hn : i ≤ n) (hPi : ¬ P i)
    (hE : HeapExc P (fun a d => d = i ∧ ¬ P a) A n) :
    HeapP P (__bubble_up_max A B i).1 n := by
  rw [bubble_up_max_dual, ← HeapP_dual]
  apply bubble_up_min_heapP (V := Vᵒᵈ) (fun x => ¬ P x) (alternates_not P hP) n i A B h1 hn hPi
  rw [HeapExc_dual]
  exact hE

/-- The min-level branch of `__bubble_up` (cmmheap.h:121-131) restores the heap property after
a new last element has been stored at the min-level position `i`. -/
theorem bubble_up_branch_min {V : Type} [LinearOrder V] (P : Nat → Prop) (hP : Alternates P)
    (i : Nat) (A : Nat → V) (B : Nat → Int) (h1 : 1 ≤ i) (hPi : P i)
    (hH : HeapP P A (i - 1)) :
    HeapP P (if i >>> 1 ≠ 0 then
        if A (i - 1) > A (i >>> 1 - 1) then
          __bubble_up_max (__ab_swap A B (i - 1) (i >>> 1 - 1)).1
            (__ab_swap A B (i - 1) (i >>> 1 - 1)).2 (i >>> 1)
        else __bubble_up_min A B i
      else __bubble_up_min A B i).1 i := by
  simp only [Nat.shiftRight_eq_div_pow, pow_one]
  -- pairs whose lower end is not `i` are untouched by the store at `i`
  have hmin : HeapExc P (fun a d => d = i ∧ P a) A i →
      HeapP P (__bubble_up_min A B i).1 i :=
    bubble_up_min_heapP P hP i i A B h1 le_rfl hPi
  by_cases hp : i / 2 ≠ 0
  · rw [if_pos hp]
    have hi2 : 2 ≤ i := by omega
    have hPp : ¬ P (i / 2) := by
      have := hP i hi2; tauto
    by_cases hgt : A (i - 1) > A (i / 2 - 1)
    · rw [if_pos hgt]
      have hAi : (__ab_swap A B (i - 1) (i / 2 - 1)).1 (i - 1) = A (i / 2 - 1) := by
        rw [ab_swap_pos A B i (i / 2) i h1 (by omega) h1]; simp
      have hAg : (__ab_swap A B (i - 1) (i / 2 - 1)).1 (i / 2 - 1) = A (i - 1) := by
        rw [ab_swap_pos A B i (i / 2) (i / 2) h1 (by omega) (by omega)]
        rw [if_neg (by omega), if_pos rfl]
      have hAo : ∀ q, 1 ≤ q → q ≠ i → q ≠ i / 2 →
          (__ab_swap A B (i - 1) (i / 2 - 1)).1 (q - 1) = A (q - 1) := by
        intro q hq h2 h3
        rw [ab_swap_pos A B i (i / 2) q h1 (by omega) hq, if_neg h2, if_neg h3]
      apply bubble_up_max_heapP P hP i (i / 2) _ _ (by omega) (by omega) hPp
      intro a d had hd hex
      have ha1 := had.pos
      have hlt' := had.lt
      by_cases hdi : d = i
      · subst hdi
        rcases had.up with h | h
        · subst h
          rw [domP_of_max hPp, hAi, hAg]
          exact le_of_lt hgt
        · have := h.lt
          rw [domP_congr (hAo a ha1 (by omega) (by omega)) hAi]
          exact hH a (d / 2) h (by omega)
      · by_cases hdp : d = i / 2
        · subst hdp
          have hPa : P a := by
            by_contra h; exact hex ⟨rfl, h⟩
          rw [domP_of_min hPa, hAg, hAo a ha1 (by omega) (by omega)]
          have := hH a (i / 2) had (by omega)
          exact le_trans ((domP_of_min hPa).1 this) (le_of_lt hgt)
        · have hAd := hAo d (by omega) hdi hdp
          by_cases hap : a = i / 2
          · subst hap
            rw [domP_of_max hPp, hAg, hAd]
            have := hH (i / 2) d had (by omega)
            exact le_trans ((domP_of_max hPp).1 this) (le_of_lt hgt)
          · rw [domP_congr (hAo a ha1 (by omega) hap) hAd]
            exact hH a d had (by omega)
    · rw [if_neg hgt]
      apply hmin
      intro a d had hd hex
      by_cases hdi : d = i
      · subst hdi
        have hPa : ¬ P a := fun h => hex ⟨rfl, h⟩
        rw [domP_of_max hPa]
        rcases had.up with h | h
        · subst h; exact not_lt.1 hgt
        · have := hH a (d / 2) h (by omega)
          exact le_trans (not_lt.1 hgt) ((domP_of_max hPa).1 this)
      · exact hH a d had (by omega)
  · rw [if_neg hp]
    apply hmin
    intro a d had hd hex
    have := had.two_mul_le
    have := had.pos
    exact hH a d had (by omega)

/-- The max-level branch of `__bubble_up` (cmmheap.h:133-143), by order duality. -/
theorem bubble_up_branch_max {V : Type} [LinearOrder V] (P : Nat → Prop) (hP : Alternates P)
    (i : Nat) (A : Nat → V) (B : Nat → Int) (h1 : 1 ≤ i) (hPi : ¬ P i)
    (hH : HeapP P A (i - 1)) :
    HeapP P (if i >>> 1 ≠ 0 then
        if A (i - 1) < A (i >>> 1 - 1) then
          __bubble_up_min (__ab_swap A B (i - 1) (i >>> 1 - 1)).1
            (__ab_swap A B (i - 1) (i >>> 1 - 1)).2 (i >>> 1)
        else __bubble_up_max A B i
      else __bubble_up_max A B i).1 i := by
  have hH' := (HeapP_dual (V := V) P A (i - 1)).2 hH
  have h := bubble_up_branch_min (V := Vᵒᵈ) (fun x => ¬ P x) (alternates_not P hP) i A B h1 hPi
    hH'
  rw [HeapP_dual (V := V)] at h
  simp only [← bubble_up_max_dual, ← bubble_up_min_dual] at h
  exact h

theorem heapP_minLevel_iff {V : Type} [LinearOrder V] (A : Nat → V) (n : Nat) :
    HeapP minLevel A n ↔ MinMaxHeapProp A n := by
  unfold HeapP MinMaxHeapProp
  constructor
  · intro h d hd k hk hk1
    exact h (d / 2 ^ k) d ⟨k, hk, rfl, hk1⟩ hd
  · rintro h a d ⟨k, hk, rfl, hk1⟩ hd
    exact h d hd k hk hk1

/-- `__bubble_up` at the new last position `i` turns a heap of `i - 1` elements followed by
an arbitrary element into a heap of `i` elements. -/
theorem bubble_up_heap {V : Type} [LinearOrder V] (A : Nat → V) (B : Nat → Int) (i : Nat)
    (h1 : 1 ≤ i) (hH : MinMaxHeapProp A (i - 1)) : MinMaxHeapProp (__bubble_up A B i).1 i := by
  rw [← heapP_minLevel_iff] at *
  unfold __bubble_up
  by_cases hm : isminlevel (i : Int) ≠ 0
  · simp only [if_pos hm]
    exact bubble_up_branch_min minLevel alternates_minLevel i A B h1
      ((isminlevel_ne_zero_iff i).1 hm) hH
  · simp only [if_neg hm]
    exact bubble_up_branch_max minLevel alternates_minLevel i A B h1
      (fun h => hm ((isminlevel_ne_zero_iff i).2 h)) hH

end cmmheap

namespace cmmheap

/-! ## The candidate chosen by trickle-down -/

theorem IsMinAmong.step {V : Type} [LinearOrder V] {A : Nat → V} {maxi : Nat} {S : List Nat}
    {m : Nat} (h : IsMinAmong A maxi S m) (c : Nat) :
    IsMinAmong A maxi (c :: S)
      (if c ≤ maxi then (if A (c - 1) < A (m - 1) then c else m) else m) := by
  obtain ⟨h1, h2, h3⟩ := h
  by_cases hc : c ≤ maxi
  · rw [if_pos hc]
    by_cases hlt : A (c - 1) < A (m - 1)
    · rw [if_pos hlt]
      refine ⟨hc, List.mem_cons_self _ _, ?_⟩
      intro e he hem
      rcases List.mem_cons.1 he with rfl | he
      · exact le_rfl
      · exact le_trans (le_of_lt hlt) (h3 e he hem)
    · rw [if_neg hlt]
      refine ⟨h1, List.mem_cons_of_mem _ h2, ?_⟩
      intro e he hem
      rcases List.mem_cons.1 he with rfl | he
      · exact not_lt.1 hlt
      · exact h3 e he hem
  · rw [if_neg hc]
    refine ⟨h1, List.mem_cons_of_mem _ h2, ?_⟩
    intro e he hem
    rcases List.mem_cons.1 he with rfl | he
    · exact absurd hem hc
    · exact h3 e he hem

/-- The candidate computed by `__trickle_down_min` lies within the occupancy, is a child or
grandchild of `i`, and holds a smallest value among the existing children and
grandchildren. -/
theorem trickle_down_min_m_spec {V : Type} [LinearOrder V] (A : Nat → V) (i maxi : Nat)
    (h1 : 1 ≤ i) (h2 : 2 * i ≤ maxi) :
    IsMinAmong A maxi [4 * i + 3, 4 * i + 2, 4 * i + 1, 4 * i, 2 * i + 1, 2 * i]
      (__trickle_down_min_m A i maxi) := by
  unfold __trickle_down_min_m
  simp only [Nat.shiftLeft_eq, pow_one]
  have e1 : i * 2 = 2 * i := by omega
  have e2 : 2 * i * 2 = 4 * i := by omega
  have e3 : (2 * i + 1) * 2 = 4 * i + 2 := by omega
  simp only [e1, e2, e3]
  by_cases hr : 2 * i + 1 ≤ maxi
  · rw [if_pos hr]
    have h0 : IsMinAmong A maxi [2 * i + 1, 2 * i]
        (if A (2 * i - 1) < A (2 * i + 1 - 1) then 2 * i else 2 * i + 1) := by
      by_cases hlt : A (2 * i - 1) < A (2 * i + 1 - 1)
      · rw [if_pos hlt]
        refine ⟨h2, by simp, ?_⟩
        intro e he _
        simp only [List.mem_cons, List.mem_singleton, List.not_mem_nil, or_false] at he
        rcases he with rfl | rfl
        · exact le_of_lt hlt
        · exact le_rfl
      · rw [if_neg hlt]
        refine ⟨hr, by simp, ?_⟩
        intro e he _
        simp only [List.mem_cons, List.mem_singleton, List.not_mem_nil, or_false] at he
        rcases he with rfl | rfl
        · exact le_rfl
        · exact not_lt.1 hlt
    exact (((h0.step (4 * i)).step (4 * i + 1)).step (4 * i + 2)).step (4 * i + 2 + 1)
  · rw [if_neg hr]
    refine ⟨h2, by simp, ?_⟩
    intro e he hem
    simp only [List.mem_cons, List.mem_singleton, List.not_mem_nil, or_false] at he
    rcases he with rfl | rfl | rfl | rfl | rfl | rfl
    · omega
    · omega
    · omega
    · omega
    · omega
    · exact le_rfl

theorem trickle_down_max_m_dual {V : Type} [LinearOrder V] (A : Nat → V) (i maxi : Nat) :
    __trickle_down_max_m A i maxi = __trickle_down_min_m (V := Vᵒᵈ) A i maxi := rfl

theorem trickle_down_min_m_dual {V : Type} [LinearOrder V] (A : Nat → V) (i maxi : Nat) :
    __trickle_down_min_m A i maxi = __trickle_down_max_m (V := Vᵒᵈ) A i maxi := rfl

theorem trickle_down_max_fuel_dual {V : Type} [LinearOrder V] (f : Nat) (A : Nat → V)
    (B : Nat → Int) (i maxi : Nat) :
    __trickle_down_max_fuel f A B i maxi = __trickle_down_min_fuel (V := Vᵒᵈ) f A B i maxi := by
  induction f generalizing A B i with
  | zero => rfl
  | succ f ih =>
    simp only [__trickle_down_max_fuel, __trickle_down_min_fuel]
    simp only [ih]
    rfl

theorem trickle_down_min_fuel_dual {V : Type} [LinearOrder V] (f : Nat) (A : Nat → V)
    (B : Nat → Int) (i maxi : Nat) :
    __trickle_down_min_fuel f A B i maxi = __trickle_down_max_fuel (V := Vᵒᵈ) f A B i maxi := by
  induction f generalizing A B i with
  | zero => rfl
  | succ f ih =>
    simp only [__trickle_down_max_fuel, __trickle_down_min_fuel]
    simp only [ih]
    rfl

theorem trickle_down_max_dual {V : Type} [LinearOrder V] (A : Nat → V) (B : Nat → Int)
    (i maxi : Nat) : __trickle_down_max A B i maxi = __trickle_down_min (V := Vᵒᵈ) A B i maxi :=
  trickle_down_max_fuel_dual maxi A B i maxi

theorem trickle_down_min_dual {V : Type} [LinearOrder V] (A : Nat → V) (B : Nat → Int)
    (i maxi : Nat) : __trickle_down_min A B i maxi = __trickle_down_max (V := Vᵒᵈ) A B i maxi :=
  trickle_down_min_fuel_dual maxi A B i maxi

theorem swap_facts {V : Type} (A : Nat → V) (B : Nat → Int) (i j : Nat) (hi : 1 ≤ i)
    (hj : 1 ≤ j) (hij : i ≠ j) :
    (__ab_swap A B (i - 1) (j - 1)).1 (i - 1) = A (j - 1) ∧
    (__ab_swap A B (i - 1) (j - 1)).1 (j - 1) = A (i - 1) ∧
    ∀ q, 1 ≤ q → q ≠ i → q ≠ j → (__ab_swap A B (i - 1) (j - 1)).1 (q - 1) = A (q - 1) := by
  refine ⟨?_, ?_, ?_⟩
  · rw [ab_swap_pos A B i j i hi hj hi, if_pos rfl]
  · rw [ab_swap_pos A B i j j hi hj hj, if_neg (Ne.symm hij), if_pos rfl]
  · intro q hq h2 h3
    rw [ab_swap_pos A B i j q hi hj hq, if_neg h2, if_neg h3]

end cmmheap

namespace cmmheap

/-! ## The recursion budget of trickle-down is never exhausted -/

theorem trickle_down_min_fuel_stable {V : Type} [LinearOrder V] (maxi : Nat) (f1 : Nat) :
    ∀ (f2 i : Nat) (A : Nat → V) (B : Nat → Int), 1 ≤ i → maxi ≤ f1 + i → maxi ≤ f2 + i →
      __trickle_down_min_fuel f1 A B i maxi = __trickle_down_min_fuel f2 A B i maxi := by
  induction f1 with
  | zero =>
    intro f2 i A B h1 hf1 hf2
    cases f2 with
    | zero => rfl
    | succ f2 =>
      simp only [__trickle_down_min_fuel, Nat.shiftLeft_eq, pow_one]
      rw [if_pos (by omega)]
  | succ f1 ih =>
    intro f2 i A B h1 hf1 hf2
    cases f2 with
    | zero =>
      simp only [__trickle_down_min_fuel, Nat.shiftLeft_eq, pow_one]
      rw [if_pos (by omega)]
    | succ f2 =>
      simp only [__trickle_down_min_fuel, Nat.shiftLeft_eq, pow_one]
      by_cases hl : i * 2 > maxi
      · rw [if_pos hl, if_pos hl]
      · rw [if_neg hl, if_neg hl]
        by_cases hgc : __trickle_down_min_m A i maxi > i * 2 + 1
        · rw [if_pos hgc, if_pos hgc]
          by_cases hlt : A (__trickle_down_min_m A i maxi - 1) < A (i - 1)
          · rw [if_pos hlt, if_pos hlt]
            exact ih f2 _ _ _ (by omega) (by omega) (by omega)
          · rw [if_neg hlt, if_neg hlt]
        · rw [if_neg hgc, if_neg hgc]

/-- The recursion equation of `__trickle_down_min`, as in the C source (positions are
1-based, so `i >= 1`). -/
theorem trickle_down_min_unfold {V : Type} [LinearOrder V] (A : Nat → V) (B : Nat → Int)
    (i maxi : Nat) (h1 : 1 ≤ i) :
    __trickle_down_min A B i maxi =
      if i <<< 1 > maxi then (A, B)
      else
        if __trickle_down_min_m A i maxi > i <<< 1 + 1 then
          if A (__trickle_down_min_m A i maxi - 1) < A (i - 1) then
            __trickle_down_min
              (if (__ab_swap A B (i - 1) (__trickle_down_min_m A i maxi - 1)).1
                    (__trickle_down_min_m A i maxi - 1) >
                  (__ab_swap A B (i - 1) (__trickle_down_min_m A i maxi - 1)).1
                    (__trickle_down_min_m A i maxi >>> 1 - 1) then
                __ab_swap (__ab_swap A B (i - 1) (__trickle_down_min_m A i maxi - 1)).1
                  (__ab_swap A B (i - 1) (__trickle_down_min_m A i maxi - 1)).2
                  (__trickle_down_min_m A i maxi - 1) (__trickle_down_min_m A i maxi >>> 1 - 1)
              else __ab_swap A B (i - 1) (__trickle_down_min_m A i maxi - 1)).1
              (if (__ab_swap A B (i - 1) (__trickle_down_min_m A i maxi - 1)).1
                    (__trickle_down_min_m A i maxi - 1) >
                  (__ab_swap A B (i - 1) (__trickle_down_min_m A i maxi - 1)).1
                    (__trickle_down_min_m A i maxi >>> 1 - 1) then
                __ab_swap (__ab_swap A B (i - 1) (__trickle_down_min_m A i maxi - 1)).1
                  (__ab_swap A B (i - 1) (__trickle_down_min_m A i maxi - 1)).2
                  (__trickle_down_min_m A i maxi - 1) (__trickle_down_min_m A i maxi >>> 1 - 1)
              else __ab_swap A B (i - 1) (__trickle_down_min_m A i maxi - 1)).2
              (__trickle_down_min_m A i maxi) maxi
          else (A, B)
        else
          if A (__trickle_down_min_m A i maxi - 1) < A (i - 1) then
            __ab_swap A B (i - 1) (__trickle_down_min_m A i maxi - 1)
          else (A, B) := by
  unfold __trickle_down_min
  cases maxi with
  | zero =>
    simp only [__trickle_down_min_fuel, Nat.shiftLeft_eq, pow_one]
    rw [if_pos (by omega)]
  | succ n =>
    simp only [__trickle_down_min_fuel]
    by_cases hl : i <<< 1 > n + 1
    · rw [if_pos hl, if_pos hl]
    · rw [if_neg hl, if_neg hl]
      by_cases hgc : __trickle_down_min_m A i (n + 1) > i <<< 1 + 1
      · rw [if_pos hgc, if_pos hgc]
        by_cases hlt : A (__trickle_down_min_m A i (n + 1) - 1) < A (i - 1)
        · rw [if_pos hlt, if_pos hlt]
          simp only [Nat.shiftLeft_eq, pow_one] at hgc
          exact trickle_down_min_fuel_stable (n + 1) n (n + 1) _ _ _ (by omega) (by omega)
            (by omega)
        · rw [if_neg hlt, if_neg hlt]
      · rw [if_neg hgc, if_neg hgc]

theorem trickle_down_max_fuel_stable {V : Type} [LinearOrder V] (maxi : Nat) (f1 f2 i : Nat)
    (A : Nat → V) (B : Nat → Int) (h1 : 1 ≤ i) (hf1 : maxi ≤ f1 + i) (hf2 : maxi ≤ f2 + i) :
    __trickle_down_max_fuel f1 A B i maxi = __trickle_down_max_fuel f2 A B i maxi := by
  rw [trickle_down_max_fuel_dual, trickle_down_max_fuel_dual]
  exact trickle_down_min_fuel_stable (V := Vᵒᵈ) maxi f1 f2 i A B h1 hf1 hf2

theorem bubble_up_max_fuel_stable {V : Type} [LinearOrder V] (f1 f2 i : Nat)
    (A : Nat → V) (B : Nat → Int) (h1 : i ≤ f1) (h2 : i ≤ f2) :
    __bubble_up_max_fuel f1 A B i = __bubble_up_max_fuel f2 A B i := by
  rw [bubble_up_max_fuel_dual, bubble_up_max_fuel_dual]
  exact bubble_up_min_fuel_stable (V := Vᵒᵈ) f1 f2 i A B h1 h2

/-- The recursion equation of `__trickle_down_max`, as in the C source. -/
theorem trickle_down_max_unfold {V : Type} [LinearOrder V] (A : Nat → V) (B : Nat → Int)
    (i maxi : Nat) (h1 : 1 ≤ i) :
    __trickle_down_max A B i maxi =
      if i <<< 1 > maxi then (A, B)
      else
        if __trickle_down_max_m A i maxi > i <<< 1 + 1 then
          if A (__trickle_down_max_m A i maxi - 1) > A (i - 1) then
            __trickle_down_max
              (if (__ab_swap A B (i - 1) (__trickle_down_max_m A i maxi - 1)).1
                    (__trickle_down_max_m A i maxi - 1) <
                  (__ab_swap A B (i - 1) (__trickle_down_max_m A i maxi - 1)).1
                    (__trickle_down_max_m A i maxi >>> 1 - 1) then
                __ab_swap (__ab_swap A B (i - 1) (__trickle_down_max_m A i maxi - 1)).1
                  (__ab_swap A B (i - 1) (__trickle_down_max_m A i maxi - 1)).2
                  (__trickle_down_max_m A i maxi - 1) (__trickle_down_max_m A i maxi >>> 1 - 1)
              else __ab_swap A B (i - 1) (__trickle_down_max_m A i maxi - 1)).1
              (if (__ab_swap A B (i - 1) (__trickle_down_max_m A i maxi - 1)).1
                    (__trickle_down_max_m A i maxi - 1) <
                  (__ab_swap A B (i - 1) (__trickle_down_max_m A i maxi - 1)).1
                    (__trickle_down_max_m A i maxi >>> 1 - 1) then
                __ab_swap (__ab_swap A B (i - 1) (__trickle_down_max_m A i maxi - 1)).1
                  (__ab_swap A B (i - 1) (__trickle_down_max_m A i maxi - 1)).2
                  (__trickle_down_max_m A i maxi - 1) (__trickle_down_max_m A i maxi >>> 1 - 1)
              else __ab_swap A B (i - 1) (__trickle_down_max_m A i maxi - 1)).2
              (__trickle_down_max_m A i maxi) maxi
          else (A, B)
        else
          if A (__trickle_down_max_m A i maxi - 1) > A (i - 1) then
            __ab_swap A B (i - 1) (__trickle_down_max_m A i maxi - 1)
          else (A, B) := by
  rw [trickle_down_max_dual, trickle_down_min_unfold (V := Vᵒᵈ) A B i maxi h1,
    trickle_down_max_dual]
  rfl

end cmmheap

namespace cmmheap

/-! ## Trickle-down restores the heap property -/

/-- Below a min-level position `i` whose own dominance is the only one in doubt, the chosen
candidate holds a smallest value among all proper descendants of `i`. -/
theorem desc_min_of_candidate {V : Type} [LinearOrder V] {P : Nat → Prop}
    (hP : Alternates P) {A : Nat → V} {n i m : Nat} (h1 : 1 ≤ i) (hPi : P i)
    (hE : HeapExc P (fun a _ => a = i) A n)
    (hm : IsMinAmong A n [4 * i + 3, 4 * i + 2, 4 * i + 1, 4 * i, 2 * i + 1, 2 * i] m) :
    ∀ d, Anc i d → d ≤ n → A (m - 1) ≤ A (d - 1) := by
  obtain ⟨_, _, h3⟩ := hm
  have hgc : ∀ g d, g ∈ [4 * i + 3, 4 * i + 2, 4 * i + 1, 4 * i, 2 * i + 1, 2 * i] →
      g / 4 = i → Anc g d → d ≤ n → A (m - 1) ≤ A (d - 1) := by
    intro g d hg hg4 hgd hd
    have hlt := hgd.lt
    have hPg : P g := (hP.quarter g (by omega)).1 (by rw [hg4]; exact hPi)
    have := hE g d hgd hd (by omega)
    exact le_trans (h3 g hg (by omega)) ((domP_of_min hPg).1 this)
  intro d had hd
  rcases had.down with h | h | h | h
  · subst h; exact h3 _ (by simp) hd
  · subst h; exact h3 _ (by simp) hd
  · rcases h.down with h' | h' | h' | h'
    · subst h'; exact h3 _ (by simp; omega) hd
    · subst h'; exact h3 _ (by simp; omega) hd
    · exact hgc (2 * (2 * i)) d (by simp; omega) (by omega) h' hd
    · exact hgc (2 * (2 * i) + 1) d (by simp; omega) (by omega) h' hd
  · rcases h.down with h' | h' | h' | h'
    · subst h'; exact h3 _ (by simp; omega) hd
    · subst h'; exact h3 _ (by simp; omega) hd
    · exact hgc (2 * (2 * i + 1)) d (by simp; omega) (by omega) h' hd
    · exact hgc (2 * (2 * i + 1) + 1) d (by simp; omega) (by omega) h' hd

end cmmheap

namespace cmmheap

/-- Trickle-down on the min side: if the heap property with respect to `P` holds on the first
`n` slots except possibly for the dominance of the min-level position `i` over its
descendants, then `__trickle_down_min` restores it. -/
theorem trickle_down_min_fuel_heapP {V : Type} [LinearOrder V] (P : Nat → Prop)
    (hP : Alternates P) (n : Nat) :
    ∀ (f i : Nat) (A : Nat → V) (B : Nat → Int), 1 ≤ i → n ≤ f + i → P i →
      HeapExc P (fun a _ => a = i) A n →
      HeapP P (__trickle_down_min_fuel f A B i n).1 n := by
  intro f
  induction f with
  | zero =>
    intro i A B h1 hf hPi hE
    simp only [__trickle_down_min_fuel]
    apply HeapP_of_HeapExc hE
    intro a d had hd he
    have he' : a = i := he
    have := had.lt
    omega
  | succ f ih =>
    intro i A B h1 hf hPi hE
    simp only [__trickle_down_min_fuel, Nat.shiftLeft_eq, Nat.shiftRight_eq_div_pow, pow_one]
    have e1 : i * 2 = 2 * i := by omega
    simp only [e1]
    by_cases hl : 2 * i > n
    · rw [if_pos hl]
      apply HeapP_of_HeapExc hE
      intro a d had hd he
      have he' : a = i := he
      have := had.two_mul_le
      omega
    · rw [if_neg hl]
      have hspec := trickle_down_min_m_spec A i n h1 (by omega)
      have hmin := desc_min_of_candidate hP h1 hPi hE hspec
      generalize __trickle_down_min_m A i n = m at hspec hmin ⊢
      obtain ⟨hmn, hmS, _⟩ := hspec
      simp only [List.mem_cons, List.mem_singleton, List.not_mem_nil, or_false] at hmS
      have hstay : ¬ A (m - 1) < A (i - 1) → HeapP P A n := by
        intro hlt
        apply HeapP_of_HeapExc hE
        intro a d had hd he
        have he' : a = i := he
        subst he'
        rw [domP_of_min hPi]
        exact le_trans (not_lt.1 hlt) (hmin d had hd)
      by_cases hgc : m > 2 * i + 1
      · rw [if_pos hgc]
        by_cases hlt : A (m - 1) < A (i - 1)
        · rw [if_pos hlt]
          have hm4 : m / 4 = i := by omega
          have hm22 : m / 2 / 2 = i := by omega
          have hm2 : 2 ≤ m / 2 := by omega
          have hPm : P m := (hP.quarter m (by omega)).1 (by rw [hm4]; exact hPi)
          have hPp : ¬ P (m / 2) := by
            have := hP m (by omega); tauto
          have hip : Anc i (m / 2) := by
            have := @Anc.parent (m / 2) hm2; rwa [hm22] at this
          have him : Anc i m := by
            have := @Anc.grand m (by omega); rwa [hm4] at this
          obtain ⟨h1i, h1m, h1o⟩ := swap_facts A B i m h1 (by omega) (by omega)
          apply ih m _ _ (by omega) (by omega) hPm
          by_cases hsw : (__ab_swap A B (i - 1) (m - 1)).1 (m - 1) >
              (__ab_swap A B (i - 1) (m - 1)).1 (m / 2 - 1)
          · rw [if_pos hsw]
            rw [h1m, h1o (m / 2) (by omega) (by omega) (by omega)] at hsw
            obtain ⟨h2m, h2p, h2o⟩ := swap_facts (__ab_swap A B (i - 1) (m - 1)).1
              (__ab_swap A B (i - 1) (m - 1)).2 m (m / 2) (by omega) (by omega) (by omega)
            rw [h1o (m / 2) (by omega) (by omega) (by omega)] at h2m
            rw [h1m] at h2p
            have h2i := h2o i h1 (by omega) (by omega)
            rw [h1i] at h2i
            have h2o' : ∀ q, 1 ≤ q → q ≠ i → q ≠ m → q ≠ m / 2 →
                (__ab_swap (__ab_swap A B (i - 1) (m - 1)).1 (__ab_swap A B (i - 1) (m - 1)).2
                  (m - 1) (m / 2 - 1)).1 (q - 1) = A (q - 1) := by
              intro q hq hqi hqm hqp
              rw [h2o q hq hqm hqp, h1o q hq hqi hqm]
            intro a d had hd hex
            have hex' : a ≠ m := hex
            have ha1 := had.pos
            have hlt' := had.lt
            by_cases hai : a = i
            · subst hai
              rw [domP_of_min hPi, h2i]
              by_cases hdm : d = m
              · subst hdm; rw [h2m]; exact hmin _ hip (by omega)
              · by_cases hdp : d = m / 2
                · subst hdp; rw [h2p]; exact le_of_lt hlt
                · rw [h2o' d (by omega) (by omega) hdm hdp]; exact hmin d had hd
            · by_cases hap : a = m / 2
              · subst hap
                rw [domP_of_max hPp, h2p]
                by_cases hdm : d = m
                · subst hdm; rw [h2m]; exact le_of_lt hsw
                · rw [h2o' d (by omega) (by omega) hdm (by omega)]
                  have := hE (m / 2) d had hd (by omega)
                  exact le_trans ((domP_of_max hPp).1 this) (le_of_lt hsw)
              · have hAa := h2o' a ha1 hai hex' hap
                by_cases hdm : d = m
                · subst hdm
                  have hai' : Anc a i := by
                    rcases had.up4 with h | h | h
                    · exact absurd h hap
                    · omega
                    · rwa [hm4] at h
                  rw [domP_congr hAa h2m]
                  exact hE a (d / 2) (hai'.trans hip) (by omega) hai
                · by_cases hdp : d = m / 2
                  · subst hdp
                    have hai' : Anc a i := by
                      rcases had.up with h | h
                      · omega
                      · rwa [hm22] at h
                    rw [domP_congr hAa h2p]
                    exact hE a i hai' (by omega) hai
                  · by_cases hdi : d = i
                    · subst hdi
                      rw [domP_congr hAa h2i]
                      exact hE a m (had.trans him) hmn hai
                    · rw [domP_congr hAa (h2o' d (by omega) hdi hdm hdp)]
                      exact hE a d had hd hai
          · rw [if_neg hsw]
            rw [h1m, h1o (m / 2) (by omega) (by omega) (by omega)] at hsw
            intro a d had hd hex
            have hex' : a ≠ m := hex
            have ha1 := had.pos
            have hlt' := had.lt
            by_cases hai : a = i
            · subst hai
              rw [domP_of_min hPi, h1i]
              by_cases hdm : d = m
              · subst hdm; rw [h1m]; exact le_of_lt hlt
              · rw [h1o d (by omega) (by omega) hdm]; exact hmin d had hd
            · have hAa := h1o a ha1 hai hex'
              by_cases hdm : d = m
              · subst hdm
                rcases had.up4 with h | h | h
                · subst h
                  rw [domP_of_max hPp, h1m, hAa]
                  exact not_lt.1 hsw
                · omega
                · rw [hm4] at h
                  rw [domP_congr hAa h1m]
                  exact hE a i h (by omega) hai
              · by_cases hdi : d = i
                · subst hdi
                  rw [domP_congr hAa h1i]
                  exact hE a m (had.trans him) hmn hai
                · rw [domP_congr hAa (h1o d (by omega) hdi hdm)]
                  exact hE a d had hd hai
        · rw [if_neg hlt]; exact hstay hlt
      · rw [if_neg hgc]
        by_cases hlt : A (m - 1) < A (i - 1)
        · rw [if_pos hlt]
          have hm2 : m / 2 = i := by omega
          have hPm : ¬ P m := by
            have := hP m (by omega); rw [hm2] at this; tauto
          have him : Anc i m := by
            have := @Anc.parent m (by omega); rwa [hm2] at this
          obtain ⟨h1i, h1m, h1o⟩ := swap_facts A B i m h1 (by omega) (by omega)
          intro a d had hd
          have ha1 := had.pos
          have hlt' := had.lt
          by_cases hai : a = i
          · subst hai
            rw [domP_of_min hPi, h1i]
            by_cases hdm : d = m
            · subst hdm; rw [h1m]; exact le_of_lt hlt
            · rw [h1o d (by omega) (by omega) hdm]; exact hmin d had hd
          · by_cases ham : a = m
            · subst ham
              rw [domP_of_max hPm, h1m, h1o d (by omega) (by omega) (by omega)]
              have := hE a d had hd (by omega)
              exact le_trans ((domP_of_max hPm).1 this) (le_of_lt hlt)
            · have hAa := h1o a ha1 hai ham
              by_cases hdm : d = m
              · subst hdm
                have hai' : Anc a i := by
                  rcases had.up with h | h
                  · omega
                  · rwa [hm2] at h
                rw [domP_congr hAa h1m]
                exact hE a i hai' (by omega) hai
              · by_cases hdi : d = i
                · subst hdi
                  rw [domP_congr hAa h1i]
                  exact hE a m (had.trans him) hmn hai
                · rw [domP_congr hAa (h1o d (by omega) hdi hdm)]
                  exact hE a d had hd hai
        · rw [if_neg hlt]; exact hstay hlt

end cmmheap

namespace cmmheap

theorem trickle_down_min_heapP {V : Type} [LinearOrder V] (P : Nat → Prop)
    (hP : Alternates P) (n i : Nat) (A : Nat → V) (B : Nat → Int) (h1 : 1 ≤ i) (hPi : P i)
    (hE : HeapExc P (fun a _ => a = i) A n) : HeapP P (__trickle_down_min A B i n).1 n :=
  trickle_down_min_fuel_heapP P hP n n i A B h1 (by omega) hPi hE

/-- Trickle-down on the max side, by order duality. -/
theorem trickle_down_max_heapP {V : Type} [LinearOrder V] (P : Nat → Prop)
    (hP : Alternates P) (n i : Nat) (A : Nat → V) (B : Nat → Int) (h1 : 1 ≤ i) (hPi : ¬ P i)
    (hE : HeapExc P (fun a _ => a = i) A n) : HeapP P (__trickle_down_max A B i n).1 n := by
  rw [trickle_down_max_dual, ← HeapP_dual (V := V)]
  apply trickle_down_min_heapP (V := Vᵒᵈ) (fun x => ¬ P x) (alternates_not P hP) n i A B h1 hPi
  rw [HeapExc_dual (V := V)]
  exact hE

/-- `__trickle_down` at position `i` restores the min-max heap property of the first `n` slots
when only the dominance of `i` over its descendants is in doubt. -/
theorem trickle_down_heap {V : Type} [LinearOrder V] (A : Nat → V) (B : Nat → Int)
    (i n : Nat) (h1 : 1 ≤ i) (hE : HeapExc minLevel (fun a _ => a = i) A n) :
    MinMaxHeapProp (__trickle_down A B i n).1 n := by
  rw [← heapP_minLevel_iff]
  unfold __trickle_down
  by_cases hm : isminlevel (i : Int) ≠ 0
  · rw [if_pos hm]
    exact trickle_down_min_heapP minLevel alternates_minLevel n i A B h1
      ((isminlevel_ne_zero_iff i).1 hm) hE
  · rw [if_neg hm]
    exact trickle_down_max_heapP minLevel alternates_minLevel n i A B h1
      (fun h => hm ((isminlevel_ne_zero_iff i).2 h)) hE

theorem heap_check_iff {V : Type} [LinearOrder V] (A : Nat → V) (n : Nat) :
    heap_check A n = true ↔ MinMaxHeapProp A n := by
  unfold heap_check MinMaxHeapProp
  rw [decide_eq_true_iff]
  constructor
  · intro h d hd k hk hk1
    have hlt : k < d := by
      have h2 : 2 ^ k ≤ d := by
        by_contra hc
        rw [Nat.div_eq_of_lt (by omega)] at hk1
        omega
      have := Nat.lt_two_pow k
      omega
    have := h d (by omega) k hlt hk hk1
    unfold dominates
    by_cases hm : isminlevel ((d / 2 ^ k : Nat) : Int) ≠ 0
    · rw [if_pos hm] at this
      have hm' := (isminlevel_ne_zero_iff _).1 hm
      exact ⟨fun _ => this, fun h => absurd hm' h⟩
    · rw [if_neg hm] at this
      have hm' : ¬ minLevel (d / 2 ^ k) := fun h => hm ((isminlevel_ne_zero_iff _).2 h)
      exact ⟨fun h => absurd h hm', fun _ => this⟩
  · intro h d hd k _ hk hk1
    have := h d (by omega) k hk hk1
    unfold dominates at this
    by_cases hm : isminlevel ((d / 2 ^ k : Nat) : Int) ≠ 0
    · rw [if_pos hm]
      exact this.1 ((isminlevel_ne_zero_iff _).1 hm)
    · rw [if_neg hm]
      exact this.2 (fun h => hm ((isminlevel_ne_zero_iff _).2 h))

/-! ## The three mutating operations preserve the min-max heap property -/

theorem insert_heap_aux {V : Type} [LinearOrder V] (h : minmaxheap V) (v : V) (t : Int)
    (hlen : h.length < h.maxlength) (hheap : MinMaxHeapProp h.value h.length) :
    MinMaxHeapProp (mmheap_insert h v t).2.value (mmheap_insert h v t).2.length ∧
      (mmheap_insert h v t).2.length = h.length + 1 := by
  unfold mmheap_insert
  rw [if_neg (by omega)]
  refine ⟨?_, rfl⟩
  simp only
  apply bubble_up_heap _ _ _ (by omega)
  rw [← heapP_minLevel_iff] at *
  intro a d had hd
  have := had.pos
  have := had.lt
  have e1 : Function.update h.value h.length v (a - 1) = h.value (a - 1) :=
    Function.update_noteq (by omega) _ _
  have e2 : Function.update h.value h.length v (d - 1) = h.value (d - 1) :=
    Function.update_noteq (by omega) _ _
  rw [domP_congr e1 e2]
  exact hheap a d had (by omega)

theorem removemin_heap_aux {V : Type} [LinearOrder V] (h : minmaxheap V)
    (hne : 0 < h.length) (hheap : MinMaxHeapProp h.value h.length) :
    MinMaxHeapProp (mmheap_removemin h).2.value (mmheap_removemin h).2.length ∧
      (mmheap_removemin h).2.length = h.length - 1 := by
  unfold mmheap_removemin
  rw [if_neg (by omega)]
  refine ⟨?_, rfl⟩
  simp only
  apply trickle_down_heap _ _ _ _ le_rfl
  rw [← heapP_minLevel_iff] at hheap
  intro a d had hd hex
  have hex' : a ≠ 1 := hex
  have := had.pos
  have := had.lt
  have e1 : Function.update h.value 0 (h.value (h.length - 1)) (a - 1) = h.value (a - 1) :=
    Function.update_noteq (by omega) _ _
  have e2 : Function.update h.value 0 (h.value (h.length - 1)) (d - 1) = h.value (d - 1) :=
    Function.update_noteq (by omega) _ _
  rw [domP_congr e1 e2]
  exact hheap a d had (by omega)

theorem removemax_iins_cases {V : Type} [LinearOrder V] (h : minmaxheap V) (hne : 0 < h.length) :
    (h.length = 1 ∧ mmheap_removemax_iins h = 1) ∨
    (h.length = 2 ∧ mmheap_removemax_iins h = 2) ∨
    (3 ≤ h.length ∧ h.value 2 ≤ h.value 1 ∧ mmheap_removemax_iins h = 2) ∨
    (3 ≤ h.length ∧ h.value 1 < h.value 2 ∧ mmheap_removemax_iins h = 3) := by
  unfold mmheap_removemax_iins
  by_cases h1 : h.length = 1
  · left; simp [h1]
  · by_cases h2 : h.length = 2
    · right; left; simp [h2]
    · by_cases h3 : h.value 1 ≥ h.value 2
      · right; right; left
        rw [if_neg h1, if_neg h2, if_pos h3]
        exact ⟨by omega, h3, rfl⟩
      · right; right; right
        rw [if_neg h1, if_neg h2, if_neg h3]
        exact ⟨by omega, not_le.1 h3, rfl⟩

theorem removemax_heap_aux {V : Type} [LinearOrder V] (h : minmaxheap V)
    (hne : 0 < h.length) (hheap : MinMaxHeapProp h.value h.length) :
    MinMaxHeapProp (mmheap_removemax h).2.value (mmheap_removemax h).2.length ∧
      (mmheap_removemax h).2.length = h.length - 1 := by
  unfold mmheap_removemax
  rw [if_neg (by omega)]
  refine ⟨?_, rfl⟩
  simp only
  have hi : 1 ≤ mmheap_removemax_iins h ∧ mmheap_removemax_iins h ≤ 3 ∧
      (mmheap_removemax_iins h ≠ 1 → 2 ≤ h.length) := by
    rcases removemax_iins_cases h hne with ⟨_, h2⟩ | ⟨_, h2⟩ | ⟨_, _, h2⟩ | ⟨_, _, h2⟩ <;>
      rw [h2] <;> omega
  generalize mmheap_removemax_iins h = iins at hi ⊢
  obtain ⟨hi1, hi3, hi2⟩ := hi
  apply trickle_down_heap _ _ _ _ hi1
  rw [← heapP_minLevel_iff] at hheap
  intro a d had hd hex
  have hex' : a ≠ iins := hex
  have ha1 := had.pos
  have hlt := had.lt
  have e1 : Function.update h.value (iins - 1) (h.value (h.length - 1)) (a - 1) =
      h.value (a - 1) := Function.update_noteq (by omega) _ _
  by_cases hdi : d = iins
  · subst hdi
    have e2 : Function.update h.value (d - 1) (h.value (h.length - 1)) (d - 1) =
        h.value (h.length - 1) := Function.update_same _ _ _
    rw [domP_congr e1 e2]
    have ha : a = 1 := by
      have := had.two_mul_le; omega
    subst ha
    exact hheap 1 h.length (Anc.root (by omega)) le_rfl
  · have e2 : Function.update h.value (iins - 1) (h.value (h.length - 1)) (d - 1) =
        h.value (d - 1) := Function.update_noteq (by omega) _ _
    rw [domP_congr e1 e2]
    exact hheap a d had (by omega)

end cmmheap

namespace cmmheap

/-! ## The stored pairs as a multiset -/

theorem slot_pairs_congr {V : Type} {A A' : Nat → V} {B B' : Nat → Int} {n : Nat}
    (h : ∀ j, j < n → A j = A' j ∧ B j = B' j) : slot_pairs A B n = slot_pairs A' B' n := by
  unfold slot_pairs
  apply Multiset.map_congr rfl
  intro j hj
  rw [Multiset.mem_range] at hj
  rw [(h j hj).1, (h j hj).2]

theorem slot_pairs_succ {V : Type} (A : Nat → V) (B : Nat → Int) (n : Nat) :
    slot_pairs A B (n + 1) = (A n, B n) ::ₘ slot_pairs A B n := by
  unfold slot_pairs
  rw [Multiset.range_succ, Multiset.map_cons]

theorem mem_slot_pairs {V : Type} (A : Nat → V) (B : Nat → Int) (n : Nat) (x : V × Int) :
    x ∈ slot_pairs A B n ↔ ∃ j, j < n ∧ (A j, B j) = x := by
  unfold slot_pairs
  simp [Multiset.mem_map]

theorem card_slot_pairs {V : Type} (A : Nat → V) (B : Nat → Int) (n : Nat) :
    Multiset.card (slot_pairs A B n) = n := by
  unfold slot_pairs
  simp

/-- Exchanging two occupied slots does not change the multiset of stored pairs. -/
theorem slot_pairs_swap {V : Type} (A : Nat → V) (B : Nat → Int) (x y n : Nat)
    (hx : x < n) (hy : y < n) :
    slot_pairs (__ab_swap A B x y).1 (__ab_swap A B x y).2 n = slot_pairs A B n := by
  unfold slot_pairs
  have hfun : (fun j => ((__ab_swap A B x y).1 j, (__ab_swap A B x y).2 j)) =
      (fun j => (A j, B j)) ∘ (Equiv.swap x y) := by
    funext j
    simp only [Function.comp, ab_swap_fst, ab_swap_snd, Equiv.swap_apply_def]
    split_ifs <;> rfl
  have hperm : Multiset.map (Equiv.swap x y) (Multiset.range n) = Multiset.range n := by
    have h1 : (Finset.range n).map (Equiv.swap x y).toEmbedding = Finset.range n := by
      apply Finset.map_perm
      intro a ha
      simp only [Set.mem_setOf_eq] at ha
      simp only [Finset.coe_range, Set.mem_Iio]
      by_contra hc
      apply ha
      rw [Equiv.swap_apply_of_ne_of_ne] <;> omega
    have h2 := congrArg Finset.val h1
    rw [Finset.map_val] at h2
    simpa using h2
  rw [hfun, ← Multiset.map_map, hperm]

theorem slot_pairs_swap_pos {V : Type} (A : Nat → V) (B : Nat → Int) (i j n : Nat)
    (hi : 1 ≤ i) (hj : 1 ≤ j) (hin : i ≤ n) (hjn : j ≤ n) :
    slot_pairs (__ab_swap A B (i - 1) (j - 1)).1 (__ab_swap A B (i - 1) (j - 1)).2 n =
      slot_pairs A B n :=
  slot_pairs_swap A B (i - 1) (j - 1) n (by omega) (by omega)

/-- Storing a new pair in slot `n` adds it to the multiset of the first `n` slots. -/
theorem slot_pairs_store {V : Type} (A : Nat → V) (B : Nat → Int) (n : Nat) (v : V) (t : Int) :
    slot_pairs (Function.update A n v) (Function.update B n t) (n + 1) =
      (v, t) ::ₘ slot_pairs A B n := by
  rw [slot_pairs_succ, Function.update_same, Function.update_same]
  congr 1
  apply slot_pairs_congr
  intro j hj
  rw [Function.update_noteq (by omega), Function.update_noteq (by omega)]
  exact ⟨rfl, rfl⟩

/-- Overwriting slot `q` with the last pair and dropping the last slot removes one occurrence
of the pair that was in slot `q`. -/
theorem slot_pairs_remove {V : Type} [DecidableEq V] (A : Nat → V) (B : Nat → Int)
    (n q : Nat) (hq : q < n) :
    slot_pairs (Function.update A q (A (n - 1))) (Function.update B q (B (n - 1))) (n - 1) =
      (slot_pairs A B n).erase (A q, B q) := by
  obtain ⟨k, rfl⟩ : ∃ k, n = k + 1 := ⟨n - 1, by omega⟩
  simp only [Nat.add_sub_cancel]
  by_cases hqk : q = k
  · subst hqk
    rw [Function.update_eq_self, Function.update_eq_self, slot_pairs_succ,
      Multiset.erase_cons_head]
  · have h1 := slot_pairs_swap A B q k (k + 1) hq (by omega)
    rw [slot_pairs_succ] at h1
    have e1 : (__ab_swap A B q k).1 k = A q := by
      rw [ab_swap_fst, if_neg (Ne.symm hqk), if_pos rfl]
    have e2 : (__ab_swap A B q k).2 k = B q := by
      rw [ab_swap_snd, if_neg (Ne.symm hqk), if_pos rfl]
    rw [e1, e2] at h1
    have h2 : slot_pairs (__ab_swap A B q k).1 (__ab_swap A B q k).2 k =
        slot_pairs (Function.update A q (A k)) (Function.update B q (B k)) k := by
      apply slot_pairs_congr
      intro j hj
      rw [ab_swap_fst, ab_swap_snd]
      by_cases hjq : j = q
      · subst hjq
        rw [if_pos rfl, if_pos rfl, Function.update_same, Function.update_same]
        exact ⟨rfl, rfl⟩
      · rw [if_neg hjq, if_neg hjq, if_neg (by omega), if_neg (by omega),
          Function.update_noteq hjq, Function.update_noteq hjq]
        exact ⟨rfl, rfl⟩
    rw [← h1, h2, Multiset.erase_cons_head]

/-! ## The repair routines only permute the stored pairs -/

theorem bubble_up_min_fuel_pairs {V : Type} [LinearOrder V] (n : Nat) (f : Nat) :
    ∀ (i : Nat) (A : Nat → V) (B : Nat → Int), i ≤ n →
      slot_pairs (__bubble_up_min_fuel f A B i).1 (__bubble_up_min_fuel f A B i).2 n =
        slot_pairs A B n := by
  induction f with
  | zero => intro i A B _; rfl
  | succ f ih =>
    intro i A B hi
    simp only [__bubble_up_min_fuel, Nat.shiftRight_eq_div_pow]
    rw [show (2 : Nat) ^ 2 = 4 by norm_num]
    split_ifs with hg hlt
    · rw [ih (i / 4) _ _ (by omega)]
      exact slot_pairs_swap_pos A B i (i / 4) n (by omega) (by omega) hi (by omega)
    · rfl
    · rfl

theorem bubble_up_min_pairs {V : Type} [LinearOrder V] (n i : Nat) (A : Nat → V)
    (B : Nat → Int) (hi : i ≤ n) :
    slot_pairs (__bubble_up_min A B i).1 (__bubble_up_min A B i).2 n = slot_pairs A B n :=
  bubble_up_min_fuel_pairs n i i A B hi

theorem bubble_up_max_pairs {V : Type} [LinearOrder V] (n i : Nat) (A : Nat → V)
    (B : Nat → Int) (hi : i ≤ n) :
    slot_pairs (__bubble_up_max A B i).1 (__bubble_up_max A B i).2 n = slot_pairs A B n := by
  rw [bubble_up_max_dual]
  exact bubble_up_min_pairs (V := Vᵒᵈ) n i A B hi

theorem bubble_up_pairs {V : Type} [LinearOrder V] (n i : Nat) (A : Nat → V)
    (B : Nat → Int) (hi : i ≤ n) :
    slot_pairs (__bubble_up A B i).1 (__bubble_up A B i).2 n = slot_pairs A B n := by
  unfold __bubble_up
  simp only [Nat.shiftRight_eq_div_pow, pow_one]
  split_ifs with h1 h2 h3 h4 h5
  · rw [bubble_up_max_pairs n (i / 2) _ _ (by omega)]
    exact slot_pairs_swap_pos A B i (i / 2) n (by omega) (by omega) hi (by omega)
  · exact bubble_up_min_pairs n i A B hi
  · exact bubble_up_min_pairs n i A B hi
  · rw [bubble_up_min_pairs n (i / 2) _ _ (by omega)]
    exact slot_pairs_swap_pos A B i (i / 2) n (by omega) (by omega) hi (by omega)
  · exact bubble_up_max_pairs n i A B hi
  · exact bubble_up_max_pairs n i A B hi

theorem trickle_down_min_fuel_pairs {V : Type} [LinearOrder V] (n : Nat) (f : Nat) :
    ∀ (i : Nat) (A : Nat → V) (B : Nat → Int), 1 ≤ i →
      slot_pairs (__trickle_down_min_fuel f A B i n).1 (__trickle_down_min_fuel f A B i n).2 n =
        slot_pairs A B n := by
  induction f with
  | zero => intro i A B _; rfl
  | succ f ih =>
    intro i A B h1
    simp only [__trickle_down_min_fuel, Nat.shiftLeft_eq, Nat.shiftRight_eq_div_pow, pow_one]
    have e1 : i * 2 = 2 * i := by omega
    simp only [e1]
    by_cases hl : 2 * i > n
    · rw [if_pos hl]
    · rw [if_neg hl]
      have hspec := trickle_down_min_m_spec A i n h1 (by omega)
      generalize __trickle_down_min_m A i n = m at hspec ⊢
      obtain ⟨hmn, hmS, _⟩ := hspec
      simp only [List.mem_cons, List.mem_singleton, List.not_mem_nil, or_false] at hmS
      have hsw := slot_pairs_swap_pos A B i m n h1 (by omega) (by omega) hmn
      split_ifs with h2 h3 h4 h5
      · rw [ih m _ _ (by omega)]
        rw [slot_pairs_swap_pos _ _ m (m / 2) n (by omega) (by omega) hmn (by omega)]
        exact hsw
      · rw [ih m _ _ (by omega)]
        exact hsw
      · rfl
      · exact hsw
      · rfl

theorem trickle_down_min_pairs {V : Type} [LinearOrder V] (n i : Nat) (A : Nat → V)
    (B : Nat → Int) (h1 : 1 ≤ i) :
    slot_pairs (__trickle_down_min A B i n).1 (__trickle_down_min A B i n).2 n =
      slot_pairs A B n :=
  trickle_down_min_fuel_pairs n n i A B h1

theorem trickle_down_max_pairs {V : Type} [LinearOrder V] (n i : Nat) (A : Nat → V)
    (B : Nat → Int) (h1 : 1 ≤ i) :
    slot_pairs (__trickle_down_max A B i n).1 (__trickle_down_max A B i n).2 n =
      slot_pairs A B n := by
  rw [trickle_down_max_dual]
  exact trickle_down_min_pairs (V := Vᵒᵈ) n i A B h1

theorem trickle_down_pairs {V : Type} [LinearOrder V] (n i : Nat) (A : Nat → V)
    (B : Nat → Int) (h1 : 1 ≤ i) :
    slot_pairs (__trickle_down A B i n).1 (__trickle_down A B i n).2 n = slot_pairs A B n := by
  unfold __trickle_down
  split_ifs
  · exact trickle_down_min_pairs n i A B h1
  · exact trickle_down_max_pairs n i A B h1

end cmmheap

namespace cmmheap

/-! ## The reference scans -/

theorem scan_min_spec {V : Type} [LinearOrder V] (A : Nat → V) (n : Nat) (hn : 0 < n) :
    ∃ b, scan_min A n = some b ∧ (∃ j, j < n ∧ A j = b) ∧ ∀ j, j < n → b ≤ A j := by
  induction n with
  | zero => omega
  | succ n ih =>
    by_cases h0 : n = 0
    · subst h0
      refine ⟨A 0, by simp [scan_min], ⟨0, by omega, rfl⟩, ?_⟩
      intro j hj
      have : j = 0 := by omega
      subst this; exact le_rfl
    · obtain ⟨b, hb, ⟨j0, hj0, hj0b⟩, hle⟩ := ih (by omega)
      simp only [scan_min, hb]
      by_cases hlt : A n < b
      · rw [if_pos hlt]
        refine ⟨A n, rfl, ⟨n, by omega, rfl⟩, ?_⟩
        intro j hj
        by_cases hjn : j = n
        · subst hjn; exact le_rfl
        · exact le_trans (le_of_lt hlt) (hle j (by omega))
      · rw [if_neg hlt]
        refine ⟨b, rfl, ⟨j0, by omega, hj0b⟩, ?_⟩
        intro j hj
        by_cases hjn : j = n
        · subst hjn; exact not_lt.1 hlt
        · exact hle j (by omega)

/-- The reference scan returns `x` as soon as `x` is a stored value below all stored values. -/
theorem scan_min_eq {V : Type} [LinearOrder V] (A : Nat → V) (n : Nat) (x : V)
    (hmem : ∃ j, j < n ∧ A j = x) (hle : ∀ j, j < n → x ≤ A j) : scan_min A n = some x := by
  obtain ⟨j, hj, hjx⟩ := hmem
  obtain ⟨b, hb, ⟨j0, hj0, hj0b⟩, hble⟩ := scan_min_spec A n (by omega)
  rw [hb]
  congr 1
  apply le_antisymm
  · rw [← hjx]; exact hble j hj
  · rw [← hj0b]; exact hle j0 hj0

theorem scan_max_dual {V : Type} [LinearOrder V] (A : Nat → V) (n : Nat) :
    scan_max A n = scan_min (V := Vᵒᵈ) A n := by
  induction n with
  | zero => rfl
  | succ n ih =>
    simp only [scan_max, scan_min, ih]
    rfl

theorem scan_max_eq {V : Type} [LinearOrder V] (A : Nat → V) (n : Nat) (x : V)
    (hmem : ∃ j, j < n ∧ A j = x) (hle : ∀ j, j < n → A j ≤ x) : scan_max A n = some x := by
  rw [scan_max_dual]
  exact scan_min_eq (V := Vᵒᵈ) A n x hmem hle

/-! ## Where the extremes are -/

theorem not_minLevel_two : ¬ minLevel 2 := by
  have := minLevel_half 2 le_rfl
  have h1 := minLevel_one
  simp only [Nat.div_self, Nat.ofNat_pos] at this
  tauto

theorem not_minLevel_three : ¬ minLevel 3 := by
  have := minLevel_half 3 (by omega)
  have h1 := minLevel_one
  rw [show 3 / 2 = 1 by norm_num] at this
  tauto

/-- In a min-max heap the root holds a smallest value. -/
theorem root_le {V : Type} [LinearOrder V] (A : Nat → V) (n : Nat)
    (hheap : MinMaxHeapProp A n) : ∀ j, j < n → A 0 ≤ A j := by
  rw [← heapP_minLevel_iff] at hheap
  intro j hj
  by_cases h0 : j = 0
  · subst h0; exact le_rfl
  · have := hheap 1 (j + 1) (Anc.root (by omega)) (by omega)
    exact (domP_of_min minLevel_one).1 this

/-- In a min-max heap the slot that `mmheap_removemax` vacates holds a largest value. -/
theorem le_iins {V : Type} [LinearOrder V] (h : minmaxheap V) (hne : 0 < h.length)
    (hheap : MinMaxHeapProp h.value h.length) :
    ∀ j, j < h.length → h.value j ≤ h.value (mmheap_removemax_iins h - 1) := by
  rw [← heapP_minLevel_iff] at hheap
  have h12 : 2 ≤ h.length → h.value 0 ≤ h.value 1 := fun h2 =>
    (domP_of_min minLevel_one).1 (hheap 1 2 (Anc.root le_rfl) h2)
  have hbelow2 : ∀ d, Anc 2 d → d ≤ h.length → h.value (d - 1) ≤ h.value 1 := fun d had hd =>
    (domP_of_max not_minLevel_two).1 (hheap 2 d had hd)
  have hbelow3 : ∀ d, Anc 3 d → d ≤ h.length → h.value (d - 1) ≤ h.value 2 := fun d had hd =>
    (domP_of_max not_minLevel_three).1 (hheap 3 d had hd)
  intro j hj
  rcases removemax_iins_cases h hne with ⟨hl, h2⟩ | ⟨hl, h2⟩ | ⟨hl, hv, h2⟩ | ⟨hl, hv, h2⟩ <;>
    rw [h2]
  · have : j = 0 := by omega
    subst this; exact le_rfl
  · have : j = 0 ∨ j = 1 := by omega
    rcases this with rfl | rfl
    · exact h12 (by omega)
    · exact le_rfl
  · have : j = 0 ∨ j = 1 ∨ j = 2 ∨ 4 ≤ j + 1 := by omega
    rcases this with rfl | rfl | rfl | h4
    · exact h12 (by omega)
    · exact le_rfl
    · exact hv
    · rcases Anc.two_or_three h4 with ha | ha
      · exact hbelow2 (j + 1) ha (by omega)
      · exact le_trans (hbelow3 (j + 1) ha (by omega)) hv
  · have : j = 0 ∨ j = 1 ∨ j = 2 ∨ 4 ≤ j + 1 := by omega
    rcases this with rfl | rfl | rfl | h4
    · exact le_trans (h12 (by omega)) (le_of_lt hv)
    · exact le_of_lt hv
    · exact le_rfl
    · rcases Anc.two_or_three h4 with ha | ha
      · exact le_trans (hbelow2 (j + 1) ha (by omega)) (le_of_lt hv)
      · exact hbelow3 (j + 1) ha (by omega)

/-- Both peek-max functions read the slot that `mmheap_removemax` vacates. -/
theorem peekmax_eq_iins {V : Type} [LinearOrder V] (h : minmaxheap V) (hne : 0 < h.length) :
    mmheap_peekmax_value h = some (h.value (mmheap_removemax_iins h - 1)) ∧
    mmheap_peekmax_index h = h.index (mmheap_removemax_iins h - 1) ∧
    mmheap_removemax_iins h - 1 < h.length := by
  have h0 : h.length ≠ 0 := by omega
  unfold mmheap_peekmax_value mmheap_peekmax_index mmheap_removemax_iins
  by_cases h1 : h.length = 1
  · simp [h1]
  · by_cases h2 : h.length = 2
    · simp [h2]
    · by_cases h3 : h.value 1 ≥ h.value 2
      · simp only [if_neg h0, if_neg h1, if_neg h2, if_pos h3]
        exact ⟨trivial, trivial, by omega⟩
      · simp only [if_neg h0, if_neg h1, if_neg h2, if_neg h3]
        exact ⟨trivial, trivial, by omega⟩

end cmmheap

namespace cmmheap

/-! ## Effect of the operations on the stored pairs -/

theorem insert_pairs_aux {V : Type} [LinearOrder V] (h : minmaxheap V) (v : V) (t : Int)
    (hlen : h.length < h.maxlength) :
    (mmheap_insert h v t).1 = 1 ∧
    (mmheap_insert h v t).2.length = h.length + 1 ∧
    (mmheap_insert h v t).2.maxlength = h.maxlength ∧
    pairs (mmheap_insert h v t).2 = (v, t) ::ₘ pairs h := by
  unfold mmheap_insert pairs
  rw [if_neg (by omega)]
  refine ⟨rfl, rfl, rfl, ?_⟩
  simp only
  rw [bubble_up_pairs (h.length + 1) (h.length + 1) _ _ le_rfl, slot_pairs_store]

theorem removemin_pairs_aux {V : Type} [LinearOrder V] (h : minmaxheap V)
    (hne : 0 < h.length) :
    (mmheap_removemin h).1 = 1 ∧
    (mmheap_removemin h).2.length = h.length - 1 ∧
    (mmheap_removemin h).2.maxlength = h.maxlength ∧
    pairs (mmheap_removemin h).2 = (pairs h).erase (h.value 0, h.index 0) := by
  unfold mmheap_removemin pairs
  rw [if_neg (by omega)]
  refine ⟨rfl, rfl, rfl, ?_⟩
  simp only
  rw [trickle_down_pairs (h.length - 1) 1 _ _ le_rfl, slot_pairs_remove _ _ _ 0 hne]

theorem removemax_pairs_aux {V : Type} [LinearOrder V] (h : minmaxheap V)
    (hne : 0 < h.length) :
    (mmheap_removemax h).1 = 1 ∧
    (mmheap_removemax h).2.length = h.length - 1 ∧
    (mmheap_removemax h).2.maxlength = h.maxlength ∧
    pairs (mmheap_removemax h).2 =
      (pairs h).erase (h.value (mmheap_removemax_iins h - 1),
        h.index (mmheap_removemax_iins h - 1)) := by
  have hq := (peekmax_eq_iins h hne).2.2
  have hi : 1 ≤ mmheap_removemax_iins h := by
    rcases removemax_iins_cases h hne with ⟨_, h2⟩ | ⟨_, h2⟩ | ⟨_, _, h2⟩ | ⟨_, _, h2⟩ <;>
      rw [h2] <;> omega
  unfold mmheap_removemax pairs
  rw [if_neg (by omega)]
  refine ⟨rfl, rfl, rfl, ?_⟩
  simp only
  rw [trickle_down_pairs (h.length - 1) _ _ _ hi, slot_pairs_remove _ _ _ _ hq]

/-! ## The claims -/

/-- C1: `mmheap_insert` preserves the min-max heap property. For every heap whose first
`length` slots satisfy the property and with `length < maxlength`, and every pair `(v, t)`,
the heap after `mmheap_insert` has `length + 1` occupied slots and they satisfy the
property. -/
theorem mmheap_insert_preserves_heap {V : Type} [LinearOrder V] (h : minmaxheap V) (v : V)
    (t : Int) (hlen : h.length < h.maxlength) (hheap : MinMaxHeapProp h.value h.length) :
    MinMaxHeapProp (mmheap_insert h v t).2.value (mmheap_insert h v t).2.length ∧
      (mmheap_insert h v t).2.length = h.length + 1 :=
  insert_heap_aux h v t hlen hheap

/-- Claim C1 instantiated at `example_heap` and the pair `(0, 14)`; both hypotheses hold there. -/
theorem mmheap_insert_preserves_heap_witness :
    (example_heap.length < example_heap.maxlength ∧
      MinMaxHeapProp example_heap.value example_heap.length) ∧
    (MinMaxHeapProp (mmheap_insert example_heap 0 14).2.value
        (mmheap_insert example_heap 0 14).2.length ∧
      (mmheap_insert example_heap 0 14).2.length = example_heap.length + 1) :=
  ⟨⟨by decide, (heap_check_iff _ _).1 (by decide)⟩,
    mmheap_insert_preserves_heap example_heap 0 14 (by decide)
      ((heap_check_iff _ _).1 (by decide))⟩

/-- C4: peek-min correctness. For every non-empty heap satisfying the min-max heap property,
`mmheap_peekmin_value` returns the value of slot 0, which is the minimum of the `length`
stored values and equals the reference obtained by scanning slots `0 .. length - 1`, and
`mmheap_peekmin_index` returns the tag stored in slot 0. -/
theorem mmheap_peekmin_correct {V : Type} [LinearOrder V] (h : minmaxheap V)
    (hne : 0 < h.length) (hheap : MinMaxHeapProp h.value h.length) :
    mmheap_peekmin_value h = scan_min h.value h.length ∧
    mmheap_peekmin_value h = some (h.value 0) ∧
    (∀ j, j < h.length → h.value 0 ≤ h.value j) ∧
    mmheap_peekmin_index h = h.index 0 := by
  have hle := root_le h.value h.length hheap
  have hv : mmheap_peekmin_value h = some (h.value 0) := by
    unfold mmheap_peekmin_value; rw [if_neg (by omega)]
  have hi : mmheap_peekmin_index h = h.index 0 := by
    unfold mmheap_peekmin_index; rw [if_neg (by omega)]
  refine ⟨?_, hv, hle, hi⟩
  rw [hv, scan_min_eq h.value h.length (h.value 0) ⟨0, hne, rfl⟩ hle]

/-- Claim C4 instantiated at `example_heap`; both hypotheses hold there. -/
theorem mmheap_peekmin_correct_witness :
    (0 < example_heap.length ∧ MinMaxHeapProp example_heap.value example_heap.length) ∧
    (mmheap_peekmin_value example_heap = scan_min example_heap.value example_heap.length ∧
      mmheap_peekmin_value example_heap = some (example_heap.value 0) ∧
      (∀ j, j < example_heap.length → example_heap.value 0 ≤ example_heap.value j) ∧
      mmheap_peekmin_index example_heap = example_heap.index 0) :=
  ⟨⟨by decide, (heap_check_iff _ _).1 (by decide)⟩,
    mmheap_peekmin_correct example_heap (by decide) ((heap_check_iff _ _).1 (by decide))⟩

/-- C5: peek-max correctness. For every non-empty heap satisfying the min-max heap property,
`mmheap_peekmax_value` returns a stored value that is the maximum of the `length` stored
values and equals the reference obtained by scanning slots `0 .. length - 1`; for
`length >= 3` that maximum is the value of slot 1 or of slot 2. -/
theorem mmheap_peekmax_correct {V : Type} [LinearOrder V] (h : minmaxheap V)
    (hne : 0 < h.length) (hheap : MinMaxHeapProp h.value h.length) :
    mmheap_peekmax_value h = scan_max h.value h.length ∧
    (∃ mv, mmheap_peekmax_value h = some mv ∧ (∃ j, j < h.length ∧ h.value j = mv) ∧
      ∀ j, j < h.length → h.value j ≤ mv) ∧
    (3 ≤ h.length → scan_max h.value h.length = some (h.value 1) ∨
      scan_max h.value h.length = some (h.value 2)) := by
  obtain ⟨hv, _, hq⟩ := peekmax_eq_iins h hne
  have hle := le_iins h hne hheap
  have hs := scan_max_eq h.value h.length _ ⟨_, hq, rfl⟩ hle
  refine ⟨by rw [hv, hs], ⟨_, hv, ⟨_, hq, rfl⟩, hle⟩, ?_⟩
  intro h3
  rw [hs]
  rcases removemax_iins_cases h hne with ⟨_, h2⟩ | ⟨_, h2⟩ | ⟨_, _, h2⟩ | ⟨_, _, h2⟩
  · omega
  · omega
  · left; rw [h2]
  · right; rw [h2]

/-- Claim C5 instantiated at `example_heap`; both hypotheses hold there. -/
theorem mmheap_peekmax_correct_witness :
    (0 < example_heap.length ∧ MinMaxHeapProp example_heap.value example_heap.length) ∧
    (mmheap_peekmax_value example_heap = scan_max example_heap.value example_heap.length ∧
      (∃ mv, mmheap_peekmax_value example_heap = some mv ∧
        (∃ j, j < example_heap.length ∧ example_heap.value j = mv) ∧
        ∀ j, j < example_heap.length → example_heap.value j ≤ mv) ∧
      (3 ≤ example_heap.length →
        scan_max example_heap.value example_heap.length = some (example_heap.value 1) ∨
        scan_max example_heap.value example_heap.length = some (example_heap.value 2))) :=
  ⟨⟨by decide, (heap_check_iff _ _).1 (by decide)⟩,
    mmheap_peekmax_correct example_heap (by decide) ((heap_check_iff _ _).1 (by decide))⟩

/-- C6: a successful insert adds exactly one pair and keeps tags attached. For every heap with
`length < maxlength` and every pair `(v, t)`, `mmheap_insert` returns 1, `length` grows by
exactly 1, `maxlength` is unchanged, and the multiset of (value, tag) pairs over the occupied
slots is the previous multiset plus `(v, t)`. -/
theorem mmheap_insert_adds_pair {V : Type} [LinearOrder V] (h : minmaxheap V) (v : V)
    (t : Int) (hlen : h.length < h.maxlength) :
    (mmheap_insert h v t).1 = 1 ∧
    (mmheap_insert h v t).2.length = h.length + 1 ∧
    (mmheap_insert h v t).2.maxlength = h.maxlength ∧
    pairs (mmheap_insert h v t).2 = (v, t) ::ₘ pairs h :=
  insert_pairs_aux h v t hlen

/-- Claim C6 instantiated at `example_heap` and the pair `(0, 14)`; the hypothesis holds there. -/
theorem mmheap_insert_adds_pair_witness :
    example_heap.length < example_heap.maxlength ∧
    ((mmheap_insert example_heap 0 14).1 = 1 ∧
      (mmheap_insert example_heap 0 14).2.length = example_heap.length + 1 ∧
      (mmheap_insert example_heap 0 14).2.maxlength = example_heap.maxlength ∧
      pairs (mmheap_insert example_heap 0 14).2 = (0, 14) ::ₘ pairs example_heap) :=
  ⟨by decide, mmheap_insert_adds_pair example_heap 0 14 (by decide)⟩

/-- C9: capacity boundary. `mmheap_insert` returns 0 exactly when `length == maxlength`, and
then the heap (length, maxlength, every value and tag) is unchanged; whenever
`length < maxlength` it returns 1. `MinMaxHeap::Insert` likewise returns `false` exactly when
`length == maxlength` and then leaves the object unchanged. -/
theorem mmheap_insert_capacity_boundary {V I : Type} [LinearOrder V] (h : minmaxheap V)
    (v : V) (t : Int) (H : MinMaxHeap V I) (i : I) :
    ((mmheap_insert h v t).1 = 0 ↔ h.length = h.maxlength) ∧
    (h.length = h.maxlength → (mmheap_insert h v t).2 = h) ∧
    (h.length < h.maxlength → (mmheap_insert h v t).1 = 1) ∧
    ((MinMaxHeap.Insert H v i).1 = false ↔ H.length = H.maxlength) ∧
    (H.length = H.maxlength → (MinMaxHeap.Insert H v i).2 = H) ∧
    (H.length < H.maxlength → (MinMaxHeap.Insert H v i).1 = true) := by
  unfold mmheap_insert MinMaxHeap.Insert
  refine ⟨?_, ?_, ?_, ?_, ?_, ?_⟩
  · by_cases hc : h.length = h.maxlength
    · simp [hc]
    · simp [hc]
  · intro hc; rw [if_pos hc]
  · intro hc; rw [if_neg (by omega)]
  · by_cases hc : H.length = H.maxlength
    · simp [hc]
    · simp [hc]
  · intro hc; rw [if_pos hc]
  · intro hc; rw [if_neg (by omega)]

end cmmheap

namespace cmmheap

/-! ## Occupancy along call sequences -/

/-- The effect of one `mmheap_removemin` on flag, length and capacity. -/
theorem removemin_step {V : Type} [LinearOrder V] (h : minmaxheap V) :
    ((mmheap_removemin h).1 = 0 ∨ (mmheap_removemin h).1 = 1) ∧
    (mmheap_removemin h).2.maxlength = h.maxlength ∧
    ((mmheap_removemin h).1 = 1 → (mmheap_removemin h).2.length + 1 = h.length) ∧
    ((mmheap_removemin h).1 = 0 → (mmheap_removemin h).2 = h) := by
  unfold mmheap_removemin
  by_cases hf : h.length = 0
  · rw [if_pos hf]; simp
  · rw [if_neg hf]; simp; omega

/-- The effect of one `mmheap_removemax` on flag, length and capacity. -/
theorem removemax_step {V : Type} [LinearOrder V] (h : minmaxheap V) :
    ((mmheap_removemax h).1 = 0 ∨ (mmheap_removemax h).1 = 1) ∧
    (mmheap_removemax h).2.maxlength = h.maxlength ∧
    ((mmheap_removemax h).1 = 1 → (mmheap_removemax h).2.length + 1 = h.length) ∧
    ((mmheap_removemax h).1 = 0 → (mmheap_removemax h).2 = h) := by
  unfold mmheap_removemax
  by_cases hf : h.length = 0
  · rw [if_pos hf]; simp
  · rw [if_neg hf]; simp; omega

end cmmheap

namespace cmmheap

/-! ## Heaps behind pointers -/

end cmmheap

namespace cmmheap

/-! ## Sorted lists and multisets -/

/-- A sorted list `s` whose elements split into a sorted list `l` and a rest `R` that `l`
stays below starts with `l`. -/
theorem sorted_split {α : Type} (r : α → α → Prop) [DecidableRel r] [IsTrans α r]
    [IsAntisymm α r] [IsTotal α r] (s l : List α) (R : Multiset α)
    (hsplit : (↑s : Multiset α) = ↑l + R) (hs : s.Sorted r) (hl : l.Sorted r)
    (hle : ∀ a, a ∈ l → ∀ b, b ∈ R → r a b) : ∃ t, s = l ++ t := by
  refine ⟨R.sort r, ?_⟩
  apply List.eq_of_perm_of_sorted (r := r) _ hs
  · unfold List.Sorted
    rw [List.pairwise_append]
    refine ⟨hl, Multiset.sort_sorted r R, ?_⟩
    intro a ha b hb
    exact hle a ha b ((Multiset.mem_sort r).1 hb)
  · rw [← Multiset.coe_eq_coe, hsplit, ← Multiset.coe_add, Multiset.sort_eq]

theorem getElem?_append_left_of_lt {α : Type} (s l t : List α) (h : s = l ++ t) (j : Nat)
    (hj : j < l.length) : s[j]? = l[j]? := by
  subst h
  exact List.getElem?_append_left hj

/-! ## The pairs fed to a selection routine -/

theorem input_pairs_zero {V : Type} (x : Nat → V) : input_pairs x 0 = 0 := by
  unfold input_pairs; simp

theorem input_pairs_succ {V : Type} (x : Nat → V) (n : Nat) :
    input_pairs x (n + 1) = (x n, (n : Int)) ::ₘ input_pairs x n := by
  unfold input_pairs
  rw [Multiset.range_succ, Multiset.map_cons]

theorem card_input_pairs {V : Type} (x : Nat → V) (n : Nat) :
    Multiset.card (input_pairs x n) = n := by
  unfold input_pairs; simp

theorem mem_input_pairs {V : Type} (x : Nat → V) (n : Nat) (p : V × Int) :
    p ∈ input_pairs x n ↔ ∃ t, t < n ∧ p = (x t, (t : Int)) := by
  unfold input_pairs
  simp only [Multiset.mem_map, Multiset.mem_range]
  constructor
  · rintro ⟨t, ht, rfl⟩; exact ⟨t, ht, rfl⟩
  · rintro ⟨t, ht, rfl⟩; exact ⟨t, ht, rfl⟩

theorem input_pairs_fst {V : Type} (x : Nat → V) (n : Nat) :
    (input_pairs x n).map Prod.fst = ↑((List.range n).map x) := by
  unfold input_pairs
  rw [Multiset.map_map]
  rfl

theorem input_pairs_snd_nodup {V : Type} (x : Nat → V) (n : Nat) :
    ((input_pairs x n).map Prod.snd).Nodup := by
  unfold input_pairs
  rw [Multiset.map_map]
  apply Multiset.Nodup.map _ (Multiset.nodup_range n)
  intro a b hab
  simpa using hab

theorem mem_pairs {V : Type} (h : minmaxheap V) (p : V × Int) :
    p ∈ pairs h ↔ ∃ j, j < h.length ∧ (h.value j, h.index j) = p := by
  unfold pairs
  exact mem_slot_pairs _ _ _ _

theorem card_pairs {V : Type} (h : minmaxheap V) : Multiset.card (pairs h) = h.length := by
  unfold pairs
  exact card_slot_pairs _ _ _

theorem heapProp_zero {V : Type} [LinearOrder V] (A : Nat → V) : MinMaxHeapProp A 0 := by
  intro d hd k hk hk1
  have : d = 0 := by omega
  subst this
  simp at hk1

end cmmheap

namespace cmmheap

/-! ## `ksmallest`: the feeding loop keeps the `k` smallest pairs -/

theorem pairs_le_max {V : Type} [LinearOrder V] (h : minmaxheap V) (hne : 0 < h.length)
    (hheap : MinMaxHeapProp h.value h.length) :
    ∀ p, p ∈ pairs h → p.1 ≤ h.value (mmheap_removemax_iins h - 1) := by
  intro p hp
  obtain ⟨j, hj, rfl⟩ := (mem_pairs h p).1 hp
  exact le_iins h hne hheap j hj

theorem min_le_pairs {V : Type} [LinearOrder V] (h : minmaxheap V)
    (hheap : MinMaxHeapProp h.value h.length) :
    ∀ p, p ∈ pairs h → h.value 0 ≤ p.1 := by
  intro p hp
  obtain ⟨j, hj, rfl⟩ := (mem_pairs h p).1 hp
  exact root_le h.value h.length hheap j hj

theorem max_pair_mem {V : Type} [LinearOrder V] (h : minmaxheap V) (hne : 0 < h.length) :
    (h.value (mmheap_removemax_iins h - 1), h.index (mmheap_removemax_iins h - 1)) ∈ pairs h :=
  (mem_pairs h _).2 ⟨_, (peekmax_eq_iins h hne).2.2, rfl⟩

theorem min_pair_mem {V : Type} (h : minmaxheap V) (hne : 0 < h.length) :
    (h.value 0, h.index 0) ∈ pairs h :=
  (mem_pairs h _).2 ⟨0, hne, rfl⟩

/-- After `i` iterations of the `for` loop of `ksmallest` the heap is a min-max heap of
`min i k` pairs taken from the first `i` inputs, and no rejected input is below a kept one. -/
theorem ksmallest_for_inv {V : Type} [LinearOrder V] (fv : Nat → V) (fi : Nat → Int)
    (x : Nat → V) (k : Nat) (hk : 1 ≤ k) (i : Nat) :
    MinMaxHeapProp (ksmallest_for x k (mmheap_create fv fi k) i).value
      (ksmallest_for x k (mmheap_create fv fi k) i).length ∧
    (ksmallest_for x k (mmheap_create fv fi k) i).maxlength = k ∧
    (ksmallest_for x k (mmheap_create fv fi k) i).length = min i k ∧
    ∃ R : Multiset (V × Int),
      input_pairs x i = pairs (ksmallest_for x k (mmheap_create fv fi k) i) + R ∧
      ∀ p, p ∈ pairs (ksmallest_for x k (mmheap_create fv fi k) i) → ∀ q, q ∈ R → p.1 ≤ q.1 := by
  induction i with
  | zero =>
    refine ⟨heapProp_zero _, rfl, by simp [ksmallest_for, mmheap_create], 0, ?_, ?_⟩
    · simp [input_pairs_zero, pairs, slot_pairs, ksmallest_for, mmheap_create]
    · intro p _ q hq; simp at hq
  | succ i ih =>
    simp only [ksmallest_for]
    generalize ksmallest_for x k (mmheap_create fv fi k) i = h at ih
    obtain ⟨hheap, hmax, hlen, R, hsplit, hord⟩ := ih
    unfold ksmallest_body mmheap_getlength
    by_cases hfull : h.length = k
    · rw [if_pos hfull]
      have hne : 0 < h.length := by omega
      have hki : k ≤ i := by omega
      obtain ⟨hpv, _, _⟩ := peekmax_eq_iins h hne
      have hmem := max_pair_mem h hne
      have hle := pairs_le_max h hne hheap
      rw [hpv]
      simp only
      by_cases hlt : x i < h.value (mmheap_removemax_iins h - 1)
      · rw [if_pos hlt]
        obtain ⟨hrh, hrl⟩ := removemax_heap_aux h hne hheap
        obtain ⟨_, _, hrm, hrp⟩ := removemax_pairs_aux h hne
        have hcap : (mmheap_removemax h).2.length < (mmheap_removemax h).2.maxlength := by
          omega
        obtain ⟨hih, hil⟩ := insert_heap_aux (mmheap_removemax h).2 (x i) i hcap hrh
        obtain ⟨_, _, him, hip⟩ := insert_pairs_aux (mmheap_removemax h).2 (x i) i hcap
        refine ⟨hih, by omega, by omega,
          (h.value (mmheap_removemax_iins h - 1), h.index (mmheap_removemax_iins h - 1)) ::ₘ R,
          ?_, ?_⟩
        · rw [hip, hrp, input_pairs_succ, hsplit]
          conv_lhs => rw [← Multiset.cons_erase hmem]
          simp only [Multiset.cons_add, Multiset.add_cons]
          rw [Multiset.cons_swap]
        · intro p hp q hq
          rw [hip, hrp] at hp
          rcases Multiset.mem_cons.1 hp with rfl | hp
          · rcases Multiset.mem_cons.1 hq with rfl | hq
            · exact le_of_lt hlt
            · exact le_trans (le_of_lt hlt) (hord _ hmem q hq)
          · have hp' := Multiset.mem_of_mem_erase hp
            rcases Multiset.mem_cons.1 hq with rfl | hq
            · exact hle p hp'
            · exact hord p hp' q hq
      · rw [if_neg hlt]
        refine ⟨hheap, hmax, by omega, (x i, (i : Int)) ::ₘ R, ?_, ?_⟩
        · rw [input_pairs_succ, hsplit, Multiset.add_cons]
        · intro p hp q hq
          rcases Multiset.mem_cons.1 hq with rfl | hq
          · exact le_trans (hle p hp) (not_lt.1 hlt)
          · exact hord p hp q hq
    · rw [if_neg hfull]
      have hik : i < k := by omega
      have hcap : h.length < h.maxlength := by omega
      obtain ⟨hih, hil⟩ := insert_heap_aux h (x i) i hcap hheap
      obtain ⟨_, _, him, hip⟩ := insert_pairs_aux h (x i) i hcap
      have hR : R = 0 := by
        have hc := congrArg Multiset.card hsplit
        rw [card_input_pairs, Multiset.card_add, card_pairs] at hc
        exact Multiset.card_eq_zero.1 (by omega)
      subst hR
      refine ⟨hih, by omega, by omega, 0, ?_, ?_⟩
      · rw [hip, input_pairs_succ, hsplit]
        simp
      · intro p _ q hq; simp at hq

/-! ## `ksmallest`: the draining loop writes the kept pairs in ascending order -/

theorem ksmallest_while_spec {V : Type} [LinearOrder V] (fuel : Nat) :
    ∀ (h : minmaxheap V) (i : Nat) (xk : Nat → Option V) (ik : Nat → Int),
      MinMaxHeapProp h.value h.length → h.length ≤ fuel →
      ∃ l : List (V × Int), (↑l : Multiset (V × Int)) = pairs h ∧
        (l.map Prod.fst).Sorted (· ≤ ·) ∧
        (ksmallest_while fuel h i xk ik).1 = i + h.length ∧
        (∀ j p, l[j]? = some p →
          (ksmallest_while fuel h i xk ik).2.1 (i + j) = some p.1 ∧
          (ksmallest_while fuel h i xk ik).2.2 (i + j) = p.2) ∧
        (∀ j, j < i → (ksmallest_while fuel h i xk ik).2.1 j = xk j ∧
          (ksmallest_while fuel h i xk ik).2.2 j = ik j) := by
  induction fuel with
  | zero =>
    intro h i xk ik _ hlen
    refine ⟨[], ?_, by simp, ?_, ?_, ?_⟩
    · have : h.length = 0 := by omega
      simp [pairs, slot_pairs, this]
    · simp only [ksmallest_while]; omega
    · intro j p hj; simp at hj
    · intro j _; exact ⟨rfl, rfl⟩
  | succ fuel ih =>
    intro h i xk ik hheap hlen
    simp only [ksmallest_while, mmheap_getlength]
    by_cases h0 : h.length ≠ 0
    · rw [if_pos h0]
      have hne : 0 < h.length := by omega
      obtain ⟨hrh, hrl⟩ := removemin_heap_aux h hne hheap
      obtain ⟨_, _, _, hrp⟩ := removemin_pairs_aux h hne
      have hmem := min_pair_mem h hne
      have hpv : mmheap_peekmin_value h = some (h.value 0) := by
        unfold mmheap_peekmin_value; rw [if_neg h0]
      have hpi : mmheap_peekmin_index h = h.index 0 := by
        unfold mmheap_peekmin_index; rw [if_neg h0]
      rw [hpv, hpi]
      obtain ⟨l', hl', hs', hc', ho', hu'⟩ := ih (mmheap_removemin h).2 (i + 1)
        (Function.update xk i (some (h.value 0))) (Function.update ik i (h.index 0))
        hrh (by omega)
      refine ⟨(h.value 0, h.index 0) :: l', ?_, ?_, ?_, ?_, ?_⟩
      · rw [← Multiset.cons_coe, hl', hrp, Multiset.cons_erase hmem]
      · simp only [List.map_cons]
        refine List.sorted_cons.2 ⟨?_, hs'⟩
        intro b hb
        obtain ⟨p, hp, rfl⟩ := List.mem_map.1 hb
        have hp1 : p ∈ (↑l' : Multiset (V × Int)) := Multiset.mem_coe.2 hp
        rw [hl', hrp] at hp1
        exact min_le_pairs h hheap p (Multiset.mem_of_mem_erase hp1)
      · rw [hc', hrl]; omega
      · intro j p hj
        cases j with
        | zero =>
          simp only [List.getElem?_cons_zero, Option.some.injEq] at hj
          subst hj
          have := hu' i (by omega)
          simp only [Function.update_same] at this
          exact this
        | succ j =>
          simp only [List.getElem?_cons_succ] at hj
          have := ho' j p hj
          rw [show i + 1 + j = i + (j + 1) by omega] at this
          exact this
      · intro j hj
        have := hu' j (by omega)
        rw [Function.update_noteq (by omega), Function.update_noteq (by omega)] at this
        exact this
    · rw [if_neg h0]
      have : h.length = 0 := by omega
      refine ⟨[], ?_, by simp, ?_, ?_, ?_⟩
      · simp [pairs, slot_pairs, this]
      · simp only; omega
      · intro j p hj; simp at hj
      · intro j _; exact ⟨rfl, rfl⟩

end cmmheap

namespace cmmheap

/-! ## `klargest`: the feeding loop keeps the `k` largest pairs -/

/-- After `i` iterations of the `for` loop of `klargest` the heap is a min-max heap of
`min i k` pairs taken from the first `i` inputs, and no rejected input is above a kept one. -/
theorem klargest_for_inv {V : Type} [LinearOrder V] (fv : Nat → V) (fi : Nat → Int)
    (x : Nat → V) (k : Nat) (hk : 1 ≤ k) (i : Nat) :
    MinMaxHeapProp (klargest_for x k (mmheap_create fv fi k) i).value
      (klargest_for x k (mmheap_create fv fi k) i).length ∧
    (klargest_for x k (mmheap_create fv fi k) i).maxlength = k ∧
    (klargest_for x k (mmheap_create fv fi k) i).length = min i k ∧
    ∃ R : Multiset (V × Int),
      input_pairs x i = pairs (klargest_for x k (mmheap_create fv fi k) i) + R ∧
      ∀ p, p ∈ pairs (klargest_for x k (mmheap_create fv fi k) i) → ∀ q, q ∈ R → q.1 ≤ p.1 := by
  induction i with
  | zero =>
    refine ⟨heapProp_zero _, rfl, by simp [klargest_for, mmheap_create], 0, ?_, ?_⟩
    · simp [input_pairs_zero, pairs, slot_pairs, klargest_for, mmheap_create]
    · intro p _ q hq; simp at hq
  | succ i ih =>
    simp only [klargest_for]
    generalize klargest_for x k (mmheap_create fv fi k) i = h at ih
    obtain ⟨hheap, hmax, hlen, R, hsplit, hord⟩ := ih
    unfold klargest_body mmheap_getlength
    by_cases hfull : h.length = k
    · rw [if_pos hfull]
      have hne : 0 < h.length := by omega
      have h0 : h.length ≠ 0 := by omega
      have hki : k ≤ i := by omega
      have hpv : mmheap_peekmin_value h = some (h.value 0) := by
        unfold mmheap_peekmin_value; rw [if_neg h0]
      have hmem := min_pair_mem h hne
      have hle := min_le_pairs h hheap
      rw [hpv]
      simp only
      by_cases hlt : x i > h.value 0
      · rw [if_pos hlt]
        obtain ⟨hrh, hrl⟩ := removemin_heap_aux h hne hheap
        obtain ⟨_, _, hrm, hrp⟩ := removemin_pairs_aux h hne
        have hcap : (mmheap_removemin h).2.length < (mmheap_removemin h).2.maxlength := by
          omega
        obtain ⟨hih, hil⟩ := insert_heap_aux (mmheap_removemin h).2 (x i) i hcap hrh
        obtain ⟨_, _, him, hip⟩ := insert_pairs_aux (mmheap_removemin h).2 (x i) i hcap
        refine ⟨hih, by omega, by omega, (h.value 0, h.index 0) ::ₘ R, ?_, ?_⟩
        · rw [hip, hrp, input_pairs_succ, hsplit]
          conv_lhs => rw [← Multiset.cons_erase hmem]
          simp only [Multiset.cons_add, Multiset.add_cons]
          rw [Multiset.cons_swap]
        · intro p hp q hq
          rw [hip, hrp] at hp
          rcases Multiset.mem_cons.1 hp with rfl | hp
          · rcases Multiset.mem_cons.1 hq with rfl | hq
            · exact le_of_lt hlt
            · exact le_trans (hord _ hmem q hq) (le_of_lt hlt)
          · have hp' := Multiset.mem_of_mem_erase hp
            rcases Multiset.mem_cons.1 hq with rfl | hq
            · exact hle p hp'
            · exact hord p hp' q hq
      · rw [if_neg hlt]
        refine ⟨hheap, hmax, by omega, (x i, (i : Int)) ::ₘ R, ?_, ?_⟩
        · rw [input_pairs_succ, hsplit, Multiset.add_cons]
        · intro p hp q hq
          rcases Multiset.mem_cons.1 hq with rfl | hq
          · exact le_trans (not_lt.1 hlt) (hle p hp)
          · exact hord p hp q hq
    · rw [if_neg hfull]
      have hik : i < k := by omega
      have hcap : h.length < h.maxlength := by omega
      obtain ⟨hih, hil⟩ := insert_heap_aux h (x i) i hcap hheap
      obtain ⟨_, _, him, hip⟩ := insert_pairs_aux h (x i) i hcap
      have hR : R = 0 := by
        have hc := congrArg Multiset.card hsplit
        rw [card_input_pairs, Multiset.card_add, card_pairs] at hc
        exact Multiset.card_eq_zero.1 (by omega)
      subst hR
      refine ⟨hih, by omega, by omega, 0, ?_, ?_⟩
      · rw [hip, input_pairs_succ, hsplit]
        simp
      · intro p _ q hq; simp at hq

/-! ## `klargest`: the draining loop writes the kept pairs in descending order -/

theorem klargest_while_spec {V : Type} [LinearOrder V] (fuel : Nat) :
    ∀ (h : minmaxheap V) (i : Nat) (xk : Nat → Option V) (ik : Nat → Int),
      MinMaxHeapProp h.value h.length → h.length ≤ fuel →
      ∃ l : List (V × Int), (↑l : Multiset (V × Int)) = pairs h ∧
        (l.map Prod.fst).Sorted (· ≥ ·) ∧
        (klargest_while fuel h i xk ik).1 = i + h.length ∧
        (∀ j p, l[j]? = some p →
          (klargest_while fuel h i xk ik).2.1 (i + j) = some p.1 ∧
          (klargest_while fuel h i xk ik).2.2 (i + j) = p.2) ∧
        (∀ j, j < i → (klargest_while fuel h i xk ik).2.1 j = xk j ∧
          (klargest_while fuel h i xk ik).2.2 j = ik j) := by
  induction fuel with
  | zero =>
    intro h i xk ik _ hlen
    refine ⟨[], ?_, by simp, ?_, ?_, ?_⟩
    · have : h.length = 0 := by omega
      simp [pairs, slot_pairs, this]
    · simp only [klargest_while]; omega
    · intro j p hj; simp at hj
    · intro j _; exact ⟨rfl, rfl⟩
  | succ fuel ih =>
    intro h i xk ik hheap hlen
    simp only [klargest_while, mmheap_getlength]
    by_cases h0 : h.length ≠ 0
    · rw [if_pos h0]
      have hne : 0 < h.length := by omega
      obtain ⟨hrh, hrl⟩ := removemax_heap_aux h hne hheap
      obtain ⟨_, _, _, hrp⟩ := removemax_pairs_aux h hne
      have hmem := max_pair_mem h hne
      obtain ⟨hpv, hpi, _⟩ := peekmax_eq_iins h hne
      rw [hpv, hpi]
      obtain ⟨l', hl', hs', hc', ho', hu'⟩ := ih (mmheap_removemax h).2 (i + 1)
        (Function.update xk i (some (h.value (mmheap_removemax_iins h - 1))))
        (Function.update ik i (h.index (mmheap_removemax_iins h - 1)))
        hrh (by omega)
      refine ⟨(h.value (mmheap_removemax_iins h - 1),
        h.index (mmheap_removemax_iins h - 1)) :: l', ?_, ?_, ?_, ?_, ?_⟩
      · rw [← Multiset.cons_coe, hl', hrp, Multiset.cons_erase hmem]
      · simp only [List.map_cons]
        refine List.sorted_cons.2 ⟨?_, hs'⟩
        intro b hb
        obtain ⟨p, hp, rfl⟩ := List.mem_map.1 hb
        have hp1 : p ∈ (↑l' : Multiset (V × Int)) := Multiset.mem_coe.2 hp
        rw [hl', hrp] at hp1
        exact pairs_le_max h hne hheap p (Multiset.mem_of_mem_erase hp1)
      · rw [hc', hrl]; omega
      · intro j p hj
        cases j with
        | zero =>
          simp only [List.getElem?_cons_zero, Option.some.injEq] at hj
          subst hj
          have := hu' i (by omega)
          simp only [Function.update_same] at this
          exact this
        | succ j =>
          simp only [List.getElem?_cons_succ] at hj
          have := ho' j p hj
          rw [show i + 1 + j = i + (j + 1) by omega] at this
          exact this
      · intro j hj
        have := hu' j (by omega)
        rw [Function.update_noteq (by omega), Function.update_noteq (by omega)] at this
        exact this
    · rw [if_neg h0]
      have : h.length = 0 := by omega
      refine ⟨[], ?_, by simp, ?_, ?_, ?_⟩
      · simp [pairs, slot_pairs, this]
      · simp only; omega
      · intro j p hj; simp at hj
      · intro j _; exact ⟨rfl, rfl⟩

/-! ## The selection routines as a whole -/

/-- The outputs of `ksmallest` list, in ascending order of value, `min n k` of the input
pairs, and no other input pair has a smaller value than a listed one. -/
theorem ksmallest_spec {V : Type} [LinearOrder V] (fv : Nat → V) (fi : Nat → Int)
    (x : Nat → V) (n k : Nat) (xk : Nat → Option V) (ik : Nat → Int) (hk : 1 ≤ k) :
    ∃ (l : List (V × Int)) (R : Multiset (V × Int)),
      l.length = min n k ∧ input_pairs x n = ↑l + R ∧
      (l.map Prod.fst).Sorted (· ≤ ·) ∧
      (∀ p, p ∈ l → ∀ q, q ∈ R → p.1 ≤ q.1) ∧
      (ksmallest fv fi x n k xk ik).1 = min n k ∧
      ∀ j p, l[j]? = some p →
        (ksmallest fv fi x n k xk ik).2.1 j = some p.1 ∧
        (ksmallest fv fi x n k xk ik).2.2 j = p.2 := by
  obtain ⟨hheap, _, hlen, R, hsplit, hord⟩ := ksmallest_for_inv fv fi x k hk n
  unfold ksmallest mmheap_getlength
  simp only
  generalize ksmallest_for x k (mmheap_create fv fi k) n = h at *
  obtain ⟨l, hl, hs, hc, ho, _⟩ := ksmallest_while_spec h.length h 0 xk ik hheap le_rfl
  have hll : l.length = min n k := by
    have := congrArg Multiset.card hl
    rw [Multiset.coe_card, card_pairs] at this
    omega
  refine ⟨l, R, hll, by rw [hl]; exact hsplit, hs, ?_, by rw [hc]; omega, ?_⟩
  · intro p hp q hq
    exact hord p (by rw [← hl]; exact Multiset.mem_coe.2 hp) q hq
  · intro j p hj
    have := ho j p hj
    rwa [Nat.zero_add] at this

/-- The outputs of `klargest` list, in descending order of value, `min n k` of the input
pairs, and no other input pair has a larger value than a listed one. -/
theorem klargest_spec {V : Type} [LinearOrder V] (fv : Nat → V) (fi : Nat → Int)
    (x : Nat → V) (n k : Nat) (xk : Nat → Option V) (ik : Nat → Int) (hk : 1 ≤ k) :
    ∃ (l : List (V × Int)) (R : Multiset (V × Int)),
      l.length = min n k ∧ input_pairs x n = ↑l + R ∧
      (l.map Prod.fst).Sorted (· ≥ ·) ∧
      (∀ p, p ∈ l → ∀ q, q ∈ R → q.1 ≤ p.1) ∧
      (klargest fv fi x n k xk ik).1 = min n k ∧
      ∀ j p, l[j]? = some p →
        (klargest fv fi x n k xk ik).2.1 j = some p.1 ∧
        (klargest fv fi x n k xk ik).2.2 j = p.2 := by
  obtain ⟨hheap, _, hlen, R, hsplit, hord⟩ := klargest_for_inv fv fi x k hk n
  unfold klargest mmheap_getlength
  simp only
  generalize klargest_for x k (mmheap_create fv fi k) n = h at *
  obtain ⟨l, hl, hs, hc, ho, _⟩ := klargest_while_spec h.length h 0 xk ik hheap le_rfl
  have hll : l.length = min n k := by
    have := congrArg Multiset.card hl
    rw [Multiset.coe_card, card_pairs] at this
    omega
  refine ⟨l, R, hll, by rw [hl]; exact hsplit, hs, ?_, by rw [hc]; omega, ?_⟩
  · intro p hp q hq
    exact hord p (by rw [← hl]; exact Multiset.mem_coe.2 hp) q hq
  · intro j p hj
    have := ho j p hj
    rwa [Nat.zero_add] at this

end cmmheap

namespace cmmheap

/-! ## From the kept pairs to the sorted input and the original positions -/

theorem values_split {V : Type} (x : Nat → V) (n : Nat) (l : List (V × Int))
    (R : Multiset (V × Int)) (hsplit : input_pairs x n = ↑l + R) :
    (↑((List.range n).map x) : Multiset V) = ↑(l.map Prod.fst) + R.map Prod.fst := by
  rw [← input_pairs_fst, hsplit, Multiset.map_add, Multiset.map_coe]

theorem output_get {V : Type} (l : List (V × Int)) (xk : Nat → Option V) (ik : Nat → Int)
    (ho : ∀ j p, l[j]? = some p → xk j = some p.1 ∧ ik j = p.2) (j : Nat) (hj : j < l.length) :
    xk j = (l.map Prod.fst)[j]? ∧ ik j = l[j].2 := by
  have h1 : l[j]? = some l[j] := List.getElem?_eq_getElem hj
  obtain ⟨h2, h3⟩ := ho j _ h1
  refine ⟨?_, h3⟩
  rw [h2, List.getElem?_map, h1]
  rfl

theorem sorted_input_length {V : Type} [LinearOrder V] (x : Nat → V) (n : Nat) :
    (sorted_input x n).length = n := by
  unfold sorted_input
  rw [List.length_insertionSort, List.length_map, List.length_range]

theorem sorted_input_coe {V : Type} [LinearOrder V] (x : Nat → V) (n : Nat) :
    (↑(sorted_input x n) : Multiset V) = ↑((List.range n).map x) := by
  unfold sorted_input
  exact Multiset.coe_eq_coe.2 (List.perm_insertionSort _ _)

/-- Outputs that list a sorted part of the input below the rest agree with the sorted input
from its start. -/
theorem outputs_sorted_prefix {V : Type} [LinearOrder V] (x : Nat → V) (n : Nat)
    (l : List (V × Int)) (R : Multiset (V × Int)) (hsplit : input_pairs x n = ↑l + R)
    (hs : (l.map Prod.fst).Sorted (· ≤ ·)) (hle : ∀ p, p ∈ l → ∀ q, q ∈ R → p.1 ≤ q.1)
    (xk : Nat → Option V) (ik : Nat → Int)
    (ho : ∀ j p, l[j]? = some p → xk j = some p.1 ∧ ik j = p.2) :
    ∀ j, j < l.length → xk j = (sorted_input x n)[j]? := by
  have hv := values_split x n l R hsplit
  rw [← sorted_input_coe] at hv
  obtain ⟨t, ht⟩ := sorted_split (· ≤ ·) (sorted_input x n) (l.map Prod.fst) (R.map Prod.fst)
    hv (List.sorted_insertionSort _ _) hs (by
      intro a ha b hb
      obtain ⟨p, hp, rfl⟩ := List.mem_map.1 ha
      obtain ⟨q, hq, rfl⟩ := Multiset.mem_map.1 hb
      exact hle p hp q hq)
  intro j hj
  rw [(output_get l xk ik ho j hj).1]
  exact (getElem?_append_left_of_lt _ _ t ht j (by rw [List.length_map]; exact hj)).symm

/-- Outputs that list, in descending order, a part of the input above the rest agree with the
sorted input read from its end. -/
theorem outputs_sorted_suffix {V : Type} [LinearOrder V] (x : Nat → V) (n : Nat)
    (l : List (V × Int)) (R : Multiset (V × Int)) (hsplit : input_pairs x n = ↑l + R)
    (hs : (l.map Prod.fst).Sorted (· ≥ ·)) (hle : ∀ p, p ∈ l → ∀ q, q ∈ R → q.1 ≤ p.1)
    (xk : Nat → Option V) (ik : Nat → Int)
    (ho : ∀ j p, l[j]? = some p → xk j = some p.1 ∧ ik j = p.2) :
    ∀ j, j < l.length → xk j = (sorted_input x n)[n - 1 - j]? := by
  have hv := values_split x n l R hsplit
  rw [← sorted_input_coe, ← Multiset.coe_reverse] at hv
  have hrs : (sorted_input x n).reverse.Sorted (· ≥ ·) := by
    unfold List.Sorted
    rw [List.pairwise_reverse]
    have h := List.sorted_insertionSort (· ≤ ·) ((List.range n).map x)
    exact h
  obtain ⟨t, ht⟩ := sorted_split (· ≥ ·) (sorted_input x n).reverse (l.map Prod.fst)
    (R.map Prod.fst) hv hrs hs (by
      intro a ha b hb
      obtain ⟨p, hp, rfl⟩ := List.mem_map.1 ha
      obtain ⟨q, hq, rfl⟩ := Multiset.mem_map.1 hb
      exact hle p hp q hq)
  have hlen : l.length ≤ n := by
    have := congrArg Multiset.card hsplit
    rw [card_input_pairs, Multiset.card_add, Multiset.coe_card] at this
    omega
  intro j hj
  rw [(output_get l xk ik ho j hj).1]
  rw [← getElem?_append_left_of_lt _ _ t ht j (by rw [List.length_map]; exact hj)]
  rw [List.getElem?_reverse (by rw [sorted_input_length]; omega), sorted_input_length]

/-- Outputs that list part of the input pairs report valid, matching and pairwise distinct
positions. -/
theorem outputs_positions {V : Type} (x : Nat → V) (n : Nat)
    (l : List (V × Int)) (R : Multiset (V × Int)) (hsplit : input_pairs x n = ↑l + R)
    (xk : Nat → Option V) (ik : Nat → Int)
    (ho : ∀ j p, l[j]? = some p → xk j = some p.1 ∧ ik j = p.2) :
    (∀ j, j < l.length → 0 ≤ ik j ∧ ik j < n ∧ xk j = some (x (ik j).toNat)) ∧
    (∀ j1 j2, j1 < l.length → j2 < l.length → ik j1 = ik j2 → j1 = j2) := by
  constructor
  · intro j hj
    have h1 : l[j]? = some l[j] := List.getElem?_eq_getElem hj
    obtain ⟨h2, h3⟩ := ho j _ h1
    have hmem : l[j] ∈ input_pairs x n := by
      rw [hsplit]
      exact Multiset.mem_add.2 (Or.inl (Multiset.mem_coe.2 (List.getElem_mem hj)))
    obtain ⟨t, ht, hp⟩ := (mem_input_pairs x n _).1 hmem
    rw [h2, h3, hp]
    simp only [Int.toNat_ofNat]
    exact ⟨by omega, by omega, trivial⟩
  · have hnd : (l.map Prod.snd).Nodup := by
      have h1 : (↑(l.map Prod.snd) : Multiset Int) ≤ (input_pairs x n).map Prod.snd := by
        rw [← Multiset.map_coe, hsplit]
        exact Multiset.map_le_map (Multiset.le_add_right _ _)
      exact Multiset.coe_nodup.1 (Multiset.nodup_of_le h1 (input_pairs_snd_nodup x n))
    intro j1 j2 hj1 hj2 heq
    rw [(output_get l xk ik ho j1 hj1).2, (output_get l xk ik ho j2 hj2).2] at heq
    have hj1' : j1 < (l.map Prod.snd).length := by rw [List.length_map]; exact hj1
    have hj2' : j2 < (l.map Prod.snd).length := by rw [List.length_map]; exact hj2
    have : (l.map Prod.snd)[j1] = (l.map Prod.snd)[j2] := by
      rw [List.getElem_map, List.getElem_map]; exact heq
    exact (hnd.getElem_inj_iff).1 this

end cmmheap

namespace cmmheap

/-- What `PeekMin` and `PeekMax` do on a non-empty heap with non-null outputs: they return
`true` and store the value, and the tag cell is left as it was, because the right operand of
`||` is not evaluated once `PeekMinValue` / `PeekMaxValue` has returned `true`. -/
theorem combined_peek_nonempty {V I : Type} [LinearOrder V] (H : MinMaxHeap V I)
    (hne : 0 < H.length) (v0 : V) (i0 : I) :
    MinMaxHeap.PeekMin H (OutPtr.cell v0) (OutPtr.cell i0) =
      (true, OutPtr.cell (H.value 0), OutPtr.cell i0) ∧
    MinMaxHeap.PeekMax H (OutPtr.cell v0) (OutPtr.cell i0) =
      (true, (MinMaxHeap.PeekMaxValue H (OutPtr.cell v0)).2, OutPtr.cell i0) := by
  have hz : H.length ≠ 0 := by omega
  have e1 : MinMaxHeap.PeekMinValue H (OutPtr.cell v0) = (true, OutPtr.cell (H.value 0)) := by
    simp [MinMaxHeap.PeekMinValue, OutPtr.isNull, hz]
  have e2 : (MinMaxHeap.PeekMaxValue H (OutPtr.cell v0)).1 = true := by
    unfold MinMaxHeap.PeekMaxValue
    simp only [OutPtr.isNull, hz, false_or, Bool.false_eq_true, if_false]
    split_ifs <;> rfl
  constructor
  · unfold MinMaxHeap.PeekMin
    simp only [e1, if_true]
  · unfold MinMaxHeap.PeekMax
    simp only [e2, if_true]

/-- C14 (the code at the failing input): on the object holding the single pair `(1, 7)`, with
both output cells holding 0 beforehand, `PeekMin` and `PeekMax` return `true` and store the
value 1, but the tag cell still holds 0 afterwards instead of the tag 7, whereas
`PeekMinIndex` and `PeekMaxIndex` called on their own store 7. -/
theorem combined_peek_skips_tag :
    MinMaxHeap.PeekMin example_object (OutPtr.cell 0) (OutPtr.cell 0) =
      (true, OutPtr.cell 1, OutPtr.cell 0) ∧
    MinMaxHeap.PeekMax example_object (OutPtr.cell 0) (OutPtr.cell 0) =
      (true, OutPtr.cell 1, OutPtr.cell 0) ∧
    MinMaxHeap.PeekMinIndex example_object (OutPtr.cell 0) = (true, OutPtr.cell 7) ∧
    MinMaxHeap.PeekMaxIndex example_object (OutPtr.cell 0) = (true, OutPtr.cell 7) := by
  refine ⟨rfl, rfl, rfl, rfl⟩

/-- C15: the concrete heap scenario. Starting from a heap of capacity 3, the inserts of
`(5, a)`, `(1, b)`, `(8, c)` succeed; then peek-min is `(1, b)` and peek-max is `(8, c)`; a
further insert of `(3, d)` fails and leaves the heap unchanged; remove-max succeeds, the insert
of `(3, d)` after it succeeds, and peek-max is then `(5, a)`. -/
theorem heap_scenario (fv : Nat → Int) (fi : Nat → Int) (a b c d : Int) :
    (mmheap_insert (mmheap_create fv fi 3) 5 a).1 = 1 ∧
    (mmheap_insert (mmheap_insert (mmheap_create fv fi 3) 5 a).2 1 b).1 = 1 ∧
    (mmheap_insert (mmheap_insert (mmheap_insert (mmheap_create fv fi 3) 5 a).2 1 b).2 8 c).1
      = 1 ∧
    mmheap_peekmin_value
      (mmheap_insert (mmheap_insert (mmheap_insert (mmheap_create fv fi 3) 5 a).2 1 b).2 8 c).2
      = some 1 ∧
    mmheap_peekmin_index
      (mmheap_insert (mmheap_insert (mmheap_insert (mmheap_create fv fi 3) 5 a).2 1 b).2 8 c).2
      = b ∧
    mmheap_peekmax_value
      (mmheap_insert (mmheap_insert (mmheap_insert (mmheap_create fv fi 3) 5 a).2 1 b).2 8 c).2
      = some 8 ∧
    mmheap_peekmax_index
      (mmheap_insert (mmheap_insert (mmheap_insert (mmheap_create fv fi 3) 5 a).2 1 b).2 8 c).2
      = c ∧
    mmheap_insert
      (mmheap_insert (mmheap_insert (mmheap_insert (mmheap_create fv fi 3) 5 a).2 1 b).2 8 c).2
      3 d =
      (0, (mmheap_insert (mmheap_insert (mmheap_insert (mmheap_create fv fi 3) 5 a).2 1 b).2
        8 c).2) ∧
    (mmheap_removemax
      (mmheap_insert (mmheap_insert (mmheap_insert (mmheap_create fv fi 3) 5 a).2 1 b).2
        8 c).2).1 = 1 ∧
    (mmheap_insert (mmheap_removemax
      (mmheap_insert (mmheap_insert (mmheap_insert (mmheap_create fv fi 3) 5 a).2 1 b).2
        8 c).2).2 3 d).1 = 1 ∧
    mmheap_peekmax_value (mmheap_insert (mmheap_removemax
      (mmheap_insert (mmheap_insert (mmheap_insert (mmheap_create fv fi 3) 5 a).2 1 b).2
        8 c).2).2 3 d).2 = some 5 ∧
    mmheap_peekmax_index (mmheap_insert (mmheap_removemax
      (mmheap_insert (mmheap_insert (mmheap_insert (mmheap_create fv fi 3) 5 a).2 1 b).2
        8 c).2).2 3 d).2 = a := by
  simp [mmheap_create, mmheap_insert, mmheap_removemax, mmheap_removemax_iins, __bubble_up,
    __trickle_down, isminlevel, msbpos, msbpos_loop, __bubble_up_min, __bubble_up_max,
    __bubble_up_min_fuel, __bubble_up_max_fuel, __trickle_down_min, __trickle_down_max,
    __trickle_down_min_fuel, __trickle_down_max_fuel, __ab_swap, mmheap_peekmin_value,
    mmheap_peekmin_index, mmheap_peekmax_value, mmheap_peekmax_index, Function.update]

/-- C16: the concrete selection scenario. `ksmallest` on `x = [9, 3, 7, 1, 8, 2, 5]` with
`n = 7` and `k = 3` returns 3 and writes `xk = [1, 2, 3]` and `ik = [3, 5, 1]`. -/
theorem selection_scenario :
    (ksmallest (fun _ => 0) (fun _ => 0) example_input 7 3 (fun _ => none) (fun _ => 0)).1 = 3 ∧
    (List.range 3).map
      (ksmallest (fun _ => 0) (fun _ => 0) example_input 7 3 (fun _ => none) (fun _ => 0)).2.1
      = [some 1, some 2, some 3] ∧
    (List.range 3).map
      (ksmallest (fun _ => 0) (fun _ => 0) example_input 7 3 (fun _ => none) (fun _ => 0)).2.2
      = [3, 5, 1] := by
  decide

/-- C18 (the code at the failing input): `mmheap_create` stores the requested capacity as it
is, so `mmheap_create(0)` returns an empty heap of capacity 0, on which every insert fails;
the C++ constructor replaces a non-positive request by 1 and so always yields capacity at
least 1. For a request `m >= 1` both yield an empty heap of capacity `m`. -/
theorem constructor_capacity {V I : Type} [LinearOrder V] (fv : Nat → V) (fi : Nat → Int)
    (gi : Nat → I) :
    (mmheap_create fv fi 0).maxlength = 0 ∧
    (mmheap_create fv fi 0).length = 0 ∧
    (∀ (v : V) (t : Int), mmheap_insert (mmheap_create fv fi 0) v t =
      (0, mmheap_create fv fi 0)) ∧
    (∀ m : Nat, (mmheap_create fv fi m).maxlength = m ∧ (mmheap_create fv fi m).length = 0) ∧
    (∀ m : Int, (MinMaxHeap.construct fv gi m).length = 0 ∧
      1 ≤ (MinMaxHeap.construct fv gi m).maxlength ∧
      (m ≤ 0 → (MinMaxHeap.construct fv gi m).maxlength = 1) ∧
      (1 ≤ m → ((MinMaxHeap.construct fv gi m).maxlength : Int) = m)) := by
  refine ⟨rfl, rfl, ?_, fun m => ⟨rfl, rfl⟩, ?_⟩
  · intro v t
    simp [mmheap_insert, mmheap_create]
  · intro m
    unfold MinMaxHeap.construct
    by_cases hm : m ≤ 0
    · simp only [if_pos hm]
      refine ⟨trivial, ?_, fun _ => rfl, fun h => by omega⟩
      show 1 ≤ (1 : Int).toNat
      decide
    · simp only [if_neg hm]
      refine ⟨trivial, by omega, fun h => absurd h hm, fun _ => by omega⟩

end cmmheap

namespace cmmheap

end cmmheap

namespace cmmheap

/-- The bit length of a positive number is one more than its binary logarithm. -/
theorem size_eq_log2 (n : Nat) (h : 1 ≤ n) : Nat.size n = Nat.log2 n + 1 := by
  rw [Nat.log2_eq_log_two]
  apply le_antisymm
  · rw [Nat.size_le]
    exact Nat.lt_pow_succ_log_self (by decide) n
  · rw [Nat.succ_le_iff, Nat.lt_size]
    exact Nat.pow_log_le_self 2 (by omega)

/-- The C++ copies of the level functions are the C ones. -/
theorem aux_msbpos_loop_eq (f i r : Nat) :
    MinMaxHeapAux.__msbpos_loop f i r = msbpos_loop f i r := by
  induction f generalizing i r with
  | zero => rfl
  | succ f ih => simp only [MinMaxHeapAux.__msbpos_loop, msbpos_loop, ih]

theorem aux_msbpos_eq (i : Int) : MinMaxHeapAux.__msbpos i = msbpos i := by
  unfold MinMaxHeapAux.__msbpos msbpos
  rw [aux_msbpos_loop_eq]

theorem aux_isminlevel_eq (i : Int) : MinMaxHeapAux.__isminlevel i = isminlevel i := by
  unfold MinMaxHeapAux.__isminlevel isminlevel
  rw [aux_msbpos_eq]

theorem isminlevel_eq_ite (i : Int) : isminlevel i = if msbpos i % 2 = 1 then 1 else 0 := by
  unfold isminlevel
  rw [Nat.and_one_is_mod]
  split_ifs <;> first | rfl | omega

theorem int_shiftRight_toNat (i : Int) (k : Nat) (h : 0 ≤ i) :
    i >>> k = ((i.toNat / 2 ^ k : Nat) : Int) := by
  obtain ⟨n, rfl⟩ := Int.eq_ofNat_of_zero_le h
  rw [Int.shiftRight_eq_div_pow]
  simp

end cmmheap

namespace cmmheap

/-- C24: level classification. For every `int` `i`: `msbpos(i)` is 0 when `i <= 0` and the
bit length of `i`, that is `floor(log2(i)) + 1`, when `i >= 1`; `isminlevel(i)` is 0 or 1 and
is 1 exactly when `msbpos(i)` is odd; for `i >= 2` the parent `i >> 1` has the opposite
classification and for `i >= 4` the grandparent `i >> 2` has the same classification as `i`.
The functions `__msbpos` and `__isminlevel` of `mmheap.h` return the same values. -/
theorem level_classification (i : Int) :
    (i ≤ 0 → msbpos i = 0) ∧
    (1 ≤ i → msbpos i = Nat.size i.toNat ∧ msbpos i = Nat.log2 i.toNat + 1) ∧
    (isminlevel i = 0 ∨ isminlevel i = 1) ∧
    (isminlevel i = 1 ↔ msbpos i % 2 = 1) ∧
    (2 ≤ i → (isminlevel (i >>> (1 : Nat)) = 1 ↔ isminlevel i = 0)) ∧
    (4 ≤ i → isminlevel (i >>> (2 : Nat)) = isminlevel i) ∧
    MinMaxHeapAux.__msbpos i = msbpos i ∧
    MinMaxHeapAux.__isminlevel i = isminlevel i := by
  refine ⟨?_, ?_, ?_, ?_, ?_, ?_, aux_msbpos_eq i, aux_isminlevel_eq i⟩
  · intro h
    unfold msbpos
    rw [if_pos h]
  · intro h
    obtain ⟨n, rfl⟩ := Int.eq_ofNat_of_zero_le (by omega : 0 ≤ i)
    rw [msbpos_nat, Int.toNat_ofNat]
    exact ⟨rfl, size_eq_log2 n (by omega)⟩
  · rw [isminlevel_eq_ite]
    split_ifs
    · exact Or.inr rfl
    · exact Or.inl rfl
  · rw [isminlevel_eq_ite]
    split_ifs with h
    · simp [h]
    · simp [h]
  · intro h
    obtain ⟨n, rfl⟩ := Int.eq_ofNat_of_zero_le (by omega : 0 ≤ i)
    have hn : 2 ≤ n := by omega
    rw [int_shiftRight_toNat (n : Int) 1 (by omega), Int.toNat_ofNat, pow_one,
      isminlevel_eq_ite, isminlevel_eq_ite, msbpos_nat, msbpos_nat]
    have := size_half n (by omega)
    split_ifs <;> simp <;> omega
  · intro h
    obtain ⟨n, rfl⟩ := Int.eq_ofNat_of_zero_le (by omega : 0 ≤ i)
    have hn : 4 ≤ n := by omega
    rw [int_shiftRight_toNat (n : Int) 2 (by omega), Int.toNat_ofNat, isminlevel_eq_ite,
      isminlevel_eq_ite, msbpos_nat, msbpos_nat]
    have h1 := size_half n (by omega)
    have h2 := size_half (n / 2) (by omega)
    have e : n / 2 ^ 2 = n / 2 / 2 := by
      rw [Nat.div_div_eq_div_mul]; rfl
    rw [e]
    split_ifs <;> first | rfl | omega

end cmmheap

namespace cmmheap

/-! ## The C++ routines are the C routines -/

end cmmheap

namespace cmmheap

/-! ## The tie rule of trickle-down -/

theorem earliest_min_of_splits {V : Type} [LinearOrder V] (A : Nat → V) (l : List Nat)
    (m : Nat) (h : SplitsMin A l m) : earliest_min A l = some m := by
  obtain ⟨pre, post, hl, hpre, hpost⟩ := h
  have hm : m ∈ l := by rw [hl]; simp
  unfold earliest_min
  have hall : (l.all fun d => decide (A (m - 1) ≤ A (d - 1))) = true := by
    rw [List.all_eq_true]
    intro d hd
    rw [hl, List.mem_append, List.mem_cons] at hd
    rcases hd with hd | rfl | hd
    · simpa using le_of_lt (hpre d hd)
    · simp
    · simpa using hpost d hd
  have hnone : ∀ x, x ∈ pre → (l.all fun d => decide (A (x - 1) ≤ A (d - 1))) = false := by
    intro x hx
    rw [Bool.eq_false_iff]
    intro hc
    rw [List.all_eq_true] at hc
    have := hc m hm
    simp only [decide_eq_true_eq] at this
    exact absurd (hpre x hx) (not_lt.2 this)
  generalize hp : (fun c => l.all fun d => decide (A (c - 1) ≤ A (d - 1))) = p at *
  have hall' : p m = true := by rw [← hp]; exact hall
  have hnone' : ∀ x, x ∈ pre → p x = false := by intro x hx; rw [← hp]; exact hnone x hx
  rw [hl, List.find?_append]
  have : List.find? p pre = none := by
    rw [List.find?_eq_none]
    intro x hx
    simp [hnone' x hx]
  rw [this, List.find?_cons_of_pos _ hall']
  rfl

theorem splitsMin_single {V : Type} [LinearOrder V] (A : Nat → V) (m : Nat) :
    SplitsMin A [m] m :=
  ⟨[], [], rfl, by simp, by simp⟩

theorem SplitsMin.extend {V : Type} [LinearOrder V] {A : Nat → V} {l : List Nat} {m : Nat}
    (h : SplitsMin A l m) (maxi c : Nat) :
    SplitsMin A (l ++ [c].filter (fun c => c ≤ maxi))
      (if c ≤ maxi then (if A (c - 1) < A (m - 1) then c else m) else m) := by
  obtain ⟨pre, post, hl, hpre, hpost⟩ := h
  by_cases hc : c ≤ maxi
  · rw [if_pos hc]
    have hf : [c].filter (fun c => c ≤ maxi) = [c] := by simp [hc]
    rw [hf]
    by_cases hlt : A (c - 1) < A (m - 1)
    · rw [if_pos hlt]
      refine ⟨l, [], rfl, ?_, by simp⟩
      intro x hx
      rw [hl, List.mem_append, List.mem_cons] at hx
      rcases hx with hx | rfl | hx
      · exact lt_trans hlt (hpre x hx)
      · exact hlt
      · exact lt_of_lt_of_le hlt (hpost x hx)
    · rw [if_neg hlt]
      refine ⟨pre, post ++ [c], by rw [hl]; simp, hpre, ?_⟩
      intro x hx
      rw [List.mem_append, List.mem_singleton] at hx
      rcases hx with hx | rfl
      · exact hpost x hx
      · exact not_lt.1 hlt
  · rw [if_neg hc]
    have hf : [c].filter (fun c => c ≤ maxi) = [] := by simp [hc]
    rw [hf, List.append_nil]
    exact ⟨pre, post, hl, hpre, hpost⟩

/-- The candidate of `__trickle_down_min` splits the candidates taken with the right child
first. -/
theorem trickle_down_min_m_splits {V : Type} [LinearOrder V] (A : Nat → V) (i maxi : Nat)
    (h1 : 1 ≤ i) (h2 : 2 * i ≤ maxi) :
    SplitsMin A (candidates_right_first i maxi) (__trickle_down_min_m A i maxi) := by
  unfold __trickle_down_min_m candidates_right_first
  simp only [Nat.shiftLeft_eq, pow_one]
  have e1 : i * 2 = 2 * i := by omega
  have e2 : 2 * i * 2 = 4 * i := by omega
  have e3 : (2 * i + 1) * 2 = 4 * i + 2 := by omega
  simp only [e1, e2, e3]
  by_cases hr : 2 * i + 1 ≤ maxi
  · rw [if_pos hr]
    have h0 := ((((((splitsMin_single A (2 * i + 1)).extend maxi (2 * i)).extend maxi
      (4 * i)).extend maxi (4 * i + 1)).extend maxi (4 * i + 2)).extend maxi (4 * i + 2 + 1))
    rw [if_pos h2] at h0
    have el : [2 * i + 1, 2 * i, 4 * i, 4 * i + 1, 4 * i + 2, 4 * i + 3].filter
        (fun c => c ≤ maxi) =
        [2 * i + 1] ++ [2 * i].filter (fun c => c ≤ maxi) ++
          [4 * i].filter (fun c => c ≤ maxi) ++ [4 * i + 1].filter (fun c => c ≤ maxi) ++
          [4 * i + 2].filter (fun c => c ≤ maxi) ++
          [4 * i + 2 + 1].filter (fun c => c ≤ maxi) := by
      have : [2 * i + 1] = [2 * i + 1].filter (fun c => c ≤ maxi) := by simp [hr]
      rw [this, ← List.filter_append, ← List.filter_append, ← List.filter_append,
        ← List.filter_append, ← List.filter_append]
      rfl
    rw [el]
    exact h0
  · rw [if_neg hr]
    have el : [2 * i + 1, 2 * i, 4 * i, 4 * i + 1, 4 * i + 2, 4 * i + 3].filter
        (fun c => c ≤ maxi) = [2 * i] := by
      simp only [List.filter_cons, List.filter_nil]
      rw [if_neg (by simpa using hr), if_pos (by simpa using h2),
        if_neg (by simp only [decide_eq_true_eq]; omega),
        if_neg (by simp only [decide_eq_true_eq]; omega),
        if_neg (by simp only [decide_eq_true_eq]; omega),
        if_neg (by simp only [decide_eq_true_eq]; omega)]
    rw [el]
    exact splitsMin_single A (2 * i)

/-- Exchanging the two children in the list of candidates does not change the split unless
the split is at the right child and the two children hold the same value. -/
theorem splits_candidates_of_right_first {V : Type} [LinearOrder V] (A : Nat → V)
    (i maxi m : Nat) (h1 : 1 ≤ i) (h2 : 2 * i ≤ maxi)
    (hs : SplitsMin A (candidates_right_first i maxi) m)
    (hne : m = 2 * i + 1 → A (2 * i - 1) ≠ A (2 * i + 1 - 1)) :
    SplitsMin A (candidates i maxi) m := by
  unfold candidates_right_first at hs
  unfold candidates
  by_cases hr : 2 * i + 1 ≤ maxi
  · have e1 : ∀ G : List Nat, ((2 * i + 1) :: 2 * i :: G).filter (fun c => c ≤ maxi) =
        (2 * i + 1) :: 2 * i :: (G.filter (fun c => c ≤ maxi)) := by
      intro G; simp [List.filter_cons, hr, h2]
    have e2 : ∀ G : List Nat, (2 * i :: (2 * i + 1) :: G).filter (fun c => c ≤ maxi) =
        2 * i :: (2 * i + 1) :: (G.filter (fun c => c ≤ maxi)) := by
      intro G; simp [List.filter_cons, hr, h2]
    rw [e1] at hs
    rw [e2]
    generalize [4 * i, 4 * i + 1, 4 * i + 2, 4 * i + 3].filter (fun c => c ≤ maxi) = G at *
    obtain ⟨pre, post, hl, hpre, hpost⟩ := hs
    match pre, hl, hpre with
    | [], hl, hpre =>
      simp only [List.nil_append, List.cons.injEq] at hl
      obtain ⟨hm, hpost'⟩ := hl
      subst hm
      subst hpost'
      have hle := hpost (2 * i) (by simp)
      have hlt : A (2 * i + 1 - 1) < A (2 * i - 1) :=
        lt_of_le_of_ne hle (fun h => hne rfl h.symm)
      refine ⟨[2 * i], G, rfl, ?_, ?_⟩
      · intro x hx
        rw [List.mem_singleton] at hx
        subst hx
        exact hlt
      · intro x hx
        exact hpost x (by simp [hx])
    | [x], hl, hpre =>
      simp only [List.singleton_append, List.cons.injEq] at hl
      obtain ⟨hx, hm, hpost'⟩ := hl
      subst hx
      subst hm
      subst hpost'
      have hlt := hpre (2 * i + 1) (by simp)
      refine ⟨[], (2 * i + 1) :: G, rfl, by simp, ?_⟩
      intro x hx
      rw [List.mem_cons] at hx
      rcases hx with rfl | hx
      · exact le_of_lt hlt
      · exact hpost x hx
    | x :: y :: pre2, hl, hpre =>
      simp only [List.cons_append, List.cons.injEq] at hl
      obtain ⟨hx, hy, hG⟩ := hl
      subst hx
      subst hy
      refine ⟨2 * i :: (2 * i + 1) :: pre2, post, by rw [hG]; simp, ?_, hpost⟩
      intro x hx
      apply hpre
      simp only [List.mem_cons] at hx ⊢
      tauto
  · have e1 : [2 * i + 1, 2 * i, 4 * i, 4 * i + 1, 4 * i + 2, 4 * i + 3].filter
        (fun c => c ≤ maxi) = [2 * i] := by
      simp only [List.filter_cons, List.filter_nil]
      rw [if_neg (by simpa using hr), if_pos (by simpa using h2),
        if_neg (by simp only [decide_eq_true_eq]; omega),
        if_neg (by simp only [decide_eq_true_eq]; omega),
        if_neg (by simp only [decide_eq_true_eq]; omega),
        if_neg (by simp only [decide_eq_true_eq]; omega)]
    have e2 : [2 * i, 2 * i + 1, 4 * i, 4 * i + 1, 4 * i + 2, 4 * i + 3].filter
        (fun c => c ≤ maxi) = [2 * i] := by
      simp only [List.filter_cons, List.filter_nil]
      rw [if_pos (by simpa using h2), if_neg (by simpa using hr),
        if_neg (by simp only [decide_eq_true_eq]; omega),
        if_neg (by simp only [decide_eq_true_eq]; omega),
        if_neg (by simp only [decide_eq_true_eq]; omega),
        if_neg (by simp only [decide_eq_true_eq]; omega)]
    rw [e1] at hs
    rw [e2]
    exact hs

theorem earliest_max_dual {V : Type} [LinearOrder V] (A : Nat → V) (l : List Nat) :
    earliest_max A l = earliest_min (V := Vᵒᵈ) A l := rfl

/-- The tie rule of `__trickle_down_min`, in both orders. -/
theorem trickle_down_min_m_earliest {V : Type} [LinearOrder V] (A : Nat → V) (i maxi : Nat)
    (h1 : 1 ≤ i) (h2 : 2 * i ≤ maxi) :
    earliest_min A (candidates_right_first i maxi) = some (__trickle_down_min_m A i maxi) ∧
    ((__trickle_down_min_m A i maxi = 2 * i + 1 → A (2 * i - 1) ≠ A (2 * i + 1 - 1)) →
      earliest_min A (candidates i maxi) = some (__trickle_down_min_m A i maxi)) := by
  have hs := trickle_down_min_m_splits A i maxi h1 h2
  refine ⟨earliest_min_of_splits A _ _ hs, ?_⟩
  intro hne
  exact earliest_min_of_splits A _ _ (splits_candidates_of_right_first A i maxi _ h1 h2 hs hne)

end cmmheap

namespace cmmheap

/-! ## The parent correction -/

theorem parent_correction_max_dual {V : Type} [LinearOrder V] (A : Nat → V) (B : Nat → Int)
    (i m : Nat) : parent_correction_max A B i m = parent_correction_min (V := Vᵒᵈ) A B i m :=
  rfl

/-- What `__trickle_down_min` does when its candidate is a grandchild that improves on
`i`. -/
theorem trickle_down_min_grandchild {V : Type} [LinearOrder V] (A : Nat → V) (B : Nat → Int)
    (i maxi : Nat) (h1 : 1 ≤ i) (h2 : 2 * i ≤ maxi)
    (hgc : __trickle_down_min_m A i maxi > 2 * i + 1)
    (hlt : A (__trickle_down_min_m A i maxi - 1) < A (i - 1)) :
    __trickle_down_min A B i maxi =
      __trickle_down_min (parent_correction_min A B i (__trickle_down_min_m A i maxi)).1
        (parent_correction_min A B i (__trickle_down_min_m A i maxi)).2
        (__trickle_down_min_m A i maxi) maxi ∧
    (__ab_swap A B (i - 1) (__trickle_down_min_m A i maxi - 1)).1
      (__trickle_down_min_m A i maxi - 1) = A (i - 1) ∧
    (__ab_swap A B (i - 1) (__trickle_down_min_m A i maxi - 1)).1
      (__trickle_down_min_m A i maxi / 2 - 1) = A (__trickle_down_min_m A i maxi / 2 - 1) ∧
    (A (i - 1) > A (__trickle_down_min_m A i maxi / 2 - 1) →
      parent_correction_min A B i (__trickle_down_min_m A i maxi) =
        __ab_swap (__ab_swap A B (i - 1) (__trickle_down_min_m A i maxi - 1)).1
          (__ab_swap A B (i - 1) (__trickle_down_min_m A i maxi - 1)).2
          (__trickle_down_min_m A i maxi - 1) (__trickle_down_min_m A i maxi / 2 - 1)) ∧
    (¬ A (i - 1) > A (__trickle_down_min_m A i maxi / 2 - 1) →
      parent_correction_min A B i (__trickle_down_min_m A i maxi) =
        __ab_swap A B (i - 1) (__trickle_down_min_m A i maxi - 1)) := by
  have hu := trickle_down_min_unfold A B i maxi h1
  simp only [Nat.shiftLeft_eq, pow_one] at hu
  rw [if_neg (by omega), if_pos (by omega), if_pos hlt] at hu
  generalize __trickle_down_min_m A i maxi = m at *
  obtain ⟨h1i, h1m, h1o⟩ := swap_facts A B i m h1 (by omega) (by omega)
  have hp := h1o (m / 2) (by omega) (by omega) (by omega)
  have hpc : parent_correction_min A B i m =
      if A (i - 1) > A (m / 2 - 1) then
        __ab_swap (__ab_swap A B (i - 1) (m - 1)).1 (__ab_swap A B (i - 1) (m - 1)).2
          (m - 1) (m / 2 - 1)
      else __ab_swap A B (i - 1) (m - 1) := by
    unfold parent_correction_min
    simp only [Nat.shiftRight_eq_div_pow, pow_one, h1m, hp]
  refine ⟨?_, h1m, hp, ?_, ?_⟩
  · rw [hu]
    unfold parent_correction_min
    rfl
  · intro hc
    rw [hpc, if_pos hc]
  · intro hc
    rw [hpc, if_neg hc]

end cmmheap

namespace cmmheap

/-! ## Trickle-down repairs a subtree -/


/-- Below a min-level position `i`, when the positions of `R` other than `i` dominate their
descendants and `R` contains the descendants of `i`, the chosen candidate holds a smallest
value among all proper descendants of `i`. -/
theorem desc_min_of_candidate_rel {V : Type} [LinearOrder V] {P : Nat → Prop}
    (R : Nat → Prop) (hP : Alternates P) {A : Nat → V} {n i m : Nat} (h1 : 1 ≤ i) (hPi : P i)
    (hR : ∀ g, Anc i g → R g)
    (hE : HeapExc P (fun a _ => a = i ∨ ¬ R a) A n)
    (hm : IsMinAmong A n [4 * i + 3, 4 * i + 2, 4 * i + 1, 4 * i, 2 * i + 1, 2 * i] m) :
    ∀ d, Anc i d → d ≤ n → A (m - 1) ≤ A (d - 1) := by
  obtain ⟨_, _, h3⟩ := hm
  have hgc : ∀ g d, g ∈ [4 * i + 3, 4 * i + 2, 4 * i + 1, 4 * i, 2 * i + 1, 2 * i] →
      g / 4 = i → Anc g d → d ≤ n → A (m - 1) ≤ A (d - 1) := by
    intro g d hg hg4 hgd hd
    have hlt := hgd.lt
    have hPg : P g := (hP.quarter g (by omega)).1 (by rw [hg4]; exact hPi)
    have hig : Anc i g := by
      have := @Anc.grand g (by omega); rwa [hg4] at this
    have := hE g d hgd hd (fun h => h.elim (by omega) (fun hn => hn (hR g hig)))
    exact le_trans (h3 g hg (by omega)) ((domP_of_min hPg).1 this)
  intro d had hd
  rcases had.down with h | h | h | h
  · subst h; exact h3 _ (by simp) hd
  · subst h; exact h3 _ (by simp) hd
  · rcases h.down with h' | h' | h' | h'
    · subst h'; exact h3 _ (by simp; omega) hd
    · subst h'; exact h3 _ (by simp; omega) hd
    · exact hgc (2 * (2 * i)) d (by simp; omega) (by omega) h' hd
    · exact hgc (2 * (2 * i) + 1) d (by simp; omega) (by omega) h' hd
  · rcases h.down with h' | h' | h' | h'
    · subst h'; exact h3 _ (by simp; omega) hd
    · subst h'; exact h3 _ (by simp; omega) hd
    · exact hgc (2 * (2 * i + 1)) d (by simp; omega) (by omega) h' hd
    · exact hgc (2 * (2 * i + 1) + 1) d (by simp; omega) (by omega) h' hd


/-- Trickle-down on the min side, relative to a set `R` of positions that contains the
descendants of `i`: if every position of `R` other than `i` dominates its descendants within
the first `n` slots, then after `__trickle_down_min` every position of `R` does. -/
theorem trickle_down_min_fuel_heapR {V : Type} [LinearOrder V] (P : Nat → Prop)
    (R : Nat → Prop) (hP : Alternates P) (n : Nat) :
    ∀ (f i : Nat) (A : Nat → V) (B : Nat → Int), 1 ≤ i → n ≤ f + i → P i →
      (∀ g, Anc i g → R g) →
      HeapExc P (fun a _ => a = i ∨ ¬ R a) A n →
      HeapExc P (fun a _ => ¬ R a) (__trickle_down_min_fuel f A B i n).1 n := by
  intro f
  induction f with
  | zero =>
    intro i A B h1 hf hPi hR hE
    simp only [__trickle_down_min_fuel]
    intro a d had hd he
    apply hE a d had hd
    rintro (he' | he')
    · have := had.lt
      omega
    · exact he he'
  | succ f ih =>
    intro i A B h1 hf hPi hR hE
    simp only [__trickle_down_min_fuel, Nat.shiftLeft_eq, Nat.shiftRight_eq_div_pow, pow_one]
    have e1 : i * 2 = 2 * i := by omega
    simp only [e1]
    by_cases hl : 2 * i > n
    · rw [if_pos hl]
      intro a d had hd he
      apply hE a d had hd
      rintro (he' | he')
      · have := had.two_mul_le
        omega
      · exact he he'
    · rw [if_neg hl]
      have hspec := trickle_down_min_m_spec A i n h1 (by omega)
      have hmin := desc_min_of_candidate_rel R hP h1 hPi hR hE hspec
      generalize __trickle_down_min_m A i n = m at hspec hmin ⊢
      obtain ⟨hmn, hmS, _⟩ := hspec
      simp only [List.mem_cons, List.mem_singleton, List.not_mem_nil, or_false] at hmS
      have hstay : ¬ A (m - 1) < A (i - 1) → HeapExc P (fun a _ => ¬ R a) A n := by
        intro hlt a d had hd he
        by_cases hai : a = i
        · subst hai
          rw [domP_of_min hPi]
          exact le_trans (not_lt.1 hlt) (hmin d had hd)
        · apply hE a d had hd
          rintro (he' | he')
          · exact hai he'
          · exact he he'
      by_cases hgc : m > 2 * i + 1
      · rw [if_pos hgc]
        by_cases hlt : A (m - 1) < A (i - 1)
        · rw [if_pos hlt]
          have hm4 : m / 4 = i := by omega
          have hm22 : m / 2 / 2 = i := by omega
          have hm2 : 2 ≤ m / 2 := by omega
          have hPm : P m := (hP.quarter m (by omega)).1 (by rw [hm4]; exact hPi)
          have hPp : ¬ P (m / 2) := by
            have := hP m (by omega); tauto
          have hip : Anc i (m / 2) := by
            have := @Anc.parent (m / 2) hm2; rwa [hm22] at this
          have him : Anc i m := by
            have := @Anc.grand m (by omega); rwa [hm4] at this
          obtain ⟨h1i, h1m, h1o⟩ := swap_facts A B i m h1 (by omega) (by omega)
          refine ih m _ _ (by omega) (by omega) hPm (fun g hg => hR g (him.trans hg)) ?_
          by_cases hsw : (__ab_swap A B (i - 1) (m - 1)).1 (m - 1) >
              (__ab_swap A B (i - 1) (m - 1)).1 (m / 2 - 1)
          · rw [if_pos hsw]
            rw [h1m, h1o (m / 2) (by omega) (by omega) (by omega)] at hsw
            obtain ⟨h2m, h2p, h2o⟩ := swap_facts (__ab_swap A B (i - 1) (m - 1)).1
              (__ab_swap A B (i - 1) (m - 1)).2 m (m / 2) (by omega) (by omega) (by omega)
            rw [h1o (m / 2) (by omega) (by omega) (by omega)] at h2m
            rw [h1m] at h2p
            have h2i := h2o i h1 (by omega) (by omega)
            rw [h1i] at h2i
            have h2o' : ∀ q, 1 ≤ q → q ≠ i → q ≠ m → q ≠ m / 2 →
                (__ab_swap (__ab_swap A B (i - 1) (m - 1)).1 (__ab_swap A B (i - 1) (m - 1)).2
                  (m - 1) (m / 2 - 1)).1 (q - 1) = A (q - 1) := by
              intro q hq hqi hqm hqp
              rw [h2o q hq hqm hqp, h1o q hq hqi hqm]
            intro a d had hd hex
            have hex' : a ≠ m := fun h => hex (Or.inl h)
            have hRa : R a := by
              by_contra h; exact hex (Or.inr h)
            have ha1 := had.pos
            have hlt' := had.lt
            by_cases hai : a = i
            · subst hai
              rw [domP_of_min hPi, h2i]
              by_cases hdm : d = m
              · subst hdm; rw [h2m]; exact hmin _ hip (by omega)
              · by_cases hdp : d = m / 2
                · subst hdp; rw [h2p]; exact le_of_lt hlt
                · rw [h2o' d (by omega) (by omega) hdm hdp]; exact hmin d had hd
            · by_cases hap : a = m / 2
              · subst hap
                rw [domP_of_max hPp, h2p]
                by_cases hdm : d = m
                · subst hdm; rw [h2m]; exact le_of_lt hsw
                · rw [h2o' d (by omega) (by omega) hdm (by omega)]
                  have := hE (m / 2) d had hd (fun h => h.elim (by omega) (fun hn => hn hRa))
                  exact le_trans ((domP_of_max hPp).1 this) (le_of_lt hsw)
              · have hAa := h2o' a ha1 hai hex' hap
                by_cases hdm : d = m
                · subst hdm
                  have hai' : Anc a i := by
                    rcases had.up4 with h | h | h
                    · exact absurd h hap
                    · omega
                    · rwa [hm4] at h
                  rw [domP_congr hAa h2m]
                  exact hE a (d / 2) (hai'.trans hip) (by omega) (fun h => h.elim hai (fun hn => hn hRa))
                · by_cases hdp : d = m / 2
                  · subst hdp
                    have hai' : Anc a i := by
                      rcases had.up with h | h
                      · omega
                      · rwa [hm22] at h
                    rw [domP_congr hAa h2p]
                    exact hE a i hai' (by omega) (fun h => h.elim hai (fun hn => hn hRa))
                  · by_cases hdi : d = i
                    · subst hdi
                      rw [domP_congr hAa h2i]
                      exact hE a m (had.trans him) hmn (fun h => h.elim hai (fun hn => hn hRa))
                    · rw [domP_congr hAa (h2o' d (by omega) hdi hdm hdp)]
                      exact hE a d had hd (fun h => h.elim hai (fun hn => hn hRa))
          · rw [if_neg hsw]
            rw [h1m, h1o (m / 2) (by omega) (by omega) (by omega)] at hsw
            intro a d had hd hex
            have hex' : a ≠ m := fun h => hex (Or.inl h)
            have hRa : R a := by
              by_contra h; exact hex (Or.inr h)
            have ha1 := had.pos
            have hlt' := had.lt
            by_cases hai : a = i
            · subst hai
              rw [domP_of_min hPi, h1i]
              by_cases hdm : d = m
              · subst hdm; rw [h1m]; exact le_of_lt hlt
              · rw [h1o d (by omega) (by omega) hdm]; exact hmin d had hd
            · have hAa := h1o a ha1 hai hex'
              by_cases hdm : d = m
              · subst hdm
                rcases had.up4 with h | h | h
                · subst h
                  rw [domP_of_max hPp, h1m, hAa]
                  exact not_lt.1 hsw
                · omega
                · rw [hm4] at h
                  rw [domP_congr hAa h1m]
                  exact hE a i h (by omega) (fun h => h.elim hai (fun hn => hn hRa))
              · by_cases hdi : d = i
                · subst hdi
                  rw [domP_congr hAa h1i]
                  exact hE a m (had.trans him) hmn (fun h => h.elim hai (fun hn => hn hRa))
                · rw [domP_congr hAa (h1o d (by omega) hdi hdm)]
                  exact hE a d had hd (fun h => h.elim hai (fun hn => hn hRa))
        · rw [if_neg hlt]; exact hstay hlt
      · rw [if_neg hgc]
        by_cases hlt : A (m - 1) < A (i - 1)
        · rw [if_pos hlt]
          have hm2 : m / 2 = i := by omega
          have hPm : ¬ P m := by
            have := hP m (by omega); rw [hm2] at this; tauto
          have him : Anc i m := by
            have := @Anc.parent m (by omega); rwa [hm2] at this
          obtain ⟨h1i, h1m, h1o⟩ := swap_facts A B i m h1 (by omega) (by omega)
          intro a d had hd hex
          have hRa : R a := by
            by_contra h; exact hex h
          have ha1 := had.pos
          have hlt' := had.lt
          by_cases hai : a = i
          · subst hai
            rw [domP_of_min hPi, h1i]
            by_cases hdm : d = m
            · subst hdm; rw [h1m]; exact le_of_lt hlt
            · rw [h1o d (by omega) (by omega) hdm]; exact hmin d had hd
          · by_cases ham : a = m
            · subst ham
              rw [domP_of_max hPm, h1m, h1o d (by omega) (by omega) (by omega)]
              have := hE a d had hd (fun h => h.elim (by omega) (fun hn => hn hRa))
              exact le_trans ((domP_of_max hPm).1 this) (le_of_lt hlt)
            · have hAa := h1o a ha1 hai ham
              by_cases hdm : d = m
              · subst hdm
                have hai' : Anc a i := by
                  rcases had.up with h | h
                  · omega
                  · rwa [hm2] at h
                rw [domP_congr hAa h1m]
                exact hE a i hai' (by omega) (fun h => h.elim hai (fun hn => hn hRa))
              · by_cases hdi : d = i
                · subst hdi
                  rw [domP_congr hAa h1i]
                  exact hE a m (had.trans him) hmn (fun h => h.elim hai (fun hn => hn hRa))
                · rw [domP_congr hAa (h1o d (by omega) hdi hdm)]
                  exact hE a d had hd (fun h => h.elim hai (fun hn => hn hRa))
        · rw [if_neg hlt]; exact hstay hlt

end cmmheap

namespace cmmheap

theorem in_subtree_iff (i p : Nat) (h1 : 1 ≤ i) : in_subtree i p ↔ p = i ∨ Anc i p := by
  unfold in_subtree Anc
  constructor
  · rintro ⟨k, _, hk⟩
    by_cases h0 : k = 0
    · subst h0; left; simpa using hk
    · right; exact ⟨k, by omega, hk, h1⟩
  · rintro (rfl | ⟨k, _, hk, _⟩)
    · exact ⟨0, by omega, by simp⟩
    · refine ⟨k, ?_, hk⟩
      have h2 : 2 ^ k ≤ p := by
        by_contra hc
        rw [Nat.div_eq_of_lt (by omega)] at hk
        omega
      have := Nat.lt_two_pow k
      omega

theorem dominates_iff_domP {V : Type} [LinearOrder V] (A : Nat → V) (a d : Nat) :
    dominates A a d ↔ domP minLevel A a d := Iff.rfl

/-- Trickle-down on the max side relative to `R`, by order duality. -/
theorem trickle_down_max_fuel_heapR {V : Type} [LinearOrder V] (P : Nat → Prop)
    (R : Nat → Prop) (hP : Alternates P) (n f i : Nat) (A : Nat → V) (B : Nat → Int)
    (h1 : 1 ≤ i) (hf : n ≤ f + i) (hPi : ¬ P i) (hR : ∀ g, Anc i g → R g)
    (hE : HeapExc P (fun a _ => a = i ∨ ¬ R a) A n) :
    HeapExc P (fun a _ => ¬ R a) (__trickle_down_max_fuel f A B i n).1 n := by
  rw [trickle_down_max_fuel_dual, ← HeapExc_dual (V := V)]
  apply trickle_down_min_fuel_heapR (V := Vᵒᵈ) (fun x => ¬ P x) R (alternates_not P hP) n f i A
    B h1 hf hPi hR
  rw [HeapExc_dual (V := V)]
  exact hE

/-- The slots that `__trickle_down_min` leaves untouched: those outside the subtree of `i`
and those beyond the occupancy. -/
theorem trickle_down_min_fuel_frame {V : Type} [LinearOrder V] (n : Nat) (f : Nat) :
    ∀ (i : Nat) (A : Nat → V) (B : Nat → Int), 1 ≤ i →
      ∀ q, ¬ ((q + 1 = i ∨ Anc i (q + 1)) ∧ q < n) →
        (__trickle_down_min_fuel f A B i n).1 q = A q ∧
        (__trickle_down_min_fuel f A B i n).2 q = B q := by
  induction f with
  | zero => intro i A B _ q _; exact ⟨rfl, rfl⟩
  | succ f ih =>
    intro i A B h1 q hq
    simp only [__trickle_down_min_fuel, Nat.shiftLeft_eq, Nat.shiftRight_eq_div_pow, pow_one]
    have e1 : i * 2 = 2 * i := by omega
    simp only [e1]
    by_cases hl : 2 * i > n
    · rw [if_pos hl]; exact ⟨rfl, rfl⟩
    · rw [if_neg hl]
      have hspec := trickle_down_min_m_spec A i n h1 (by omega)
      generalize __trickle_down_min_m A i n = m at hspec ⊢
      obtain ⟨hmn, hmS, _⟩ := hspec
      simp only [List.mem_cons, List.mem_singleton, List.not_mem_nil, or_false] at hmS
      have hqi : q ≠ i - 1 := by
        intro h; apply hq; exact ⟨Or.inl (by omega), by omega⟩
      have hsw : ∀ c, 1 ≤ c → c ≤ n → Anc i c → q ≠ c - 1 := by
        intro c hc1 hcn hc h
        apply hq
        have : q + 1 = c := by omega
        rw [this]
        exact ⟨Or.inr hc, by omega⟩
      have him : Anc i m := by
        rcases hmS with h | h | h | h | h | h
        · have := @Anc.grand m (by omega); rwa [show m / 4 = i by omega] at this
        · have := @Anc.grand m (by omega); rwa [show m / 4 = i by omega] at this
        · have := @Anc.grand m (by omega); rwa [show m / 4 = i by omega] at this
        · have := @Anc.grand m (by omega); rwa [show m / 4 = i by omega] at this
        · have := @Anc.parent m (by omega); rwa [show m / 2 = i by omega] at this
        · have := @Anc.parent m (by omega); rwa [show m / 2 = i by omega] at this
      have hqm : q ≠ m - 1 := hsw m (by omega) hmn him
      have h1sw : (__ab_swap A B (i - 1) (m - 1)).1 q = A q ∧
          (__ab_swap A B (i - 1) (m - 1)).2 q = B q := by
        rw [ab_swap_fst, ab_swap_snd, if_neg hqi, if_neg hqm, if_neg hqi, if_neg hqm]
        exact ⟨rfl, rfl⟩
      by_cases hgc : m > 2 * i + 1
      · rw [if_pos hgc]
        by_cases hlt : A (m - 1) < A (i - 1)
        · rw [if_pos hlt]
          have hip : Anc i (m / 2) := by
            have := @Anc.parent (m / 2) (by omega)
            rwa [show m / 2 / 2 = i by omega] at this
          have hqp : q ≠ m / 2 - 1 := hsw (m / 2) (by omega) (by omega) hip
          have hrec := ih m
            (if (__ab_swap A B (i - 1) (m - 1)).1 (m - 1) >
                (__ab_swap A B (i - 1) (m - 1)).1 (m / 2 - 1) then
              __ab_swap (__ab_swap A B (i - 1) (m - 1)).1 (__ab_swap A B (i - 1) (m - 1)).2
                (m - 1) (m / 2 - 1)
            else __ab_swap A B (i - 1) (m - 1)).1
            (if (__ab_swap A B (i - 1) (m - 1)).1 (m - 1) >
                (__ab_swap A B (i - 1) (m - 1)).1 (m / 2 - 1) then
              __ab_swap (__ab_swap A B (i - 1) (m - 1)).1 (__ab_swap A B (i - 1) (m - 1)).2
                (m - 1) (m / 2 - 1)
            else __ab_swap A B (i - 1) (m - 1)).2 (by omega) q
            (by
              rintro ⟨h | h, hn⟩
              · exact hq ⟨Or.inr (by rw [h]; exact him), hn⟩
              · exact hq ⟨Or.inr (him.trans h), hn⟩)
          rw [hrec.1, hrec.2]
          split_ifs
          · rw [ab_swap_fst, ab_swap_snd, if_neg hqm, if_neg hqp, if_neg hqm, if_neg hqp]
            exact h1sw
          · exact h1sw
        · rw [if_neg hlt]; exact ⟨rfl, rfl⟩
      · rw [if_neg hgc]
        by_cases hlt : A (m - 1) < A (i - 1)
        · rw [if_pos hlt]; exact h1sw
        · rw [if_neg hlt]; exact ⟨rfl, rfl⟩

theorem trickle_down_frame {V : Type} [LinearOrder V] (A : Nat → V) (B : Nat → Int)
    (i n : Nat) (h1 : 1 ≤ i) (q : Nat) (hq : ¬ (in_subtree i (q + 1) ∧ q < n)) :
    (__trickle_down A B i n).1 q = A q ∧ (__trickle_down A B i n).2 q = B q := by
  rw [in_subtree_iff i _ h1] at hq
  unfold __trickle_down
  split_ifs
  · exact trickle_down_min_fuel_frame n n i A B h1 q hq
  · unfold __trickle_down_max
    rw [trickle_down_max_fuel_dual]
    exact trickle_down_min_fuel_frame (V := Vᵒᵈ) n n i A B h1 q hq

theorem trickle_down_subtree_pairs {V : Type} [LinearOrder V] (A : Nat → V) (B : Nat → Int)
    (i n : Nat) (h1 : 1 ≤ i) :
    subtree_pairs (__trickle_down A B i n).1 (__trickle_down A B i n).2 i n =
      subtree_pairs A B i n := by
  have hall := trickle_down_pairs n i A B h1
  unfold slot_pairs at hall
  unfold subtree_pairs
  have hsplit : ∀ (A' : Nat → V) (B' : Nat → Int),
      Multiset.map (fun j => (A' j, B' j)) (Multiset.range n) =
        Multiset.map (fun j => (A' j, B' j))
          (Multiset.filter (fun j => in_subtree i (j + 1)) (Multiset.range n)) +
        Multiset.map (fun j => (A' j, B' j))
          (Multiset.filter (fun j => ¬ in_subtree i (j + 1)) (Multiset.range n)) := by
    intro A' B'
    rw [← Multiset.map_add, Multiset.filter_add_not]
  rw [hsplit, hsplit A B] at hall
  have hout : Multiset.map
      (fun j => ((__trickle_down A B i n).1 j, (__trickle_down A B i n).2 j))
      (Multiset.filter (fun j => ¬ in_subtree i (j + 1)) (Multiset.range n)) =
      Multiset.map (fun j => (A j, B j))
        (Multiset.filter (fun j => ¬ in_subtree i (j + 1)) (Multiset.range n)) := by
    apply Multiset.map_congr rfl
    intro j hj
    rw [Multiset.mem_filter] at hj
    obtain ⟨e1, e2⟩ := trickle_down_frame A B i n h1 j (fun h => hj.2 h.1)
    rw [e1, e2]
  rw [hout] at hall
  exact add_right_cancel hall

theorem subtree_check_sound {V : Type} [LinearOrder V] (A : Nat → V) (i maxi : Nat)
    (h : subtree_check A i maxi = true) :
    ∀ a d k, in_subtree i a → a ≠ i → 1 ≤ k → d / 2 ^ k = a → d ≤ maxi → dominates A a d := by
  unfold subtree_check at h
  rw [decide_eq_true_iff] at h
  intro a d k ha hai hk hdk hd
  subst hdk
  have ha1 : 1 ≤ d / 2 ^ k := by
    obtain ⟨j, hj, hji⟩ := ha
    by_contra hc
    have h0 : d / 2 ^ k = 0 := by omega
    rw [h0] at hji hai
    simp at hji
    exact hai hji
  have hlt : k < d := by
    have h2 : 2 ^ k ≤ d := by
      by_contra hc
      rw [Nat.div_eq_of_lt (by omega)] at ha1
      omega
    have := Nat.lt_two_pow k
    omega
  have := h d (by omega) k hlt ⟨hk, ha, hai⟩
  unfold dominates
  by_cases hm : isminlevel ((d / 2 ^ k : Nat) : Int) ≠ 0
  · rw [if_pos hm] at this
    have hm' := (isminlevel_ne_zero_iff _).1 hm
    exact ⟨fun _ => this, fun h => absurd hm' h⟩
  · rw [if_neg hm] at this
    have hm' : ¬ minLevel (d / 2 ^ k) := fun h => hm ((isminlevel_ne_zero_iff _).2 h)
    exact ⟨fun h => absurd h hm', fun _ => this⟩

/-- The subtree version of the repair by `__trickle_down`. -/
theorem trickle_down_subtree_heap {V : Type} [LinearOrder V] (A : Nat → V) (B : Nat → Int)
    (i n : Nat) (h1 : 1 ≤ i)
    (hsub : ∀ a d, Anc i a → Anc a d → d ≤ n → domP minLevel A a d) :
    ∀ a d, (a = i ∨ Anc i a) → Anc a d → d ≤ n →
      domP minLevel (__trickle_down A B i n).1 a d := by
  have hE : HeapExc minLevel (fun a _ => a = i ∨ ¬ (a = i ∨ Anc i a)) A n := by
    intro a d had hd hex
    have hai : a ≠ i := fun h => hex (Or.inl h)
    have hR : a = i ∨ Anc i a := by
      by_contra h; exact hex (Or.inr h)
    rcases hR with h | h
    · exact absurd h hai
    · exact hsub a d h had hd
  have hR : ∀ g, Anc i g → (fun a => a = i ∨ Anc i a) g := fun g hg => Or.inr hg
  intro a d ha had hd
  unfold __trickle_down
  by_cases hm : isminlevel (i : Int) ≠ 0
  · rw [if_pos hm]
    exact trickle_down_min_fuel_heapR minLevel (fun a => a = i ∨ Anc i a) alternates_minLevel
      n n i A B h1 (by omega) ((isminlevel_ne_zero_iff i).1 hm) hR hE a d had hd
      (fun h => h ha)
  · rw [if_neg hm]
    exact trickle_down_max_fuel_heapR minLevel (fun a => a = i ∨ Anc i a) alternates_minLevel
      n n i A B h1 (by omega) (fun h => hm ((isminlevel_ne_zero_iff i).2 h)) hR hE a d had hd
      (fun h => h ha)

end cmmheap

namespace cmmheap

/-! ## The checked routines agree with the unchecked ones and stay within bounds -/

theorem int_shl1_ok (x : Nat) (h : 2 * x ≤ INT_MAX) : int_shl1 x = Except.ok (2 * x) := by
  unfold int_shl1
  have e : x <<< 1 = 2 * x := by rw [Nat.shiftLeft_eq]; omega
  rw [e, if_pos h]

theorem int_inc_ok (x : Nat) (h : x + 1 ≤ INT_MAX) : int_inc x = Except.ok (x + 1) := by
  unfold int_inc
  rw [if_pos h]

theorem log_within_nil (n : Nat) : log_within n [] := by
  intro j hj; simp at hj

theorem log_within_append {n : Nat} {l1 l2 : List Int} (h1 : log_within n l1)
    (h2 : log_within n l2) : log_within n (l1 ++ l2) := by
  intro j hj
  rcases List.mem_append.1 hj with h | h
  · exact h1 j h
  · exact h2 j h

theorem log_within_mono {n m : Nat} {l : List Int} (h : log_within n l) (hnm : n ≤ m) :
    log_within m l := by
  intro j hj
  have := h j hj
  omega

theorem log_within_pair {n p q : Nat} (hp1 : 1 ≤ p) (hp : p ≤ n) (hq1 : 1 ≤ q) (hq : q ≤ n) :
    log_within n [slot_of p, slot_of q] := by
  intro j hj
  simp only [List.mem_cons, List.mem_singleton, List.not_mem_nil, or_false, slot_of] at hj
  rcases hj with rfl | rfl <;> omega

theorem log_within_swap {n p q : Nat} (hp1 : 1 ≤ p) (hp : p ≤ n) (hq1 : 1 ≤ q) (hq : q ≤ n) :
    log_within n (__ab_swap_log (slot_of p) (slot_of q)) := by
  intro j hj
  simp only [__ab_swap_log, List.mem_cons, List.mem_singleton, List.not_mem_nil, or_false,
    slot_of] at hj
  rcases hj with rfl | rfl | rfl | rfl | rfl | rfl | rfl | rfl <;> omega

theorem except_map_ok {α β : Type} (f : α → β) (a : α) :
    Except.map f (Except.ok a : Except fault α) = Except.ok (f a) := rfl

theorem except_bind_ok {α β : Type} (f : α → Except fault β) (a : α) :
    Except.bind (Except.ok a : Except fault α) f = f a := rfl

/-- The checked `__bubble_up_min` returns what the unchecked one returns and touches only
slots of positions `1 .. i`. -/
theorem bubble_up_min_run_ok {V : Type} [LinearOrder V] (f : Nat) :
    ∀ (i : Nat) (A : Nat → V) (B : Nat → Int), 1 ≤ i → i ≤ f →
      ∃ log, __bubble_up_min_run f A B i =
          Except.ok ((__bubble_up_min_fuel f A B i).1, (__bubble_up_min_fuel f A B i).2, log) ∧
        log_within i log := by
  induction f with
  | zero => intro i A B h1 h2; omega
  | succ f ih =>
    intro i A B h1 h2
    simp only [__bubble_up_min_run, __bubble_up_min_fuel, Nat.shiftRight_eq_div_pow]
    have e : i / 2 ^ 2 = i / 4 := by norm_num
    rw [e]
    by_cases hg : i / 4 ≠ 0
    · rw [if_pos hg, if_pos hg]
      by_cases hlt : A (i - 1) < A (i / 4 - 1)
      · rw [if_pos hlt, if_pos hlt]
        obtain ⟨log, hrun, hlog⟩ := ih (i / 4) (__ab_swap A B (i - 1) (i / 4 - 1)).1
          (__ab_swap A B (i - 1) (i / 4 - 1)).2 (by omega) (by omega)
        rw [hrun, except_map_ok]
        refine ⟨_, rfl, ?_⟩
        exact log_within_append (log_within_append
          (log_within_pair h1 le_rfl (by omega) (by omega))
          (log_within_swap h1 le_rfl (by omega) (by omega)))
          (log_within_mono hlog (by omega))
      · rw [if_neg hlt, if_neg hlt]
        exact ⟨_, rfl, log_within_pair h1 le_rfl (by omega) (by omega)⟩
    · rw [if_neg hg, if_neg hg]
      exact ⟨_, rfl, log_within_nil _⟩

theorem bubble_up_max_run_dual {V : Type} [LinearOrder V] (f : Nat) (A : Nat → V)
    (B : Nat → Int) (i : Nat) :
    __bubble_up_max_run f A B i = __bubble_up_min_run (V := Vᵒᵈ) f A B i := by
  induction f generalizing A B i with
  | zero => rfl
  | succ f ih =>
    simp only [__bubble_up_max_run, __bubble_up_min_run]
    simp only [ih]
    rfl

theorem bubble_up_max_run_ok {V : Type} [LinearOrder V] (f i : Nat) (A : Nat → V)
    (B : Nat → Int) (h1 : 1 ≤ i) (h2 : i ≤ f) :
    ∃ log, __bubble_up_max_run f A B i =
        Except.ok ((__bubble_up_max_fuel f A B i).1, (__bubble_up_max_fuel f A B i).2, log) ∧
      log_within i log := by
  rw [bubble_up_max_run_dual, bubble_up_max_fuel_dual]
  exact bubble_up_min_run_ok (V := Vᵒᵈ) f i A B h1 h2

/-- The checked `__bubble_up` with a budget of at least `i` calls returns what `__bubble_up`
returns and touches only slots of positions `1 .. i`. -/
theorem bubble_up_run_ok {V : Type} [LinearOrder V] (f i : Nat) (A : Nat → V)
    (B : Nat → Int) (h1 : 1 ≤ i) (h2 : i ≤ f) :
    ∃ log, __bubble_up_run f A B i =
        Except.ok ((__bubble_up A B i).1, (__bubble_up A B i).2, log) ∧
      log_within i log := by
  unfold __bubble_up_run __bubble_up __bubble_up_min __bubble_up_max
  simp only [Nat.shiftRight_eq_div_pow, pow_one]
  have hmin : ∀ (A : Nat → V) (B : Nat → Int) (p : Nat), 1 ≤ p → p ≤ i →
      ∃ log, __bubble_up_min_run f A B p =
        Except.ok ((__bubble_up_min_fuel p A B p).1, (__bubble_up_min_fuel p A B p).2, log) ∧
      log_within i log := by
    intro A B p hp1 hp
    obtain ⟨log, hrun, hlog⟩ := bubble_up_min_run_ok f p A B hp1 (by omega)
    rw [bubble_up_min_fuel_stable f p p A B (by omega) le_rfl] at hrun
    exact ⟨log, hrun, log_within_mono hlog hp⟩
  have hmax : ∀ (A : Nat → V) (B : Nat → Int) (p : Nat), 1 ≤ p → p ≤ i →
      ∃ log, __bubble_up_max_run f A B p =
        Except.ok ((__bubble_up_max_fuel p A B p).1, (__bubble_up_max_fuel p A B p).2, log) ∧
      log_within i log := by
    intro A B p hp1 hp
    obtain ⟨log, hrun, hlog⟩ := bubble_up_max_run_ok f p A B hp1 (by omega)
    rw [bubble_up_max_fuel_stable f p p A B (by omega) le_rfl] at hrun
    exact ⟨log, hrun, log_within_mono hlog hp⟩
  split_ifs with c1 c2 c3 c4 c5
  · obtain ⟨log, hrun, hlog⟩ := hmax (__ab_swap A B (i - 1) (i / 2 - 1)).1
      (__ab_swap A B (i - 1) (i / 2 - 1)).2 (i / 2) (by omega) (by omega)
    rw [hrun, except_map_ok]
    exact ⟨_, rfl, log_within_append (log_within_append
      (log_within_pair h1 le_rfl (by omega) (by omega))
      (log_within_swap h1 le_rfl (by omega) (by omega))) hlog⟩
  · obtain ⟨log, hrun, hlog⟩ := hmin A B i h1 le_rfl
    rw [hrun, except_map_ok]
    exact ⟨_, rfl, log_within_append (log_within_pair h1 le_rfl (by omega) (by omega)) hlog⟩
  · exact hmin A B i h1 le_rfl
  · obtain ⟨log, hrun, hlog⟩ := hmin (__ab_swap A B (i - 1) (i / 2 - 1)).1
      (__ab_swap A B (i - 1) (i / 2 - 1)).2 (i / 2) (by omega) (by omega)
    rw [hrun, except_map_ok]
    exact ⟨_, rfl, log_within_append (log_within_append
      (log_within_pair h1 le_rfl (by omega) (by omega))
      (log_within_swap h1 le_rfl (by omega) (by omega))) hlog⟩
  · obtain ⟨log, hrun, hlog⟩ := hmax A B i h1 le_rfl
    rw [hrun, except_map_ok]
    exact ⟨_, rfl, log_within_append (log_within_pair h1 le_rfl (by omega) (by omega)) hlog⟩
  · exact hmax A B i h1 le_rfl

end cmmheap

namespace cmmheap

theorem trickle_down_min_m_step_fst {V : Type} [LinearOrder V] (A : Nat → V) (maxi : Nat)
    (ml : Nat × List Int) (g : Nat) :
    (__trickle_down_min_m_step A maxi ml g).1 =
      if g ≤ maxi then (if A (g - 1) < A (ml.1 - 1) then g else ml.1) else ml.1 := by
  unfold __trickle_down_min_m_step
  split_ifs <;> rfl

theorem trickle_down_min_m_step_ok {V : Type} [LinearOrder V] (A : Nat → V) (maxi : Nat)
    (ml : Nat × List Int) (g : Nat) (hg : 1 ≤ g) (hm : 1 ≤ ml.1 ∧ ml.1 ≤ maxi)
    (hl : log_within maxi ml.2) :
    (1 ≤ (__trickle_down_min_m_step A maxi ml g).1 ∧
      (__trickle_down_min_m_step A maxi ml g).1 ≤ maxi) ∧
    log_within maxi (__trickle_down_min_m_step A maxi ml g).2 := by
  unfold __trickle_down_min_m_step
  by_cases hgm : g ≤ maxi
  · rw [if_pos hgm]
    refine ⟨?_, log_within_append hl (log_within_pair hg hgm hm.1 hm.2)⟩
    show 1 ≤ (if A (g - 1) < A (ml.1 - 1) then g else ml.1) ∧
      (if A (g - 1) < A (ml.1 - 1) then g else ml.1) ≤ maxi
    split_ifs
    · exact ⟨hg, hgm⟩
    · exact hm
  · rw [if_neg hgm]
    exact ⟨hm, hl⟩

/-- The checked candidate computation returns the candidate of `__trickle_down_min` and reads
only slots of positions `1 .. maxi`, when `2 * maxi + 1` fits an `int`. -/
theorem trickle_down_min_m_run_ok {V : Type} [LinearOrder V] (A : Nat → V) (i maxi : Nat)
    (h1 : 1 ≤ i) (h2 : 2 * i ≤ maxi) (hmax : 2 * maxi + 1 ≤ INT_MAX) :
    ∃ log, __trickle_down_min_m_run A (2 * i) (2 * i + 1) maxi =
        Except.ok (__trickle_down_min_m A i maxi, log) ∧
      log_within maxi log := by
  unfold __trickle_down_min_m_run __trickle_down_min_m
  simp only [Nat.shiftLeft_eq, pow_one]
  have e1 : i * 2 = 2 * i := by omega
  have e2 : 2 * i * 2 = 4 * i := by omega
  have e3 : (2 * i + 1) * 2 = 4 * i + 2 := by omega
  simp only [e1, e2, e3]
  by_cases hr : 2 * i + 1 ≤ maxi
  · rw [if_pos hr, if_pos hr]
    have s1 : int_shl1 (2 * i) = Except.ok (4 * i) := by
      rw [int_shl1_ok _ (by omega)]; congr 1; omega
    have s2 : int_inc (4 * i) = Except.ok (4 * i + 1) := int_inc_ok _ (by omega)
    have s3 : int_shl1 (2 * i + 1) = Except.ok (4 * i + 2) := by
      rw [int_shl1_ok _ (by omega)]; congr 1; omega
    have s4 : int_inc (4 * i + 2) = Except.ok (4 * i + 2 + 1) := int_inc_ok _ (by omega)
    simp only [s1, s2, s3, s4, except_bind_ok]
    have h0 : (1 ≤ ((if A (2 * i - 1) < A (2 * i + 1 - 1) then 2 * i else 2 * i + 1,
          [slot_of (2 * i), slot_of (2 * i + 1)]) : Nat × List Int).1 ∧
        ((if A (2 * i - 1) < A (2 * i + 1 - 1) then 2 * i else 2 * i + 1,
          [slot_of (2 * i), slot_of (2 * i + 1)]) : Nat × List Int).1 ≤ maxi) ∧
        log_within maxi ((if A (2 * i - 1) < A (2 * i + 1 - 1) then 2 * i else 2 * i + 1,
          [slot_of (2 * i), slot_of (2 * i + 1)]) : Nat × List Int).2 := by
      refine ⟨?_, log_within_pair (by omega) h2 (by omega) hr⟩
      show 1 ≤ (if A (2 * i - 1) < A (2 * i + 1 - 1) then 2 * i else 2 * i + 1) ∧
        (if A (2 * i - 1) < A (2 * i + 1 - 1) then 2 * i else 2 * i + 1) ≤ maxi
      split_ifs <;> omega
    have k1 := trickle_down_min_m_step_ok A maxi _ (4 * i) (by omega) h0.1 h0.2
    have k2 := trickle_down_min_m_step_ok A maxi _ (4 * i + 1) (by omega) k1.1 k1.2
    have k3 := trickle_down_min_m_step_ok A maxi _ (4 * i + 2) (by omega) k2.1 k2.2
    have k4 := trickle_down_min_m_step_ok A maxi _ (4 * i + 2 + 1) (by omega) k3.1 k3.2
    refine ⟨_, congrArg Except.ok (Prod.ext ?_ rfl), k4.2⟩
    simp only [trickle_down_min_m_step_fst]
  · rw [if_neg hr, if_neg hr]
    exact ⟨_, rfl, log_within_nil _⟩

end cmmheap

namespace cmmheap

/-- The checked `__trickle_down_min` returns what the unchecked one returns and touches only
slots of positions `1 .. maxi`, when `2 * i` and `2 * maxi + 1` fit an `int` and the budget
is not exhausted. -/
theorem trickle_down_min_run_ok {V : Type} [LinearOrder V] (maxi : Nat)
    (hmax : 2 * maxi + 1 ≤ INT_MAX) (f : Nat) :
    ∀ (i : Nat) (A : Nat → V) (B : Nat → Int), 1 ≤ i → 1 ≤ f → maxi < f + i →
      2 * i ≤ INT_MAX →
      ∃ log, __trickle_down_min_run f A B i maxi =
          Except.ok ((__trickle_down_min_fuel f A B i maxi).1,
            (__trickle_down_min_fuel f A B i maxi).2, log) ∧
        log_within maxi log := by
  induction f with
  | zero => intro i A B _ h _ _; omega
  | succ f ih =>
    intro i A B h1 _ hf hi
    simp only [__trickle_down_min_run, __trickle_down_min_fuel, Nat.shiftLeft_eq,
      Nat.shiftRight_eq_div_pow, pow_one]
    have e1 : i * 2 = 2 * i := by omega
    simp only [e1]
    rw [int_shl1_ok i hi, except_bind_ok]
    by_cases hl : 2 * i > maxi
    · rw [if_pos hl, if_pos hl]
      exact ⟨_, rfl, log_within_nil _⟩
    · rw [if_neg hl, if_neg hl]
      rw [int_inc_ok (2 * i) (by omega), except_bind_ok]
      obtain ⟨mlog, hmrun, hmlog⟩ := trickle_down_min_m_run_ok A i maxi h1 (by omega) hmax
      rw [hmrun, except_bind_ok]
      have hspec := trickle_down_min_m_spec A i maxi h1 (by omega)
      generalize __trickle_down_min_m A i maxi = m at hspec ⊢
      obtain ⟨hmn, hmS, _⟩ := hspec
      simp only [List.mem_cons, List.mem_singleton, List.not_mem_nil, or_false] at hmS
      have hm1 : 1 ≤ m := by omega
      have him : log_within maxi (mlog ++ [slot_of m, slot_of i]) :=
        log_within_append hmlog (log_within_pair hm1 hmn h1 (by omega))
      simp only []
      by_cases hgc : m > 2 * i + 1
      · rw [if_pos hgc, if_pos hgc]
        by_cases hlt : A (m - 1) < A (i - 1)
        · rw [if_pos hlt, if_pos hlt]
          obtain ⟨log, hrun, hlog⟩ := ih m
            (if (__ab_swap A B (i - 1) (m - 1)).1 (m - 1) >
                (__ab_swap A B (i - 1) (m - 1)).1 (m / 2 - 1) then
              __ab_swap (__ab_swap A B (i - 1) (m - 1)).1 (__ab_swap A B (i - 1) (m - 1)).2
                (m - 1) (m / 2 - 1)
            else __ab_swap A B (i - 1) (m - 1)).1
            (if (__ab_swap A B (i - 1) (m - 1)).1 (m - 1) >
                (__ab_swap A B (i - 1) (m - 1)).1 (m / 2 - 1) then
              __ab_swap (__ab_swap A B (i - 1) (m - 1)).1 (__ab_swap A B (i - 1) (m - 1)).2
                (m - 1) (m / 2 - 1)
            else __ab_swap A B (i - 1) (m - 1)).2 hm1 (by omega) (by omega) (by omega)
          rw [hrun, except_map_ok]
          refine ⟨_, rfl, log_within_append (log_within_append (log_within_append
            (log_within_append him (log_within_swap h1 (by omega) hm1 hmn))
            (log_within_pair hm1 hmn (by omega) (by omega))) ?_) hlog⟩
          split_ifs
          · exact log_within_swap hm1 hmn (by omega) (by omega)
          · exact log_within_nil _
        · rw [if_neg hlt, if_neg hlt]
          exact ⟨_, rfl, him⟩
      · rw [if_neg hgc, if_neg hgc]
        by_cases hlt : A (m - 1) < A (i - 1)
        · rw [if_pos hlt, if_pos hlt]
          exact ⟨_, rfl, log_within_append him (log_within_swap h1 (by omega) hm1 hmn)⟩
        · rw [if_neg hlt, if_neg hlt]
          exact ⟨_, rfl, him⟩

theorem trickle_down_max_m_step_dual {V : Type} [LinearOrder V] (A : Nat → V) (maxi : Nat)
    (ml : Nat × List Int) (g : Nat) :
    __trickle_down_max_m_step A maxi ml g = __trickle_down_min_m_step (V := Vᵒᵈ) A maxi ml g :=
  rfl

theorem trickle_down_max_m_run_dual {V : Type} [LinearOrder V] (A : Nat → V)
    (lchild rchild maxi : Nat) :
    __trickle_down_max_m_run A lchild rchild maxi =
      __trickle_down_min_m_run (V := Vᵒᵈ) A lchild rchild maxi := rfl

theorem trickle_down_max_run_dual {V : Type} [LinearOrder V] (f : Nat) (A : Nat → V)
    (B : Nat → Int) (i maxi : Nat) :
    __trickle_down_max_run f A B i maxi = __trickle_down_min_run (V := Vᵒᵈ) f A B i maxi := by
  induction f generalizing A B i with
  | zero => rfl
  | succ f ih =>
    simp only [__trickle_down_max_run, __trickle_down_min_run]
    simp only [ih, trickle_down_max_m_run_dual]
    rfl

/-- The checked `__trickle_down` with a budget of `maxi + 1` calls returns what
`__trickle_down` returns and touches only slots of positions `1 .. maxi`, when `2 * i` and
`2 * maxi + 1` fit an `int`. -/
theorem trickle_down_run_ok {V : Type} [LinearOrder V] (A : Nat → V) (B : Nat → Int)
    (i maxi : Nat) (h1 : 1 ≤ i) (hi : 2 * i ≤ INT_MAX) (hmax : 2 * maxi + 1 ≤ INT_MAX) :
    ∃ log, __trickle_down_run (maxi + 1) A B i maxi =
        Except.ok ((__trickle_down A B i maxi).1, (__trickle_down A B i maxi).2, log) ∧
      log_within maxi log := by
  unfold __trickle_down_run __trickle_down __trickle_down_min __trickle_down_max
  split_ifs
  · rw [← trickle_down_min_fuel_stable maxi (maxi + 1) maxi i A B h1 (by omega) (by omega)]
    exact trickle_down_min_run_ok maxi hmax (maxi + 1) i A B h1 (by omega) (by omega) hi
  · rw [← trickle_down_max_fuel_stable maxi (maxi + 1) maxi i A B h1 (by omega) (by omega)]
    rw [trickle_down_max_run_dual, trickle_down_max_fuel_dual]
    exact trickle_down_min_run_ok (V := Vᵒᵈ) maxi hmax (maxi + 1) i A B h1 (by omega)
      (by omega) hi

end cmmheap

namespace cmmheap

/-! ## The three operations, checked -/

theorem insert_run_ok {V : Type} [LinearOrder V] (h : minmaxheap V) (v : V) (t : Int)
    (hlen : h.length ≤ h.maxlength) (hcap : h.maxlength ≤ INT_MAX) :
    ∃ log, mmheap_insert_run h v t =
        Except.ok ((mmheap_insert h v t).1, (mmheap_insert h v t).2, log) ∧
      log_within (max h.length (mmheap_insert h v t).2.length) log ∧
      max h.length (mmheap_insert h v t).2.length ≤ h.maxlength := by
  unfold mmheap_insert_run mmheap_insert
  by_cases hf : h.length = h.maxlength
  · rw [if_pos hf, if_pos hf]
    exact ⟨_, rfl, log_within_nil _, by simp [hlen]⟩
  · rw [if_neg hf, if_neg hf]
    simp only []
    rw [int_inc_ok h.length (by omega), except_bind_ok]
    obtain ⟨log, hrun, hlog⟩ := bubble_up_run_ok (h.length + 1) (h.length + 1)
      (Function.update h.value h.length v) (Function.update h.index h.length t) (by omega)
      le_rfl
    rw [hrun, except_map_ok]
    have hmax : max h.length (h.length + 1) = h.length + 1 := by omega
    refine ⟨_, rfl, ?_, ?_⟩
    · show log_within (max h.length (h.length + 1)) _
      rw [hmax]
      refine log_within_append ?_ hlog
      intro j hj
      simp only [List.mem_cons, List.mem_singleton, List.not_mem_nil, or_false, or_self] at hj
      subst hj
      omega
    · show max h.length (h.length + 1) ≤ h.maxlength
      omega

theorem removemin_run_ok {V : Type} [LinearOrder V] (h : minmaxheap V)
    (hlen : h.length ≤ h.maxlength) (hcap : h.maxlength ≤ 1073741824) :
    ∃ log, mmheap_removemin_run h =
        Except.ok ((mmheap_removemin h).1, (mmheap_removemin h).2, log) ∧
      log_within (max h.length (mmheap_removemin h).2.length) log ∧
      max h.length (mmheap_removemin h).2.length ≤ h.maxlength := by
  unfold mmheap_removemin_run mmheap_removemin
  by_cases hf : h.length = 0
  · rw [if_pos hf, if_pos hf]
    exact ⟨_, rfl, log_within_nil _, by simp [hlen]⟩
  · rw [if_neg hf, if_neg hf]
    simp only []
    obtain ⟨log, hrun, hlog⟩ := trickle_down_run_ok
      (Function.update h.value 0 (h.value (h.length - 1)))
      (Function.update h.index 0 (h.index (h.length - 1))) 1 (h.length - 1) le_rfl
      (by unfold INT_MAX; omega) (by unfold INT_MAX; omega)
    rw [hrun, except_map_ok]
    have hmax : max h.length (h.length - 1) = h.length := by omega
    refine ⟨_, rfl, ?_, ?_⟩
    · show log_within (max h.length (h.length - 1)) _
      rw [hmax]
      refine log_within_append (log_within_append ?_ ?_) (log_within_mono hlog (by omega))
      · intro j hj
        simp only [List.mem_cons, List.mem_singleton, List.not_mem_nil, or_false, or_self] at hj
        subst hj
        omega
      · intro j hj
        simp only [List.mem_cons, List.mem_singleton, List.not_mem_nil, or_false, or_self] at hj
        subst hj
        omega
    · show max h.length (h.length - 1) ≤ h.maxlength
      omega

theorem removemax_run_ok {V : Type} [LinearOrder V] (h : minmaxheap V)
    (hlen : h.length ≤ h.maxlength) (hcap : h.maxlength ≤ 1073741824) :
    ∃ log, mmheap_removemax_run h =
        Except.ok ((mmheap_removemax h).1, (mmheap_removemax h).2, log) ∧
      log_within (max h.length (mmheap_removemax h).2.length) log ∧
      max h.length (mmheap_removemax h).2.length ≤ h.maxlength := by
  unfold mmheap_removemax_run mmheap_removemax
  by_cases hf : h.length = 0
  · rw [if_pos hf, if_pos hf]
    exact ⟨_, rfl, log_within_nil _, by simp [hlen]⟩
  · rw [if_neg hf, if_neg hf]
    simp only []
    have hiins : 1 ≤ mmheap_removemax_iins h ∧ mmheap_removemax_iins h ≤ 3 ∧
        mmheap_removemax_iins h ≤ h.length := by
      unfold mmheap_removemax_iins
      split_ifs <;> omega
    obtain ⟨log, hrun, hlog⟩ := trickle_down_run_ok
      (Function.update h.value (mmheap_removemax_iins h - 1) (h.value (h.length - 1)))
      (Function.update h.index (mmheap_removemax_iins h - 1) (h.index (h.length - 1)))
      (mmheap_removemax_iins h) (h.length - 1) hiins.1
      (by unfold INT_MAX; omega) (by unfold INT_MAX; omega)
    rw [hrun, except_map_ok]
    have hmax : max h.length (h.length - 1) = h.length := by omega
    refine ⟨_, rfl, ?_, ?_⟩
    · show log_within (max h.length (h.length - 1)) _
      rw [hmax]
      refine log_within_append (log_within_append (log_within_append ?_ ?_) ?_)
        (log_within_mono hlog (by omega))
      · intro j hj
        simp only [List.mem_cons, List.mem_singleton, List.not_mem_nil, or_false, or_self] at hj
        subst hj
        omega
      · split_ifs
        · exact log_within_nil _
        · exact log_within_nil _
        · intro j hj
          simp only [List.mem_cons, List.mem_singleton, List.not_mem_nil, or_false] at hj
          rcases hj with rfl | rfl <;> omega
      · exact log_within_pair hiins.1 hiins.2.2 hiins.1 hiins.2.2
    · show max h.length (h.length - 1) ≤ h.maxlength
      omega

theorem peek_logs_ok {V : Type} [LinearOrder V] (h : minmaxheap V) :
    log_within h.length (mmheap_peekmin_value_log h) ∧
    log_within h.length (mmheap_peekmin_index_log h) ∧
    log_within h.length (mmheap_peekmax_value_log h) ∧
    log_within h.length (mmheap_peekmax_index_log h) := by
  unfold mmheap_peekmin_value_log mmheap_peekmin_index_log mmheap_peekmax_value_log
    mmheap_peekmax_index_log
  refine ⟨?_, ?_, ?_, ?_⟩ <;> split_ifs <;> intro j hj <;>
    simp only [List.mem_cons, List.mem_singleton, List.not_mem_nil, or_false] at hj <;>
    (rcases hj with rfl | rfl | rfl <;> omega)

theorem eq_overflow_of_stops {α : Type} (r : Except fault α)
    (h : stops_at_overflow r = true) : r = Except.error fault.overflow := by
  unfold stops_at_overflow at h
  split at h
  · rfl
  · exact absurd h (by simp)

end cmmheap

namespace cmmheap

/-! ## The sample heap of `2^30 + 1` pairs is a min-max heap -/

theorem big_heap_value_le_two (j : Nat) : big_heap.value j ≤ 2 := by
  unfold big_heap
  simp only
  split_ifs <;> decide

theorem big_heap_value_nonneg (j : Nat) : 0 ≤ big_heap.value j := by
  unfold big_heap
  simp only
  split_ifs <;> decide

theorem big_heap_marks_minLevel :
    ∀ p, p ∈ [1, 4, 16, 64, 256, 1024, 4096, 16384, 65536, 262144, 1048576, 4194304,
      16777216, 67108864, 268435456, 1073741824] → isminlevel (p : Nat) ≠ 0 := by
  decide

theorem big_heap_marks_closed :
    ∀ d, d ∈ [4, 16, 64, 256, 1024, 4096, 16384, 65536, 262144, 1048576, 4194304,
      16777216, 67108864, 268435456, 1073741824] → ∀ k, k < 31 → 1 ≤ k →
      isminlevel (d / 2 ^ k : Nat) ≠ 0 → d / 2 ^ k ≠ 1 →
      d / 2 ^ k ∈ [4, 16, 64, 256, 1024, 4096, 16384, 65536, 262144, 1048576, 4194304,
        16777216, 67108864, 268435456, 1073741824] := by
  decide

end cmmheap

namespace cmmheap

theorem big_heap_value_pos (p : Nat) (hp : 1 ≤ p) :
    big_heap.value (p - 1) =
      if p = 1 then 0
      else if p ∈ [4, 16, 64, 256, 1024, 4096, 16384, 65536, 262144, 1048576, 4194304,
        16777216, 67108864, 268435456, 1073741824] then 1
      else 2 := by
  unfold big_heap
  simp only
  have e1 : p - 1 + 1 = p := by omega
  have e2 : (p - 1 = 0) ↔ p = 1 := by omega
  rw [e1]
  simp only [e2]

/-- The sample heap of `2^30 + 1` pairs satisfies the min-max heap property. -/
theorem big_heap_is_heap : MinMaxHeapProp big_heap.value big_heap.length := by
  intro d hd k hk ha1
  have hdlen : d ≤ 1073741825 := hd
  have hk31 : k < 31 := by
    by_contra hc
    have h2 : 2 ^ 31 ≤ 2 ^ k := Nat.pow_le_pow_right (by decide) (by omega)
    have : d / 2 ^ k = 0 := Nat.div_eq_of_lt (by
      have : (2 : Nat) ^ 31 = 2147483648 := by norm_num
      omega)
    omega
  have hd2 : 2 ≤ d := by
    by_contra hc
    have h2 : 2 ^ 1 ≤ 2 ^ k := Nat.pow_le_pow_right (by decide) hk
    have : d / 2 ^ k = 0 := Nat.div_eq_of_lt (by omega)
    omega
  have hvd := big_heap_value_pos d (by omega)
  have hva := big_heap_value_pos (d / 2 ^ k) ha1
  rw [if_neg (by omega)] at hvd
  constructor
  · intro hmin
    have hmin' := (isminlevel_ne_zero_iff _).2 hmin
    rw [hva, hvd]
    by_cases h1 : d / 2 ^ k = 1
    · rw [if_pos h1]; split_ifs <;> decide
    · rw [if_neg h1]
      by_cases hdL : d ∈ [4, 16, 64, 256, 1024, 4096, 16384, 65536, 262144, 1048576, 4194304,
          16777216, 67108864, 268435456, 1073741824]
      · rw [if_pos hdL, if_pos (big_heap_marks_closed d hdL k hk31 hk hmin' h1)]
      · rw [if_neg hdL]
        split_ifs <;> decide
  · intro hmax
    have hnot : d / 2 ^ k ∉ [1, 4, 16, 64, 256, 1024, 4096, 16384, 65536, 262144, 1048576,
        4194304, 16777216, 67108864, 268435456, 1073741824] := by
      intro hc
      exact hmax ((isminlevel_ne_zero_iff _).1 (big_heap_marks_minLevel _ hc))
    rw [List.mem_cons, not_or] at hnot
    rw [hva, if_neg hnot.1, if_neg hnot.2]
    exact big_heap_value_le_two _

end cmmheap

namespace cmmheap

/-- C25 (within the range of `int`): for every heap with `length <= maxlength <= 2^30`, the
checked `mmheap_insert`, `mmheap_removemin` and `mmheap_removemax` meet no overflow, return
what the unchecked functions return, and every array access they make, the recursive
`__bubble_up*` and `__trickle_down*` steps included, is at an index `j` with
`0 <= j < max(length before, length after) <= maxlength`; the four peek functions access
indices below `length` only. The repair routines touch only the slots of positions `1 .. i`
(`__bubble_up` at position `i`) and `1 .. maxi` (`__trickle_down`, as long as `2 * i` and
`2 * maxi + 1` fit an `int`). -/
theorem index_safety_within_int_range {V : Type} [LinearOrder V] (h : minmaxheap V)
    (hlen : h.length ≤ h.maxlength) (hcap : h.maxlength ≤ 1073741824) :
    (∀ (v : V) (t : Int), ∃ log, mmheap_insert_run h v t =
        Except.ok ((mmheap_insert h v t).1, (mmheap_insert h v t).2, log) ∧
      log_within (max h.length (mmheap_insert h v t).2.length) log ∧
      max h.length (mmheap_insert h v t).2.length ≤ h.maxlength) ∧
    (∃ log, mmheap_removemin_run h =
        Except.ok ((mmheap_removemin h).1, (mmheap_removemin h).2, log) ∧
      log_within (max h.length (mmheap_removemin h).2.length) log ∧
      max h.length (mmheap_removemin h).2.length ≤ h.maxlength) ∧
    (∃ log, mmheap_removemax_run h =
        Except.ok ((mmheap_removemax h).1, (mmheap_removemax h).2, log) ∧
      log_within (max h.length (mmheap_removemax h).2.length) log ∧
      max h.length (mmheap_removemax h).2.length ≤ h.maxlength) ∧
    (log_within h.length (mmheap_peekmin_value_log h) ∧
      log_within h.length (mmheap_peekmin_index_log h) ∧
      log_within h.length (mmheap_peekmax_value_log h) ∧
      log_within h.length (mmheap_peekmax_index_log h)) ∧
    (∀ (A : Nat → V) (B : Nat → Int) (i : Nat), 1 ≤ i →
      ∃ log, __bubble_up_run i A B i =
          Except.ok ((__bubble_up A B i).1, (__bubble_up A B i).2, log) ∧
        log_within i log) ∧
    (∀ (A : Nat → V) (B : Nat → Int) (i maxi : Nat), 1 ≤ i → 2 * i ≤ INT_MAX →
      2 * maxi + 1 ≤ INT_MAX →
      ∃ log, __trickle_down_run (maxi + 1) A B i maxi =
          Except.ok ((__trickle_down A B i maxi).1, (__trickle_down A B i maxi).2, log) ∧
        log_within maxi log) :=
  ⟨fun v t => insert_run_ok h v t hlen (by unfold INT_MAX; omega),
    removemin_run_ok h hlen hcap, removemax_run_ok h hlen hcap, peek_logs_ok h,
    fun A B i h1 => bubble_up_run_ok i i A B h1 le_rfl,
    fun A B i maxi h1 hi hmax => trickle_down_run_ok A B i maxi h1 hi hmax⟩

/-- Claim C25 instantiated at `example_heap` (four pairs, capacity six): the hypotheses hold,
and `mmheap_removemin` meets no overflow and stays within the first four slots. -/
theorem index_safety_within_int_range_witness :
    (example_heap.length ≤ example_heap.maxlength ∧ example_heap.maxlength ≤ 1073741824) ∧
    ∃ log, mmheap_removemin_run example_heap =
        Except.ok ((mmheap_removemin example_heap).1, (mmheap_removemin example_heap).2, log) ∧
      log_within (max example_heap.length (mmheap_removemin example_heap).2.length) log ∧
      max example_heap.length (mmheap_removemin example_heap).2.length ≤
        example_heap.maxlength :=
  ⟨⟨by decide, by decide⟩,
    (index_safety_within_int_range example_heap (by decide) (by decide)).2.1⟩

/-- C25 (counterexample): `big_heap` is a min-max heap with `length = maxlength = 2^30 + 1`.
`mmheap_removemin` moves the last pair to the root and trickles it down along the positions
1, 4, 16, ..., `2^30`; in the call at position `2^30` the statement `lchild = i << 1` overflows
the `int`, so the checked evaluation stops there: the call has undefined behaviour and no
bound on the indices accessed afterwards holds. If the overflow wraps around, `lchild` is
`-2^31`, the test `lchild > maxi` fails, and the index `lchild - 1` of the next array read is
`2^31 - 1`, which is not below `maxlength`. -/
theorem index_safety_fails_beyond_int_range :
    (0 ≤ big_heap.length ∧ big_heap.length ≤ big_heap.maxlength ∧ 1 ≤ big_heap.maxlength) ∧
    MinMaxHeapProp big_heap.value big_heap.length ∧
    mmheap_removemin_run big_heap = Except.error fault.overflow ∧
    int_shl1 1073741824 = Except.error fault.overflow ∧
    int_wrap (1073741824 * 2) = -2147483648 ∧
    ¬ (int_wrap (1073741824 * 2) > ((big_heap.length : Int) - 1)) ∧
    int_wrap (int_wrap (1073741824 * 2) - 1) = 2147483647 ∧
    ¬ (int_wrap (int_wrap (1073741824 * 2) - 1) < (big_heap.maxlength : Int)) :=
  ⟨by decide, big_heap_is_heap, eq_overflow_of_stops _ (by decide),
    eq_overflow_of_stops _ (by decide), by decide, by decide, by decide, by decide⟩

/-- C26 (within the range of `int`): for every position `i >= 1`, `__bubble_up(A, B, i)`
returns within a budget of `i` calls, with the result of the unchecked function: each
recursive call is at `i >> 2` or starts from `i >> 1`, both smaller than `i`, and a call
whose `i >> 2` is 0 returns at once. `__trickle_down(A, B, i, maxi)` returns within a budget
of `maxi + 1` calls when `2 * i` and `2 * maxi + 1` fit an `int`: a recursive call is made
from a candidate `m` that is a grandchild, and then `4 * i <= m <= maxi` and `i < m`. -/
theorem repair_terminates_within_int_range {V : Type} [LinearOrder V] (A : Nat → V)
    (B : Nat → Int) (i maxi : Nat) (h1 : 1 ≤ i) :
    (∃ log, __bubble_up_run i A B i =
      Except.ok ((__bubble_up A B i).1, (__bubble_up A B i).2, log)) ∧
    (∃ log, __bubble_up_min_run i A B i =
      Except.ok ((__bubble_up_min A B i).1, (__bubble_up_min A B i).2, log)) ∧
    (∃ log, __bubble_up_max_run i A B i =
      Except.ok ((__bubble_up_max A B i).1, (__bubble_up_max A B i).2, log)) ∧
    (i >>> 2 < i ∧ i >>> 1 < i) ∧
    (i >>> 2 = 0 → ∀ f, __bubble_up_min_run (f + 1) A B i = Except.ok (A, B, []) ∧
      __bubble_up_max_run (f + 1) A B i = Except.ok (A, B, [])) ∧
    (2 * i ≤ INT_MAX → 2 * maxi + 1 ≤ INT_MAX →
      ∃ log, __trickle_down_run (maxi + 1) A B i maxi =
        Except.ok ((__trickle_down A B i maxi).1, (__trickle_down A B i maxi).2, log)) ∧
    (2 * i ≤ maxi → __trickle_down_min_m A i maxi > 2 * i + 1 →
      4 * i ≤ __trickle_down_min_m A i maxi ∧ __trickle_down_min_m A i maxi ≤ maxi ∧
      i < __trickle_down_min_m A i maxi) ∧
    (2 * i ≤ maxi → __trickle_down_max_m A i maxi > 2 * i + 1 →
      4 * i ≤ __trickle_down_max_m A i maxi ∧ __trickle_down_max_m A i maxi ≤ maxi ∧
      i < __trickle_down_max_m A i maxi) := by
  refine ⟨?_, ?_, ?_, ?_, ?_, ?_, ?_, ?_⟩
  · obtain ⟨log, h, _⟩ := bubble_up_run_ok i i A B h1 le_rfl
    exact ⟨log, h⟩
  · obtain ⟨log, h, _⟩ := bubble_up_min_run_ok i i A B h1 le_rfl
    exact ⟨log, h⟩
  · obtain ⟨log, h, _⟩ := bubble_up_max_run_ok i i A B h1 le_rfl
    exact ⟨log, h⟩
  · simp only [Nat.shiftRight_eq_div_pow]
    have e : i / 2 ^ 2 = i / 4 := by norm_num
    rw [e, pow_one]
    omega
  · intro h0 f
    simp only [__bubble_up_min_run, __bubble_up_max_run, h0, ne_eq, not_true_eq_false,
      if_false, and_self]
  · intro hi hmax
    obtain ⟨log, h, _⟩ := trickle_down_run_ok A B i maxi h1 hi hmax
    exact ⟨log, h⟩
  · intro h2 hgc
    obtain ⟨hmn, hmS, _⟩ := trickle_down_min_m_spec A i maxi h1 h2
    simp only [List.mem_cons, List.mem_singleton, List.not_mem_nil, or_false] at hmS
    omega
  · intro h2 hgc
    rw [trickle_down_max_m_dual] at hgc ⊢
    obtain ⟨hmn, hmS, _⟩ := trickle_down_min_m_spec (V := Vᵒᵈ) A i maxi h1 h2
    simp only [List.mem_cons, List.mem_singleton, List.not_mem_nil, or_false] at hmS
    omega

/-- Claim C26 instantiated at `example_heap` and position 4: `__bubble_up` and
`__trickle_down` return within their budgets. -/
theorem repair_terminates_within_int_range_witness :
    1 ≤ 4 ∧
    (∃ log, __bubble_up_run 4 example_heap.value example_heap.index 4 =
      Except.ok ((__bubble_up example_heap.value example_heap.index 4).1,
        (__bubble_up example_heap.value example_heap.index 4).2, log)) ∧
    (∃ log, __trickle_down_run (4 + 1) example_heap.value example_heap.index 4 4 =
      Except.ok ((__trickle_down example_heap.value example_heap.index 4 4).1,
        (__trickle_down example_heap.value example_heap.index 4 4).2, log)) :=
  ⟨by decide,
    (repair_terminates_within_int_range example_heap.value example_heap.index 4 4
      (by decide)).1,
    (repair_terminates_within_int_range example_heap.value example_heap.index 4 4
      (by decide)).2.2.2.2.2.1 (by decide) (by decide)⟩

/-- C26 (counterexample): at position `i = 2^30` the first statement of `__trickle_down_min`
and of `__trickle_down_max`, `lchild = i << 1`, overflows the `int`. For every array content
and every `maxi` the checked `__trickle_down` stops there whatever the budget is, so the call
has undefined behaviour and returns no result; `4 * i` is not an `int` either. A call at
position 1 with `maxi = 2^30` on the arrays that `mmheap_removemin` hands over for `big_heap`
recurses down to that position and stops there in the same way. -/
theorem trickle_down_overflows_at_large_position :
    (1 : Nat) ≤ 1073741824 ∧ 1073741824 ≤ INT_MAX ∧ ¬ 4 * 1073741824 ≤ INT_MAX ∧
    (∀ (fuel : Nat) (A : Nat → Int) (B : Nat → Int) (maxi : Nat),
      __trickle_down_run (fuel + 1) A B 1073741824 maxi = Except.error fault.overflow) ∧
    (∀ (A : Nat → Int) (B : Nat → Int) (maxi : Nat),
      __trickle_down_run 0 A B 1073741824 maxi = Except.error fault.budget) ∧
    __trickle_down_run (1073741824 + 1)
      (Function.update big_heap.value 0 (big_heap.value 1073741824))
      (Function.update big_heap.index 0 (big_heap.index 1073741824)) 1 1073741824 =
      Except.error fault.overflow := by
  have hs : int_shl1 1073741824 = Except.error fault.overflow :=
    eq_overflow_of_stops _ (by decide)
  refine ⟨by decide, by decide, by decide, ?_, ?_, eq_overflow_of_stops _ (by decide)⟩
  · intro fuel A B maxi
    unfold __trickle_down_run
    split_ifs
    · simp only [__trickle_down_min_run, hs]
      rfl
    · simp only [__trickle_down_max_run, hs]
      rfl
  · intro A B maxi
    unfold __trickle_down_run
    split_ifs <;> rfl

end cmmheap

namespace cmmheap

/-! ## The checked trickle-down under the exact conditions on the positions -/

/-- The checked candidate computation at a position `i` with a left child returns the
candidate of `__trickle_down_min` and reads only slots of positions `1 .. maxi`, when the
grandchild positions fit an `int` in case `i` has a right child. -/
theorem trickle_down_min_m_run_local {V : Type} [LinearOrder V] (A : Nat → V) (i maxi : Nat)
    (h1 : 1 ≤ i) (h2 : 2 * i ≤ maxi) (hov : 2 * i + 1 ≤ maxi → 4 * i + 3 ≤ INT_MAX) :
    ∃ log, __trickle_down_min_m_run A (2 * i) (2 * i + 1) maxi =
        Except.ok (__trickle_down_min_m A i maxi, log) ∧
      log_within maxi log := by
  unfold __trickle_down_min_m_run __trickle_down_min_m
  simp only [Nat.shiftLeft_eq, pow_one]
  have e1 : i * 2 = 2 * i := by omega
  have e2 : 2 * i * 2 = 4 * i := by omega
  have e3 : (2 * i + 1) * 2 = 4 * i + 2 := by omega
  simp only [e1, e2, e3]
  by_cases hr : 2 * i + 1 ≤ maxi
  · rw [if_pos hr, if_pos hr]
    have hov' := hov hr
    have s1 : int_shl1 (2 * i) = Except.ok (4 * i) := by
      rw [int_shl1_ok _ (by omega)]; congr 1; omega
    have s2 : int_inc (4 * i) = Except.ok (4 * i + 1) := int_inc_ok _ (by omega)
    have s3 : int_shl1 (2 * i + 1) = Except.ok (4 * i + 2) := by
      rw [int_shl1_ok _ (by omega)]; congr 1; omega
    have s4 : int_inc (4 * i + 2) = Except.ok (4 * i + 2 + 1) := int_inc_ok _ (by omega)
    simp only [s1, s2, s3, s4, except_bind_ok]
    have h0 : (1 ≤ ((if A (2 * i - 1) < A (2 * i + 1 - 1) then 2 * i else 2 * i + 1,
          [slot_of (2 * i), slot_of (2 * i + 1)]) : Nat × List Int).1 ∧
        ((if A (2 * i - 1) < A (2 * i + 1 - 1) then 2 * i else 2 * i + 1,
          [slot_of (2 * i), slot_of (2 * i + 1)]) : Nat × List Int).1 ≤ maxi) ∧
        log_within maxi ((if A (2 * i - 1) < A (2 * i + 1 - 1) then 2 * i else 2 * i + 1,
          [slot_of (2 * i), slot_of (2 * i + 1)]) : Nat × List Int).2 := by
      refine ⟨?_, log_within_pair (by omega) h2 (by omega) hr⟩
      show 1 ≤ (if A (2 * i - 1) < A (2 * i + 1 - 1) then 2 * i else 2 * i + 1) ∧
        (if A (2 * i - 1) < A (2 * i + 1 - 1) then 2 * i else 2 * i + 1) ≤ maxi
      split_ifs <;> omega
    have k1 := trickle_down_min_m_step_ok A maxi _ (4 * i) (by omega) h0.1 h0.2
    have k2 := trickle_down_min_m_step_ok A maxi _ (4 * i + 1) (by omega) k1.1 k1.2
    have k3 := trickle_down_min_m_step_ok A maxi _ (4 * i + 2) (by omega) k2.1 k2.2
    have k4 := trickle_down_min_m_step_ok A maxi _ (4 * i + 2 + 1) (by omega) k3.1 k3.2
    refine ⟨_, congrArg Except.ok (Prod.ext ?_ rfl), k4.2⟩
    simp only [trickle_down_min_m_step_fst]
  · rw [if_neg hr, if_neg hr]
    exact ⟨_, rfl, log_within_nil _⟩

/-- The checked `__trickle_down_min` returns what the unchecked one returns and touches only
slots of positions `1 .. maxi`, when the positions it can visit (a set `S` closed under
grandchildren within `maxi`) have children and grandchildren that fit an `int`, and the
budget is not exhausted. -/
theorem trickle_down_min_run_safe {V : Type} [LinearOrder V] (maxi : Nat) (S : Nat → Prop)
    (hS : ∀ p, S p → 2 * p ≤ INT_MAX ∧ (2 * p + 1 ≤ maxi → 4 * p + 3 ≤ INT_MAX))
    (hstep : ∀ p g, S p → 4 * p ≤ g → g ≤ 4 * p + 3 → g ≤ maxi → S g) (f : Nat) :
    ∀ (i : Nat) (A : Nat → V) (B : Nat → Int), 1 ≤ i → 1 ≤ f → maxi < f + i → S i →
      ∃ log, __trickle_down_min_run f A B i maxi =
          Except.ok ((__trickle_down_min_fuel f A B i maxi).1,
            (__trickle_down_min_fuel f A B i maxi).2, log) ∧
        log_within maxi log := by
  induction f with
  | zero => intro i A B _ h _ _; omega
  | succ f ih =>
    intro i A B h1 _ hf hSi
    have hi := (hS i hSi).1
    simp only [__trickle_down_min_run, __trickle_down_min_fuel, Nat.shiftLeft_eq,
      Nat.shiftRight_eq_div_pow, pow_one]
    have e1 : i * 2 = 2 * i := by omega
    simp only [e1]
    rw [int_shl1_ok i hi, except_bind_ok]
    by_cases hl : 2 * i > maxi
    · rw [if_pos hl, if_pos hl]
      exact ⟨_, rfl, log_within_nil _⟩
    · rw [if_neg hl, if_neg hl]
      have hI : 2 * i + 1 ≤ INT_MAX := by unfold INT_MAX at hi ⊢; omega
      rw [int_inc_ok (2 * i) hI, except_bind_ok]
      obtain ⟨mlog, hmrun, hmlog⟩ :=
        trickle_down_min_m_run_local A i maxi h1 (by omega) (hS i hSi).2
      rw [hmrun, except_bind_ok]
      have hspec := trickle_down_min_m_spec A i maxi h1 (by omega)
      generalize __trickle_down_min_m A i maxi = m at hspec ⊢
      obtain ⟨hmn, hmS, _⟩ := hspec
      simp only [List.mem_cons, List.mem_singleton, List.not_mem_nil, or_false] at hmS
      have hm1 : 1 ≤ m := by omega
      have him : log_within maxi (mlog ++ [slot_of m, slot_of i]) :=
        log_within_append hmlog (log_within_pair hm1 hmn h1 (by omega))
      simp only []
      by_cases hgc : m > 2 * i + 1
      · rw [if_pos hgc, if_pos hgc]
        by_cases hlt : A (m - 1) < A (i - 1)
        · rw [if_pos hlt, if_pos hlt]
          obtain ⟨log, hrun, hlog⟩ := ih m
            (if (__ab_swap A B (i - 1) (m - 1)).1 (m - 1) >
                (__ab_swap A B (i - 1) (m - 1)).1 (m / 2 - 1) then
              __ab_swap (__ab_swap A B (i - 1) (m - 1)).1 (__ab_swap A B (i - 1) (m - 1)).2
                (m - 1) (m / 2 - 1)
            else __ab_swap A B (i - 1) (m - 1)).1
            (if (__ab_swap A B (i - 1) (m - 1)).1 (m - 1) >
                (__ab_swap A B (i - 1) (m - 1)).1 (m / 2 - 1) then
              __ab_swap (__ab_swap A B (i - 1) (m - 1)).1 (__ab_swap A B (i - 1) (m - 1)).2
                (m - 1) (m / 2 - 1)
            else __ab_swap A B (i - 1) (m - 1)).2 hm1 (by omega) (by omega)
            (hstep i m hSi (by omega) (by omega) hmn)
          rw [hrun, except_map_ok]
          refine ⟨_, rfl, log_within_append (log_within_append (log_within_append
            (log_within_append him (log_within_swap h1 (by omega) hm1 hmn))
            (log_within_pair hm1 hmn (by omega) (by omega))) ?_) hlog⟩
          split_ifs
          · exact log_within_swap hm1 hmn (by omega) (by omega)
          · exact log_within_nil _
        · rw [if_neg hlt, if_neg hlt]
          exact ⟨_, rfl, him⟩
      · rw [if_neg hgc, if_neg hgc]
        by_cases hlt : A (m - 1) < A (i - 1)
        · rw [if_pos hlt, if_pos hlt]
          exact ⟨_, rfl, log_within_append him (log_within_swap h1 (by omega) hm1 hmn)⟩
        · rw [if_neg hlt, if_neg hlt]
          exact ⟨_, rfl, him⟩

end cmmheap

namespace cmmheap

theorem minLevel_two_pow_thirty : minLevel 1073741824 :=
  (isminlevel_ne_zero_iff 1073741824).1 (by decide)

theorem minLevel_quarter (g : Nat) (h : 4 ≤ g) : minLevel (g / 4) ↔ minLevel g := by
  have e : g / 4 = g / 2 / 2 := by omega
  rw [e, minLevel_half (g / 2) (by omega), minLevel_half g (by omega), not_not]

/-- The checked `__trickle_down` from a position on a max level returns what
`__trickle_down` returns, when `maxi <= 2^30`. -/
theorem trickle_down_run_max_level {V : Type} [LinearOrder V] (A : Nat → V) (B : Nat → Int)
    (i maxi : Nat) (h1 : 1 ≤ i) (hlev : ¬ minLevel i) (hi : i < 1073741824)
    (hmax : maxi ≤ 1073741824) :
    ∃ log, __trickle_down_run (maxi + 1) A B i maxi =
        Except.ok ((__trickle_down A B i maxi).1, (__trickle_down A B i maxi).2, log) ∧
      log_within maxi log := by
  have hz : ¬ isminlevel (i : Int) ≠ 0 := fun h => hlev ((isminlevel_ne_zero_iff i).1 h)
  unfold __trickle_down_run __trickle_down __trickle_down_max
  rw [if_neg hz, if_neg hz]
  rw [← trickle_down_max_fuel_stable maxi (maxi + 1) maxi i A B h1 (by omega) (by omega)]
  rw [trickle_down_max_run_dual, trickle_down_max_fuel_dual]
  refine trickle_down_min_run_safe (V := Vᵒᵈ) maxi
    (fun p => 1 ≤ p ∧ ¬ minLevel p ∧ p < 1073741824) ?_ ?_ (maxi + 1) i A B h1 (by omega)
    (by omega) ⟨h1, hlev, hi⟩
  · intro p hp
    unfold INT_MAX
    omega
  · intro p g hp h4 _ hg
    have hq : g / 4 = p := by omega
    have hgl : ¬ minLevel g := by
      rw [← minLevel_quarter g (by omega), hq]; exact hp.2.1
    refine ⟨by omega, hgl, ?_⟩
    have hne : g ≠ 1073741824 := fun h => hgl (h ▸ minLevel_two_pow_thirty)
    omega

/-- The checked `mmheap_removemin` returns what `mmheap_removemin` returns on a heap of at
most `2^30` pairs. -/
theorem removemin_run_eq {V : Type} [LinearOrder V] (h : minmaxheap V)
    (hcap : h.length ≤ 1073741824) :
    ∃ log, mmheap_removemin_run h =
      Except.ok ((mmheap_removemin h).1, (mmheap_removemin h).2, log) := by
  unfold mmheap_removemin_run mmheap_removemin
  by_cases hf : h.length = 0
  · rw [if_pos hf, if_pos hf]
    exact ⟨_, rfl⟩
  · rw [if_neg hf, if_neg hf]
    simp only []
    obtain ⟨log, hrun, _⟩ := trickle_down_run_ok
      (Function.update h.value 0 (h.value (h.length - 1)))
      (Function.update h.index 0 (h.index (h.length - 1))) 1 (h.length - 1) le_rfl
      (by unfold INT_MAX; omega) (by unfold INT_MAX; omega)
    rw [hrun, except_map_ok]
    exact ⟨_, rfl⟩

/-- The checked `mmheap_removemax` returns what `mmheap_removemax` returns on a heap of at
most `2^30 + 1` pairs. -/
theorem removemax_run_eq {V : Type} [LinearOrder V] (h : minmaxheap V)
    (hcap : h.length ≤ 1073741825) :
    ∃ log, mmheap_removemax_run h =
      Except.ok ((mmheap_removemax h).1, (mmheap_removemax h).2, log) := by
  unfold mmheap_removemax_run mmheap_removemax
  by_cases hf : h.length = 0
  · rw [if_pos hf, if_pos hf]
    exact ⟨_, rfl⟩
  · rw [if_neg hf, if_neg hf]
    simp only []
    have key : ∃ log, __trickle_down_run (h.length - 1 + 1)
        (Function.update h.value (mmheap_removemax_iins h - 1) (h.value (h.length - 1)))
        (Function.update h.index (mmheap_removemax_iins h - 1) (h.index (h.length - 1)))
        (mmheap_removemax_iins h) (h.length - 1) =
        Except.ok ((__trickle_down
          (Function.update h.value (mmheap_removemax_iins h - 1) (h.value (h.length - 1)))
          (Function.update h.index (mmheap_removemax_iins h - 1) (h.index (h.length - 1)))
          (mmheap_removemax_iins h) (h.length - 1)).1, (__trickle_down
          (Function.update h.value (mmheap_removemax_iins h - 1) (h.value (h.length - 1)))
          (Function.update h.index (mmheap_removemax_iins h - 1) (h.index (h.length - 1)))
          (mmheap_removemax_iins h) (h.length - 1)).2, log) := by
      rcases removemax_iins_cases h (by omega) with ⟨hl, hi⟩ | ⟨hl, hi⟩ | ⟨hl, _, hi⟩ |
        ⟨hl, _, hi⟩
      · obtain ⟨log, hrun, _⟩ := trickle_down_run_ok
          (Function.update h.value (mmheap_removemax_iins h - 1) (h.value (h.length - 1)))
          (Function.update h.index (mmheap_removemax_iins h - 1) (h.index (h.length - 1)))
          (mmheap_removemax_iins h) (h.length - 1) (by omega)
          (by unfold INT_MAX; omega) (by unfold INT_MAX; omega)
        exact ⟨log, hrun⟩
      · obtain ⟨log, hrun, _⟩ := trickle_down_run_ok
          (Function.update h.value (mmheap_removemax_iins h - 1) (h.value (h.length - 1)))
          (Function.update h.index (mmheap_removemax_iins h - 1) (h.index (h.length - 1)))
          (mmheap_removemax_iins h) (h.length - 1) (by omega)
          (by unfold INT_MAX; omega) (by unfold INT_MAX; omega)
        exact ⟨log, hrun⟩
      · obtain ⟨log, hrun, _⟩ := trickle_down_run_max_level
          (Function.update h.value (mmheap_removemax_iins h - 1) (h.value (h.length - 1)))
          (Function.update h.index (mmheap_removemax_iins h - 1) (h.index (h.length - 1)))
          (mmheap_removemax_iins h) (h.length - 1) (by omega)
          (by rw [hi]; intro hc; exact absurd ((isminlevel_ne_zero_iff 2).2 hc) (by decide))
          (by omega) (by omega)
        exact ⟨log, hrun⟩
      · obtain ⟨log, hrun, _⟩ := trickle_down_run_max_level
          (Function.update h.value (mmheap_removemax_iins h - 1) (h.value (h.length - 1)))
          (Function.update h.index (mmheap_removemax_iins h - 1) (h.index (h.length - 1)))
          (mmheap_removemax_iins h) (h.length - 1) (by omega)
          (by rw [hi]; intro hc; exact absurd ((isminlevel_ne_zero_iff 3).2 hc) (by decide))
          (by omega) (by omega)
        exact ⟨log, hrun⟩
    obtain ⟨log, hrun⟩ := key
    rw [hrun, except_map_ok]
    exact ⟨_, rfl⟩

/-- On a min-max heap of `i` slots `__bubble_up` from position `i` changes nothing. -/
theorem bubble_up_noop {V : Type} [LinearOrder V] (A : Nat → V) (B : Nat → Int) (i : Nat)
    (h1 : 1 ≤ i) (hheap : MinMaxHeapProp A i) : __bubble_up A B i = (A, B) := by
  have hmin : minLevel i → ∀ f, __bubble_up_min_fuel f A B i = (A, B) := by
    intro hl f
    cases f with
    | zero => rfl
    | succ f =>
      simp only [__bubble_up_min_fuel, Nat.shiftRight_eq_div_pow]
      have e : i / 2 ^ 2 = i / 4 := by norm_num
      rw [e]
      by_cases hg : i / 4 ≠ 0
      · rw [if_pos hg]
        have hd := hheap i le_rfl 2 (by omega) (by rw [e]; omega)
        rw [e] at hd
        have := hd.1 ((minLevel_quarter i (by omega)).2 hl)
        rw [if_neg (not_lt.2 this)]
      · rw [if_neg hg]
  have hmax : ¬ minLevel i → ∀ f, __bubble_up_max_fuel f A B i = (A, B) := by
    intro hl f
    cases f with
    | zero => rfl
    | succ f =>
      simp only [__bubble_up_max_fuel, Nat.shiftRight_eq_div_pow]
      have e : i / 2 ^ 2 = i / 4 := by norm_num
      rw [e]
      by_cases hg : i / 4 ≠ 0
      · rw [if_pos hg]
        have hd := hheap i le_rfl 2 (by omega) (by rw [e]; omega)
        rw [e] at hd
        have := hd.2 (fun hc => hl ((minLevel_quarter i (by omega)).1 hc))
        rw [if_neg (not_lt.2 this)]
      · rw [if_neg hg]
  unfold __bubble_up __bubble_up_min __bubble_up_max
  simp only [Nat.shiftRight_eq_div_pow, pow_one]
  by_cases hl : minLevel i
  · rw [if_pos ((isminlevel_ne_zero_iff i).2 hl)]
    by_cases hp : i / 2 ≠ 0
    · rw [if_pos hp]
      have hd := hheap i le_rfl 1 le_rfl (by rw [pow_one]; omega)
      rw [pow_one] at hd
      have := hd.2 (fun hc => ((minLevel_half i (by omega)).1 hc) hl)
      rw [if_neg (not_lt.2 this)]
      exact hmin hl i
    · rw [if_neg hp]
      exact hmin hl i
  · rw [if_neg (fun hc => hl ((isminlevel_ne_zero_iff i).1 hc))]
    by_cases hp : i / 2 ≠ 0
    · rw [if_pos hp]
      have hd := hheap i le_rfl 1 le_rfl (by rw [pow_one]; omega)
      rw [pow_one] at hd
      have := hd.1 ((minLevel_half i (by omega)).2 hl)
      rw [if_neg (not_lt.2 this)]
      exact hmax hl i
    · rw [if_neg hp]
      exact hmax hl i

/-- Inserting the pair that slot `length` already holds into a heap whose first
`length + 1` slots form a min-max heap only increments `length`. -/
theorem insert_run_noop {V : Type} [LinearOrder V] (h : minmaxheap V)
    (hlen : h.length < h.maxlength) (hcap : h.maxlength ≤ INT_MAX)
    (hheap : MinMaxHeapProp h.value (h.length + 1)) :
    (mmheap_insert_run h (h.value h.length) (h.index h.length)).map (fun s => s.2.1) =
      Except.ok
        { value := h.value, index := h.index, length := h.length + 1,
          maxlength := h.maxlength } := by
  obtain ⟨log, hrun, _⟩ := insert_run_ok h (h.value h.length) (h.index h.length)
    (by omega) hcap
  rw [hrun, except_map_ok]
  unfold mmheap_insert
  rw [if_neg (by omega)]
  simp only [Function.update_eq_self]
  rw [bubble_up_noop h.value h.index (h.length + 1) (by omega) hheap]

theorem heapProp_mono {V : Type} [LinearOrder V] (A : Nat → V) (n m : Nat) (hnm : n ≤ m)
    (h : MinMaxHeapProp A m) : MinMaxHeapProp A n :=
  fun d hd k hk ha => h d (by omega) k hk ha

end cmmheap

namespace cmmheap

/-! ## The sample heap of `2^30 + 2` pairs is a min-max heap -/

theorem big_heap_max_value_ge_one (j : Nat) (hj : j ≠ 0) : 1 ≤ big_heap_max.value j := by
  unfold big_heap_max
  simp only
  rw [if_neg hj]
  split_ifs <;> decide

theorem big_heap_max_marks_maxLevel :
    ∀ p, p ∈ [2, 8, 32, 128, 512, 2048, 8192, 32768, 131072, 524288, 2097152,
      8388608, 33554432, 134217728, 536870912] → isminlevel (p : Nat) = 0 := by
  decide

theorem big_heap_max_marks_closed :
    ∀ d, d ∈ [2, 8, 32, 128, 512, 2048, 8192, 32768, 131072, 524288, 2097152,
      8388608, 33554432, 134217728, 536870912] → ∀ k, k < 31 → 1 ≤ k →
      isminlevel (d / 2 ^ k : Nat) = 0 → 1 ≤ d / 2 ^ k →
      d / 2 ^ k ∈ [2, 8, 32, 128, 512, 2048, 8192, 32768, 131072, 524288, 2097152,
        8388608, 33554432, 134217728, 536870912] := by
  decide

end cmmheap

namespace cmmheap

theorem big_heap_max_value_pos (p : Nat) (hp : 1 ≤ p) :
    big_heap_max.value (p - 1) =
      if p = 1 then 0
      else if p ∈ [2, 8, 32, 128, 512, 2048, 8192, 32768, 131072, 524288, 2097152,
        8388608, 33554432, 134217728, 536870912] then 2
      else 1 := by
  unfold big_heap_max
  simp only
  have e1 : p - 1 + 1 = p := by omega
  have e2 : (p - 1 = 0) ↔ p = 1 := by omega
  rw [e1]
  simp only [e2]

/-- The sample heap of `2^30 + 2` pairs satisfies the min-max heap property. -/
theorem big_heap_max_is_heap : MinMaxHeapProp big_heap_max.value big_heap_max.length := by
  intro d hd k hk ha1
  have hdlen : d ≤ 1073741826 := hd
  have hk31 : k < 31 := by
    by_contra hc
    have h2 : 2 ^ 31 ≤ 2 ^ k := Nat.pow_le_pow_right (by decide) (by omega)
    have : d / 2 ^ k = 0 := Nat.div_eq_of_lt (by
      have : (2 : Nat) ^ 31 = 2147483648 := by norm_num
      omega)
    omega
  have hd2 : 2 ≤ d := by
    by_contra hc
    have h2 : 2 ^ 1 ≤ 2 ^ k := Nat.pow_le_pow_right (by decide) hk
    have : d / 2 ^ k = 0 := Nat.div_eq_of_lt (by omega)
    omega
  have hvd := big_heap_max_value_pos d (by omega)
  have hva := big_heap_max_value_pos (d / 2 ^ k) ha1
  rw [if_neg (by omega)] at hvd
  constructor
  · intro hmin
    have hmin' := (isminlevel_ne_zero_iff _).2 hmin
    have hnot : d / 2 ^ k ∉ [2, 8, 32, 128, 512, 2048, 8192, 32768, 131072, 524288, 2097152,
        8388608, 33554432, 134217728, 536870912] := by
      intro hc
      exact hmin' (big_heap_max_marks_maxLevel _ hc)
    rw [hva, hvd, if_neg hnot]
    split_ifs <;> decide
  · intro hmax
    have hmax' : isminlevel ((d / 2 ^ k : Nat) : Int) = 0 := by
      by_contra hc
      exact hmax ((isminlevel_ne_zero_iff _).1 hc)
    have h1 : d / 2 ^ k ≠ 1 := by
      intro hc
      rw [hc] at hmax
      exact hmax minLevel_one
    rw [hva, hvd, if_neg h1]
    by_cases hdL : d ∈ [2, 8, 32, 128, 512, 2048, 8192, 32768, 131072, 524288, 2097152,
        8388608, 33554432, 134217728, 536870912]
    · rw [if_pos hdL, if_pos (big_heap_max_marks_closed d hdL k hk31 hk hmax' ha1)]
    · rw [if_neg hdL]
      split_ifs <;> decide

/-! ## Feeding the slots of a min-max heap in order rebuilds it -/

theorem ksmallest_for_run_rebuild {V : Type} [LinearOrder V] (fv : Nat → V) (fi : Nat → Int)
    (x : Nat → V) (k : Nat) (hk : k ≤ INT_MAX) :
    ∀ n, n ≤ k → MinMaxHeapProp fv n → (∀ j, j < n → x j = fv j ∧ fi j = (j : Int)) →
      ksmallest_for_run x k (mmheap_create fv fi k) n =
        Except.ok { value := fv, index := fi, length := n, maxlength := k } := by
  intro n
  induction n with
  | zero => intro _ _ _; rfl
  | succ n ih =>
    intro hn hheap hx
    rw [ksmallest_for_run, ih (by omega) (heapProp_mono fv n (n + 1) (by omega) hheap)
      (fun j hj => hx j (by omega)), except_bind_ok]
    unfold ksmallest_body_run mmheap_getlength
    rw [if_neg (by show n ≠ k; omega)]
    have h1 := insert_run_noop (V := V)
      { value := fv, index := fi, length := n, maxlength := k } (by show n < k; omega) hk
      hheap
    rw [(hx n (by omega)).1, ← (hx n (by omega)).2]
    simp only [] at h1
    rw [h1, except_bind_ok, int_inc_ok n (by omega), except_map_ok]

theorem klargest_for_run_rebuild {V : Type} [LinearOrder V] (fv : Nat → V) (fi : Nat → Int)
    (x : Nat → V) (k : Nat) (hk : k ≤ INT_MAX) :
    ∀ n, n ≤ k → MinMaxHeapProp fv n → (∀ j, j < n → x j = fv j ∧ fi j = (j : Int)) →
      klargest_for_run x k (mmheap_create fv fi k) n =
        Except.ok { value := fv, index := fi, length := n, maxlength := k } := by
  intro n
  induction n with
  | zero => intro _ _ _; rfl
  | succ n ih =>
    intro hn hheap hx
    rw [klargest_for_run, ih (by omega) (heapProp_mono fv n (n + 1) (by omega) hheap)
      (fun j hj => hx j (by omega)), except_bind_ok]
    unfold klargest_body_run mmheap_getlength
    rw [if_neg (by show n ≠ k; omega)]
    have h1 := insert_run_noop (V := V)
      { value := fv, index := fi, length := n, maxlength := k } (by show n < k; omega) hk
      hheap
    rw [(hx n (by omega)).1, ← (hx n (by omega)).2]
    simp only [] at h1
    rw [h1, except_bind_ok, int_inc_ok n (by omega), except_map_ok]

theorem removemin_run_big_heap :
    mmheap_removemin_run big_heap = Except.error fault.overflow :=
  eq_overflow_of_stops _ (by decide)

theorem removemax_run_big_heap_max :
    mmheap_removemax_run big_heap_max = Except.error fault.overflow :=
  eq_overflow_of_stops _ (by decide)

/-- Fed the `2^30 + 1` values of `big_heap` in the order of its slots, with `k = 2^30 + 1`,
the checked `ksmallest` stops at a signed overflow: the `for` loop rebuilds `big_heap`, and
the first `mmheap_removemin` of the `while` loop overflows. -/
theorem ksmallest_run_big :
    ksmallest_run big_heap.value big_heap.index big_heap.value 1073741825 1073741825
      (fun _ => none) (fun _ => 0) = Except.error fault.overflow := by
  unfold ksmallest_run
  simp only []
  rw [ksmallest_for_run_rebuild big_heap.value big_heap.index big_heap.value 1073741825
    (by decide) 1073741825 le_rfl big_heap_is_heap (fun j _ => ⟨rfl, rfl⟩), except_bind_ok]
  show ksmallest_while_run (1073741825 + 1) big_heap 0 _ _ = _
  rw [ksmallest_while_run, if_pos (by decide)]
  simp only []
  rw [removemin_run_big_heap]
  rfl

/-- Fed the `2^30 + 1` values of `big_heap` in the order of its slots and then a 3, with
`k = 2^30 + 1`, the checked `klargest` stops at a signed overflow: the `for` loop rebuilds
`big_heap`, and at the last input the `mmheap_removemin` that makes room overflows. -/
theorem klargest_run_big :
    klargest_run big_heap.value big_heap.index big_input 1073741826 1073741825
      (fun _ => none) (fun _ => 0) = Except.error fault.overflow := by
  unfold klargest_run
  simp only []
  show (klargest_for_run big_input 1073741825 _ (1073741825 + 1)).bind _ = _
  rw [klargest_for_run, klargest_for_run_rebuild big_heap.value big_heap.index big_input
    1073741825 (by decide) 1073741825 le_rfl big_heap_is_heap (fun j hj => ⟨by
      unfold big_input; rw [if_neg (by omega)], rfl⟩), except_bind_ok]
  have hb : klargest_body_run big_input 1073741825 big_heap 1073741825 =
      Except.error fault.overflow := by
    unfold klargest_body_run
    rw [if_pos (by decide)]
    have hp : mmheap_peekmin_value big_heap = some 0 := by decide
    rw [hp]
    simp only []
    rw [if_pos (by decide), removemin_run_big_heap]
    rfl
  show ((klargest_body_run big_input 1073741825 big_heap 1073741825).bind _).bind _ = _
  rw [hb]
  rfl

end cmmheap

namespace cmmheap

/-! ## The checked selection routines agree with the unchecked ones for `k <= 2^30` -/

theorem ksmallest_body_run_ok {V : Type} [LinearOrder V] (x : Nat → V) (k : Nat)
    (h : minmaxheap V) (i : Nat) (hlen : h.length ≤ h.maxlength) (hmax : h.maxlength = k)
    (hcap : k ≤ 1073741824) :
    ksmallest_body_run x k h i = Except.ok (ksmallest_body x k h i) := by
  have hI : h.maxlength ≤ INT_MAX := by unfold INT_MAX; omega
  unfold ksmallest_body_run ksmallest_body
  by_cases hfull : mmheap_getlength h = k
  · rw [if_pos hfull, if_pos hfull]
    cases mmheap_peekmax_value h with
    | none => rfl
    | some mx =>
      simp only []
      by_cases hlt : x i < mx
      · rw [if_pos hlt, if_pos hlt]
        obtain ⟨log, hrun, _⟩ := removemax_run_ok h hlen (by omega)
        rw [hrun, except_bind_ok]
        obtain ⟨_, hm, hl1, hl0⟩ := removemax_step h
        have hlen2 : (mmheap_removemax h).2.length ≤ (mmheap_removemax h).2.maxlength := by
          rw [hm]
          rcases (removemax_step h).1 with h0 | h1
          · rw [hl0 h0]; exact hlen
          · have := hl1 h1; omega
        obtain ⟨log2, hrun2, _⟩ := insert_run_ok (mmheap_removemax h).2 (x i) (i : Int) hlen2
          (by rw [hm]; exact hI)
        simp only []
        rw [hrun2, except_map_ok]
      · rw [if_neg hlt, if_neg hlt]
  · rw [if_neg hfull, if_neg hfull]
    obtain ⟨log, hrun, _⟩ := insert_run_ok h (x i) (i : Int) hlen hI
    rw [hrun, except_map_ok]

theorem klargest_body_run_ok {V : Type} [LinearOrder V] (x : Nat → V) (k : Nat)
    (h : minmaxheap V) (i : Nat) (hlen : h.length ≤ h.maxlength) (hmax : h.maxlength = k)
    (hcap : k ≤ 1073741824) :
    klargest_body_run x k h i = Except.ok (klargest_body x k h i) := by
  have hI : h.maxlength ≤ INT_MAX := by unfold INT_MAX; omega
  unfold klargest_body_run klargest_body
  by_cases hfull : mmheap_getlength h = k
  · rw [if_pos hfull, if_pos hfull]
    cases mmheap_peekmin_value h with
    | none => rfl
    | some mn =>
      simp only []
      by_cases hlt : x i > mn
      · rw [if_pos hlt, if_pos hlt]
        obtain ⟨log, hrun, _⟩ := removemin_run_ok h hlen (by omega)
        rw [hrun, except_bind_ok]
        obtain ⟨_, hm, hl1, hl0⟩ := removemin_step h
        have hlen2 : (mmheap_removemin h).2.length ≤ (mmheap_removemin h).2.maxlength := by
          rw [hm]
          rcases (removemin_step h).1 with h0 | h1
          · rw [hl0 h0]; exact hlen
          · have := hl1 h1; omega
        obtain ⟨log2, hrun2, _⟩ := insert_run_ok (mmheap_removemin h).2 (x i) (i : Int) hlen2
          (by rw [hm]; exact hI)
        simp only []
        rw [hrun2, except_map_ok]
      · rw [if_neg hlt, if_neg hlt]
  · rw [if_neg hfull, if_neg hfull]
    obtain ⟨log, hrun, _⟩ := insert_run_ok h (x i) (i : Int) hlen hI
    rw [hrun, except_map_ok]

theorem ksmallest_for_run_ok {V : Type} [LinearOrder V] (fv : Nat → V) (fi : Nat → Int)
    (x : Nat → V) (k : Nat) (hk : 1 ≤ k) (hcap : k ≤ 1073741824) (n : Nat)
    (hn : n ≤ INT_MAX) :
    ksmallest_for_run x k (mmheap_create fv fi k) n =
      Except.ok (ksmallest_for x k (mmheap_create fv fi k) n) := by
  induction n with
  | zero => rfl
  | succ n ih =>
    obtain ⟨_, hmax, hlen, _⟩ := ksmallest_for_inv fv fi x k hk n
    rw [ksmallest_for_run, ih (by omega), except_bind_ok,
      ksmallest_body_run_ok x k _ n (by rw [hmax, hlen]; omega) hmax hcap, except_bind_ok,
      int_inc_ok n hn, except_map_ok]
    rfl

theorem klargest_for_run_ok {V : Type} [LinearOrder V] (fv : Nat → V) (fi : Nat → Int)
    (x : Nat → V) (k : Nat) (hk : 1 ≤ k) (hcap : k ≤ 1073741824) (n : Nat)
    (hn : n ≤ INT_MAX) :
    klargest_for_run x k (mmheap_create fv fi k) n =
      Except.ok (klargest_for x k (mmheap_create fv fi k) n) := by
  induction n with
  | zero => rfl
  | succ n ih =>
    obtain ⟨_, hmax, hlen, _⟩ := klargest_for_inv fv fi x k hk n
    rw [klargest_for_run, ih (by omega), except_bind_ok,
      klargest_body_run_ok x k _ n (by rw [hmax, hlen]; omega) hmax hcap, except_bind_ok,
      int_inc_ok n hn, except_map_ok]
    rfl

theorem ksmallest_while_run_ok {V : Type} [LinearOrder V] (fuel : Nat) :
    ∀ (h : minmaxheap V) (i : Nat) (xk : Nat → Option V) (ik : Nat → Int),
      h.length ≤ fuel → h.length ≤ 1073741824 → i + h.length ≤ INT_MAX →
      ksmallest_while_run (fuel + 1) h i xk ik =
        Except.ok (ksmallest_while fuel h i xk ik) := by
  induction fuel with
  | zero =>
    intro h i xk ik hf _ _
    rw [ksmallest_while_run, ksmallest_while, if_neg (by unfold mmheap_getlength; omega)]
  | succ fuel ih =>
    intro h i xk ik hf hcap hi
    rw [ksmallest_while_run, ksmallest_while]
    by_cases hz : mmheap_getlength h ≠ 0
    · rw [if_pos hz, if_pos hz]
      unfold mmheap_getlength at hz
      simp only []
      obtain ⟨log, hrun⟩ := removemin_run_eq h hcap
      obtain ⟨_, _, hl1, _⟩ := removemin_step h
      have hone : (mmheap_removemin h).1 = 1 := by
        unfold mmheap_removemin; rw [if_neg hz]
      have hl := hl1 hone
      rw [hrun, except_bind_ok, int_inc_ok i (by omega), except_bind_ok]
      exact ih (mmheap_removemin h).2 (i + 1) _ _ (by omega) (by omega) (by omega)
    · rw [if_neg hz, if_neg hz]

theorem klargest_while_run_ok {V : Type} [LinearOrder V] (fuel : Nat) :
    ∀ (h : minmaxheap V) (i : Nat) (xk : Nat → Option V) (ik : Nat → Int),
      h.length ≤ fuel → h.length ≤ 1073741824 → i + h.length ≤ INT_MAX →
      klargest_while_run (fuel + 1) h i xk ik =
        Except.ok (klargest_while fuel h i xk ik) := by
  induction fuel with
  | zero =>
    intro h i xk ik hf _ _
    rw [klargest_while_run, klargest_while, if_neg (by unfold mmheap_getlength; omega)]
  | succ fuel ih =>
    intro h i xk ik hf hcap hi
    rw [klargest_while_run, klargest_while]
    by_cases hz : mmheap_getlength h ≠ 0
    · rw [if_pos hz, if_pos hz]
      unfold mmheap_getlength at hz
      simp only []
      obtain ⟨log, hrun⟩ := removemax_run_eq h (by omega)
      obtain ⟨_, _, hl1, _⟩ := removemax_step h
      have hone : (mmheap_removemax h).1 = 1 := by
        unfold mmheap_removemax; rw [if_neg hz]
      have hl := hl1 hone
      rw [hrun, except_bind_ok, int_inc_ok i (by omega), except_bind_ok]
      exact ih (mmheap_removemax h).2 (i + 1) _ _ (by omega) (by omega) (by omega)
    · rw [if_neg hz, if_neg hz]

/-- For `1 <= k <= 2^30` and `n` an `int` the checked `ksmallest` returns what `ksmallest`
returns. -/
theorem ksmallest_run_ok {V : Type} [LinearOrder V] (fv : Nat → V) (fi : Nat → Int)
    (x : Nat → V) (n k : Nat) (xk : Nat → Option V) (ik : Nat → Int) (hk : 1 ≤ k)
    (hcap : k ≤ 1073741824) (hn : n ≤ INT_MAX) :
    ksmallest_run fv fi x n k xk ik = Except.ok (ksmallest fv fi x n k xk ik) := by
  obtain ⟨_, _, hlen, _⟩ := ksmallest_for_inv fv fi x k hk n
  unfold ksmallest_run ksmallest
  simp only []
  rw [ksmallest_for_run_ok fv fi x k hk hcap n hn, except_bind_ok]
  exact ksmallest_while_run_ok _ _ 0 xk ik le_rfl (by rw [hlen]; omega)
    (by rw [hlen]; unfold INT_MAX; omega)

/-- For `1 <= k <= 2^30` and `n` an `int` the checked `klargest` returns what `klargest`
returns. -/
theorem klargest_run_ok {V : Type} [LinearOrder V] (fv : Nat → V) (fi : Nat → Int)
    (x : Nat → V) (n k : Nat) (xk : Nat → Option V) (ik : Nat → Int) (hk : 1 ≤ k)
    (hcap : k ≤ 1073741824) (hn : n ≤ INT_MAX) :
    klargest_run fv fi x n k xk ik = Except.ok (klargest fv fi x n k xk ik) := by
  obtain ⟨_, _, hlen, _⟩ := klargest_for_inv fv fi x k hk n
  unfold klargest_run klargest
  simp only []
  rw [klargest_for_run_ok fv fi x k hk hcap n hn, except_bind_ok]
  exact klargest_while_run_ok _ _ 0 xk ik le_rfl (by rw [hlen]; omega)
    (by rw [hlen]; unfold INT_MAX; omega)

end cmmheap

namespace cmmheap

/-! ## The removals within the range of `int` -/

/-- C2 (within the range of `int`): `mmheap_removemin` preserves the min-max heap property.
For every non-empty heap of at most `2^30` stored pairs whose first `length` slots satisfy
the property, the checked `mmheap_removemin` returns 1 (no position it computes overflows)
and a heap whose `length - 1` occupied slots satisfy the property. -/
theorem mmheap_removemin_preserves_heap {V : Type} [LinearOrder V] (h : minmaxheap V)
    (hne : 0 < h.length) (hheap : MinMaxHeapProp h.value h.length)
    (hcap : h.length ≤ 1073741824) :
    ∃ h' log, mmheap_removemin_run h = Except.ok (1, h', log) ∧
      MinMaxHeapProp h'.value h'.length ∧ h'.length = h.length - 1 := by
  obtain ⟨log, hrun⟩ := removemin_run_eq h hcap
  obtain ⟨hh, hl⟩ := removemin_heap_aux h hne hheap
  rw [(removemin_pairs_aux h hne).1] at hrun
  exact ⟨_, log, hrun, hh, hl⟩

/-- Claim C2 instantiated at `example_heap`; the hypotheses hold there. -/
theorem mmheap_removemin_preserves_heap_witness :
    (0 < example_heap.length ∧ MinMaxHeapProp example_heap.value example_heap.length ∧
      example_heap.length ≤ 1073741824) ∧
    ∃ h' log, mmheap_removemin_run example_heap = Except.ok (1, h', log) ∧
      MinMaxHeapProp h'.value h'.length ∧ h'.length = example_heap.length - 1 :=
  ⟨⟨by decide, (heap_check_iff _ _).1 (by decide), by decide⟩,
    mmheap_removemin_preserves_heap example_heap (by decide)
      ((heap_check_iff _ _).1 (by decide)) (by decide)⟩

/-- C2 (counterexample): `big_heap` is a non-empty heap of `2^30 + 1` pairs that satisfies
the min-max heap property; `mmheap_removemin` on it reaches position `2^30`, where
`lchild = i << 1` overflows the `int`, so the call returns no heap at all. -/
theorem removemin_overflows_on_valid_heap :
    0 < big_heap.length ∧ big_heap.length = 1073741824 + 1 ∧
    MinMaxHeapProp big_heap.value big_heap.length ∧
    mmheap_removemin_run big_heap = Except.error fault.overflow ∧
    ¬ ∃ h' log, mmheap_removemin_run big_heap = Except.ok (1, h', log) ∧
      MinMaxHeapProp h'.value h'.length ∧ h'.length = big_heap.length - 1 := by
  refine ⟨by decide, by decide, big_heap_is_heap, removemin_run_big_heap, ?_⟩
  rintro ⟨h', log, hrun, _⟩
  rw [removemin_run_big_heap] at hrun
  exact absurd hrun (by simp)

/-- C3 (within the range of `int`): `mmheap_removemax` preserves the min-max heap property.
For every non-empty heap of at most `2^30 + 1` stored pairs whose first `length` slots
satisfy the property (any such length, in particular 1, 2 and 3, where the vacated slot is
the root or the last slot itself), the checked `mmheap_removemax` returns 1 (no position it
computes overflows) and a heap whose `length - 1` occupied slots satisfy the property. -/
theorem mmheap_removemax_preserves_heap {V : Type} [LinearOrder V] (h : minmaxheap V)
    (hne : 0 < h.length) (hheap : MinMaxHeapProp h.value h.length)
    (hcap : h.length ≤ 1073741825) :
    ∃ h' log, mmheap_removemax_run h = Except.ok (1, h', log) ∧
      MinMaxHeapProp h'.value h'.length ∧ h'.length = h.length - 1 := by
  obtain ⟨log, hrun⟩ := removemax_run_eq h hcap
  obtain ⟨hh, hl⟩ := removemax_heap_aux h hne hheap
  rw [(removemax_pairs_aux h hne).1] at hrun
  exact ⟨_, log, hrun, hh, hl⟩

/-- Claim C3 instantiated at `example_heap3` (length 3, the vacated slot is the last slot);
the hypotheses hold there. -/
theorem mmheap_removemax_preserves_heap_witness :
    (0 < example_heap3.length ∧ MinMaxHeapProp example_heap3.value example_heap3.length ∧
      example_heap3.length ≤ 1073741825) ∧
    ∃ h' log, mmheap_removemax_run example_heap3 = Except.ok (1, h', log) ∧
      MinMaxHeapProp h'.value h'.length ∧ h'.length = example_heap3.length - 1 :=
  ⟨⟨by decide, (heap_check_iff _ _).1 (by decide), by decide⟩,
    mmheap_removemax_preserves_heap example_heap3 (by decide)
      ((heap_check_iff _ _).1 (by decide)) (by decide)⟩

/-- C3 (counterexample): `big_heap_max` is a non-empty heap of `2^30 + 2` pairs that
satisfies the min-max heap property; `mmheap_removemax` on it vacates position 2 and reaches
position `2^29`, which has two children, where `llchild = lchild << 1` overflows the `int`,
so the call returns no heap at all. -/
theorem removemax_overflows_on_valid_heap :
    0 < big_heap_max.length ∧ big_heap_max.length = 1073741825 + 1 ∧
    MinMaxHeapProp big_heap_max.value big_heap_max.length ∧
    mmheap_removemax_iins big_heap_max = 2 ∧
    mmheap_removemax_run big_heap_max = Except.error fault.overflow ∧
    ¬ ∃ h' log, mmheap_removemax_run big_heap_max = Except.ok (1, h', log) ∧
      MinMaxHeapProp h'.value h'.length ∧ h'.length = big_heap_max.length - 1 := by
  refine ⟨by decide, by decide, big_heap_max_is_heap, by decide, removemax_run_big_heap_max,
    ?_⟩
  rintro ⟨h', log, hrun, _⟩
  rw [removemax_run_big_heap_max] at hrun
  exact absurd hrun (by simp)

/-- C7 (within the range of `int`): remove-min removes exactly the global minimum. For every
non-empty heap of at most `2^30` stored pairs satisfying the min-max heap property, the
checked `mmheap_removemin` returns 1, `length` decreases by exactly 1, and the multiset of
(value, tag) pairs over the occupied slots is the previous multiset minus one occurrence of
the stored pair `(value[0], index[0])`, which is the pair that `mmheap_peekmin_value` /
`mmheap_peekmin_index` reported beforehand and whose value is the minimum of all previously
stored values. -/
theorem mmheap_removemin_removes_min {V : Type} [LinearOrder V] (h : minmaxheap V)
    (hne : 0 < h.length) (hheap : MinMaxHeapProp h.value h.length)
    (hcap : h.length ≤ 1073741824) :
    ∃ h' log, mmheap_removemin_run h = Except.ok (1, h', log) ∧
      h'.length + 1 = h.length ∧
      pairs h' = (pairs h).erase (h.value 0, h.index 0) ∧
      (h.value 0, h.index 0) ∈ pairs h ∧
      mmheap_peekmin_value h = some (h.value 0) ∧
      mmheap_peekmin_index h = h.index 0 ∧
      (∀ j, j < h.length → h.value 0 ≤ h.value j) := by
  obtain ⟨log, hrun⟩ := removemin_run_eq h hcap
  obtain ⟨h1, h2, _, h4⟩ := removemin_pairs_aux h hne
  rw [h1] at hrun
  refine ⟨_, log, hrun, by omega, h4, ?_, ?_, ?_, root_le h.value h.length hheap⟩
  · unfold pairs
    rw [mem_slot_pairs]
    exact ⟨0, hne, rfl⟩
  · unfold mmheap_peekmin_value; rw [if_neg (by omega)]
  · unfold mmheap_peekmin_index; rw [if_neg (by omega)]

/-- Claim C7 instantiated at `example_heap`; the hypotheses hold there. -/
theorem mmheap_removemin_removes_min_witness :
    (0 < example_heap.length ∧ MinMaxHeapProp example_heap.value example_heap.length ∧
      example_heap.length ≤ 1073741824) ∧
    ∃ h' log, mmheap_removemin_run example_heap = Except.ok (1, h', log) ∧
      h'.length + 1 = example_heap.length ∧
      pairs h' = (pairs example_heap).erase (example_heap.value 0, example_heap.index 0) ∧
      (example_heap.value 0, example_heap.index 0) ∈ pairs example_heap ∧
      mmheap_peekmin_value example_heap = some (example_heap.value 0) ∧
      mmheap_peekmin_index example_heap = example_heap.index 0 ∧
      (∀ j, j < example_heap.length → example_heap.value 0 ≤ example_heap.value j) :=
  ⟨⟨by decide, (heap_check_iff _ _).1 (by decide), by decide⟩,
    mmheap_removemin_removes_min example_heap (by decide)
      ((heap_check_iff _ _).1 (by decide)) (by decide)⟩

/-- C7 (counterexample): on `big_heap`, a min-max heap of `2^30 + 1` pairs whose peek-min
reports the pair `(0, 0)`, `mmheap_removemin` stops at the signed overflow of `i << 1` at
position `2^30`: it returns no flag, and no heap whose pairs could be compared with the
previous ones. -/
theorem removemin_returns_nothing_beyond_int_range :
    0 < big_heap.length ∧ MinMaxHeapProp big_heap.value big_heap.length ∧
    mmheap_peekmin_value big_heap = some 0 ∧ mmheap_peekmin_index big_heap = 0 ∧
    returned (mmheap_removemin_run big_heap) = none ∧
    ¬ ∃ h' log, mmheap_removemin_run big_heap = Except.ok (1, h', log) ∧
      h'.length + 1 = big_heap.length ∧
      pairs h' = (pairs big_heap).erase (big_heap.value 0, big_heap.index 0) := by
  refine ⟨by decide, big_heap_is_heap, by decide, by decide, ?_, ?_⟩
  · rw [removemin_run_big_heap]; rfl
  · rintro ⟨h', log, hrun, _⟩
    rw [removemin_run_big_heap] at hrun
    exact absurd hrun (by simp)

/-- C8 (within the range of `int`): remove-max removes exactly the element peek-max reports.
For every non-empty heap of at most `2^30 + 1` stored pairs satisfying the min-max heap
property, the checked `mmheap_removemax` returns 1, `length` decreases by exactly 1, and the
multiset of (value, tag) pairs over the occupied slots is the previous multiset minus one
occurrence of the stored pair `(mmheap_peekmax_value, mmheap_peekmax_index)` reported
beforehand, whose value is the maximum of all previously stored values. -/
theorem mmheap_removemax_removes_max {V : Type} [LinearOrder V] (h : minmaxheap V)
    (hne : 0 < h.length) (hheap : MinMaxHeapProp h.value h.length)
    (hcap : h.length ≤ 1073741825) :
    ∃ h' log, mmheap_removemax_run h = Except.ok (1, h', log) ∧
      h'.length + 1 = h.length ∧
      ∃ mv, mmheap_peekmax_value h = some mv ∧
        pairs h' = (pairs h).erase (mv, mmheap_peekmax_index h) ∧
        (mv, mmheap_peekmax_index h) ∈ pairs h ∧
        (∀ j, j < h.length → h.value j ≤ mv) := by
  obtain ⟨log, hrun⟩ := removemax_run_eq h hcap
  obtain ⟨h1, h2, _, h4⟩ := removemax_pairs_aux h hne
  obtain ⟨hv, hi, hq⟩ := peekmax_eq_iins h hne
  rw [h1] at hrun
  refine ⟨_, log, hrun, by omega, _, hv, ?_, ?_, le_iins h hne hheap⟩
  · rw [hi]; exact h4
  · rw [hi]
    unfold pairs
    rw [mem_slot_pairs]
    exact ⟨_, hq, rfl⟩

/-- Claim C8 instantiated at `example_heap`; the hypotheses hold there. -/
theorem mmheap_removemax_removes_max_witness :
    (0 < example_heap.length ∧ MinMaxHeapProp example_heap.value example_heap.length ∧
      example_heap.length ≤ 1073741825) ∧
    ∃ h' log, mmheap_removemax_run example_heap = Except.ok (1, h', log) ∧
      h'.length + 1 = example_heap.length ∧
      ∃ mv, mmheap_peekmax_value example_heap = some mv ∧
        pairs h' = (pairs example_heap).erase (mv, mmheap_peekmax_index example_heap) ∧
        (mv, mmheap_peekmax_index example_heap) ∈ pairs example_heap ∧
        (∀ j, j < example_heap.length → example_heap.value j ≤ mv) :=
  ⟨⟨by decide, (heap_check_iff _ _).1 (by decide), by decide⟩,
    mmheap_removemax_removes_max example_heap (by decide)
      ((heap_check_iff _ _).1 (by decide)) (by decide)⟩

/-- C8 (counterexample): on `big_heap_max`, a min-max heap of `2^30 + 2` pairs whose
peek-max reports the pair `(2, 1)`, `mmheap_removemax` stops at the signed overflow of
`lchild << 1` at position `2^29`: it returns no flag, and no heap whose pairs could be
compared with the previous ones. -/
theorem removemax_returns_nothing_beyond_int_range :
    0 < big_heap_max.length ∧ MinMaxHeapProp big_heap_max.value big_heap_max.length ∧
    mmheap_peekmax_value big_heap_max = some 2 ∧ mmheap_peekmax_index big_heap_max = 1 ∧
    returned (mmheap_removemax_run big_heap_max) = none ∧
    ¬ ∃ h' log, mmheap_removemax_run big_heap_max = Except.ok (1, h', log) ∧
      h'.length + 1 = big_heap_max.length ∧
      ∃ mv, mmheap_peekmax_value big_heap_max = some mv ∧
        pairs h' = (pairs big_heap_max).erase (mv, mmheap_peekmax_index big_heap_max) := by
  refine ⟨by decide, big_heap_max_is_heap, by decide, by decide, ?_, ?_⟩
  · rw [removemax_run_big_heap_max]; rfl
  · rintro ⟨h', log, hrun, _⟩
    rw [removemax_run_big_heap_max] at hrun
    exact absurd hrun (by simp)

end cmmheap

namespace cmmheap

/-! ## The selection routines within the range of `int` -/

/-- C11 (within the range of `int`): `ksmallest` equals the sorted prefix. For every input
`x` of `n` values (`n` an `int`) and every `k` with `1 <= k <= 2^30`, the checked
`ksmallest` returns `min n k` (no position it computes overflows), and for every
`j < min n k` the output `xk[j]` is the element at position `j` of the input sorted in
ascending order (a list of length `n`). -/
theorem ksmallest_sorted_prefix {V : Type} [LinearOrder V] (fv : Nat → V) (fi : Nat → Int)
    (x : Nat → V) (n k : Nat) (xk : Nat → Option V) (ik : Nat → Int) (hk : 1 ≤ k)
    (hcap : k ≤ 1073741824) (hn : n ≤ INT_MAX) :
    ∃ xk' ik', ksmallest_run fv fi x n k xk ik = Except.ok (min n k, xk', ik') ∧
      (sorted_input x n).length = n ∧
      ∀ j, j < min n k → xk' j = (sorted_input x n)[j]? := by
  obtain ⟨l, R, hll, hsplit, hs, hle, hc, ho⟩ := ksmallest_spec fv fi x n k xk ik hk
  refine ⟨(ksmallest fv fi x n k xk ik).2.1, (ksmallest fv fi x n k xk ik).2.2, ?_,
    sorted_input_length x n, ?_⟩
  · rw [ksmallest_run_ok fv fi x n k xk ik hk hcap hn, ← hc]
  · intro j hj
    exact outputs_sorted_prefix x n l R hsplit hs hle _ _ ho j (by omega)

/-- Claim C11 instantiated at the input `[9, 3, 7, 1, 8, 2, 5]` with `k = 3`. -/
theorem ksmallest_sorted_prefix_witness :
    (1 ≤ 3 ∧ 3 ≤ 1073741824 ∧ 7 ≤ INT_MAX) ∧
    ∃ xk' ik', ksmallest_run (fun _ => 0) (fun _ => 0) example_input 7 3 (fun _ => none)
        (fun _ => 0) = Except.ok (min 7 3, xk', ik') ∧
      (sorted_input example_input 7).length = 7 ∧
      ∀ j, j < min 7 3 → xk' j = (sorted_input example_input 7)[j]? :=
  ⟨by decide, ksmallest_sorted_prefix (fun _ => 0) (fun _ => 0) example_input 7 3
    (fun _ => none) (fun _ => 0) (by decide) (by decide) (by decide)⟩

/-- C11 (counterexample): `ksmallest` on the `2^30 + 1` values of `big_heap`, taken in the
order of its slots, with `k = 2^30 + 1`. The `for` loop stores every value without moving
any, the heap is then `big_heap`, and the first `mmheap_removemin` of the `while` loop stops
at the signed overflow of `i << 1` at position `2^30`: nothing is returned. (The fresh
arrays of `mmheap_create` are taken to hold already what the loop stores in them; their
contents are overwritten in every slot that is read.) -/
theorem ksmallest_overflows_at_large_k :
    (1 ≤ 1073741825 ∧ 1073741825 ≤ INT_MAX) ∧
    ksmallest_run big_heap.value big_heap.index big_heap.value 1073741825 1073741825
      (fun _ => none) (fun _ => 0) = Except.error fault.overflow ∧
    ¬ ∃ xk' ik', ksmallest_run big_heap.value big_heap.index big_heap.value 1073741825
      1073741825 (fun _ => none) (fun _ => 0) =
        Except.ok (min 1073741825 1073741825, xk', ik') := by
  refine ⟨by decide, ksmallest_run_big, ?_⟩
  rintro ⟨xk', ik', hrun⟩
  rw [ksmallest_run_big] at hrun
  exact absurd hrun (by simp)

/-- C12 (within the range of `int`): `klargest` equals the reversed sorted suffix. For every
input `x` of `n` values (`n` an `int`) and every `k` with `1 <= k <= 2^30`, the checked
`klargest` returns `min n k` (no position it computes overflows), and for every
`j < min n k` the output `xk[j]` is the element at position `n - 1 - j` of the input sorted
in ascending order. -/
theorem klargest_sorted_suffix {V : Type} [LinearOrder V] (fv : Nat → V) (fi : Nat → Int)
    (x : Nat → V) (n k : Nat) (xk : Nat → Option V) (ik : Nat → Int) (hk : 1 ≤ k)
    (hcap : k ≤ 1073741824) (hn : n ≤ INT_MAX) :
    ∃ xk' ik', klargest_run fv fi x n k xk ik = Except.ok (min n k, xk', ik') ∧
      (sorted_input x n).length = n ∧
      ∀ j, j < min n k → xk' j = (sorted_input x n)[n - 1 - j]? := by
  obtain ⟨l, R, hll, hsplit, hs, hle, hc, ho⟩ := klargest_spec fv fi x n k xk ik hk
  refine ⟨(klargest fv fi x n k xk ik).2.1, (klargest fv fi x n k xk ik).2.2, ?_,
    sorted_input_length x n, ?_⟩
  · rw [klargest_run_ok fv fi x n k xk ik hk hcap hn, ← hc]
  · intro j hj
    exact outputs_sorted_suffix x n l R hsplit hs hle _ _ ho j (by omega)

/-- Claim C12 instantiated at the input `[9, 3, 7, 1, 8, 2, 5]` with `k = 3`. -/
theorem klargest_sorted_suffix_witness :
    (1 ≤ 3 ∧ 3 ≤ 1073741824 ∧ 7 ≤ INT_MAX) ∧
    ∃ xk' ik', klargest_run (fun _ => 0) (fun _ => 0) example_input 7 3 (fun _ => none)
        (fun _ => 0) = Except.ok (min 7 3, xk', ik') ∧
      (sorted_input example_input 7).length = 7 ∧
      ∀ j, j < min 7 3 → xk' j = (sorted_input example_input 7)[7 - 1 - j]? :=
  ⟨by decide, klargest_sorted_suffix (fun _ => 0) (fun _ => 0) example_input 7 3
    (fun _ => none) (fun _ => 0) (by decide) (by decide) (by decide)⟩

/-- C12 (counterexample): `klargest` on `big_input`, the `2^30 + 1` values of `big_heap` in
the order of its slots followed by a 3, with `k = 2^30 + 1`. The `for` loop stores the first
`2^30 + 1` values without moving any, the heap is then `big_heap` and full; the last input
is above its minimum 0, and the `mmheap_removemin` that makes room for it stops at the
signed overflow of `i << 1` at position `2^30`: nothing is returned. (The fresh arrays of
`mmheap_create` are taken to hold already what the loop stores in them.) -/
theorem klargest_overflows_at_large_k :
    (1 ≤ 1073741825 ∧ 1073741826 ≤ INT_MAX) ∧
    klargest_run big_heap.value big_heap.index big_input 1073741826 1073741825
      (fun _ => none) (fun _ => 0) = Except.error fault.overflow ∧
    ¬ ∃ xk' ik', klargest_run big_heap.value big_heap.index big_input 1073741826
      1073741825 (fun _ => none) (fun _ => 0) =
        Except.ok (min 1073741826 1073741825, xk', ik') := by
  refine ⟨by decide, klargest_run_big, ?_⟩
  rintro ⟨xk', ik', hrun⟩
  rw [klargest_run_big] at hrun
  exact absurd hrun (by simp)

/-- C13 (within the range of `int`): the selection outputs report true original positions.
For every input `x` of length `n` (`n` an `int`) and every `k` with `1 <= k <= 2^30`, the
checked `ksmallest`, and likewise the checked `klargest`, returns `min n k` and outputs such
that for each output slot `j < min n k`, `0 <= ik[j] < n` and `x[ik[j]] == xk[j]`, and the
reported positions `ik[0 .. min n k - 1]` are pairwise distinct. -/
theorem selection_positions {V : Type} [LinearOrder V] (fv : Nat → V) (fi : Nat → Int)
    (x : Nat → V) (n k : Nat) (xk : Nat → Option V) (ik : Nat → Int) (hk : 1 ≤ k)
    (hcap : k ≤ 1073741824) (hn : n ≤ INT_MAX) :
    (∃ xk' ik', ksmallest_run fv fi x n k xk ik = Except.ok (min n k, xk', ik') ∧
      (∀ j, j < min n k → 0 ≤ ik' j ∧ ik' j < n ∧ xk' j = some (x (ik' j).toNat)) ∧
      (∀ j1 j2, j1 < min n k → j2 < min n k → ik' j1 = ik' j2 → j1 = j2)) ∧
    (∃ xk' ik', klargest_run fv fi x n k xk ik = Except.ok (min n k, xk', ik') ∧
      (∀ j, j < min n k → 0 ≤ ik' j ∧ ik' j < n ∧ xk' j = some (x (ik' j).toNat)) ∧
      (∀ j1 j2, j1 < min n k → j2 < min n k → ik' j1 = ik' j2 → j1 = j2)) := by
  constructor
  · obtain ⟨l, R, hll, hsplit, _, _, hc, ho⟩ := ksmallest_spec fv fi x n k xk ik hk
    have := outputs_positions x n l R hsplit _ _ ho
    rw [hll] at this
    exact ⟨(ksmallest fv fi x n k xk ik).2.1, (ksmallest fv fi x n k xk ik).2.2,
      by rw [ksmallest_run_ok fv fi x n k xk ik hk hcap hn, ← hc], this⟩
  · obtain ⟨l, R, hll, hsplit, _, _, hc, ho⟩ := klargest_spec fv fi x n k xk ik hk
    have := outputs_positions x n l R hsplit _ _ ho
    rw [hll] at this
    exact ⟨(klargest fv fi x n k xk ik).2.1, (klargest fv fi x n k xk ik).2.2,
      by rw [klargest_run_ok fv fi x n k xk ik hk hcap hn, ← hc], this⟩

/-- Claim C13 instantiated at the input `[9, 3, 7, 1, 8, 2, 5]` with `k = 3`. -/
theorem selection_positions_witness :
    (1 ≤ 3 ∧ 3 ≤ 1073741824 ∧ 7 ≤ INT_MAX) ∧
    (∃ xk' ik', ksmallest_run (fun _ => 0) (fun _ => 0) example_input 7 3 (fun _ => none)
        (fun _ => 0) = Except.ok (min 7 3, xk', ik') ∧
      (∀ j, j < min 7 3 → 0 ≤ ik' j ∧ ik' j < (7 : Nat) ∧
        xk' j = some (example_input (ik' j).toNat)) ∧
      (∀ j1 j2, j1 < min 7 3 → j2 < min 7 3 → ik' j1 = ik' j2 → j1 = j2)) ∧
    (∃ xk' ik', klargest_run (fun _ => 0) (fun _ => 0) example_input 7 3 (fun _ => none)
        (fun _ => 0) = Except.ok (min 7 3, xk', ik') ∧
      (∀ j, j < min 7 3 → 0 ≤ ik' j ∧ ik' j < (7 : Nat) ∧
        xk' j = some (example_input (ik' j).toNat)) ∧
      (∀ j1 j2, j1 < min 7 3 → j2 < min 7 3 → ik' j1 = ik' j2 → j1 = j2)) :=
  ⟨by decide, selection_positions (fun _ => 0) (fun _ => 0) example_input 7 3
    (fun _ => none) (fun _ => 0) (by decide) (by decide) (by decide)⟩

/-- C13 (counterexample): with `k = 2^30 + 1` neither routine reports any position. On the
`2^30 + 1` values of `big_heap` the checked `ksmallest`, and on `big_input` the checked
`klargest`, stops at the signed overflow of `i << 1` in `mmheap_removemin` and returns no
output slot. -/
theorem selection_overflows_at_large_k :
    returned (ksmallest_run big_heap.value big_heap.index big_heap.value 1073741825
      1073741825 (fun _ => none) (fun _ => 0)) = none ∧
    returned (klargest_run big_heap.value big_heap.index big_input 1073741826 1073741825
      (fun _ => none) (fun _ => 0)) = none ∧
    ¬ (∃ xk' ik', ksmallest_run big_heap.value big_heap.index big_heap.value 1073741825
      1073741825 (fun _ => none) (fun _ => 0) =
        Except.ok (min 1073741825 1073741825, xk', ik') ∧
      (∀ j, j < min 1073741825 1073741825 → 0 ≤ ik' j ∧ ik' j < (1073741825 : Nat) ∧
        xk' j = some (big_heap.value (ik' j).toNat))) := by
  refine ⟨by rw [ksmallest_run_big]; rfl, by rw [klargest_run_big]; rfl, ?_⟩
  rintro ⟨xk', ik', hrun, _⟩
  rw [ksmallest_run_big] at hrun
  exact absurd hrun (by simp)

end cmmheap

namespace cmmheap

/-! ## The trickle-down rules within the range of `int` -/

/-- The tie rule of the checked `__trickle_down_min`. -/
theorem trickle_down_min_m_run_earliest {V : Type} [LinearOrder V] (A : Nat → V)
    (i maxi : Nat) (h1 : 1 ≤ i) (h2 : 2 * i ≤ maxi) (hmaxi : maxi ≤ INT_MAX)
    (hov : 2 * i + 1 ≤ maxi → 4 * i + 3 ≤ INT_MAX) :
    ∃ m log, ((int_shl1 i).bind fun lchild => (int_inc lchild).bind fun rchild =>
        __trickle_down_min_m_run A lchild rchild maxi) = Except.ok (m, log) ∧
      earliest_min A (candidates_right_first i maxi) = some m ∧
      ((m = 2 * i + 1 → A (2 * i - 1) ≠ A (2 * i + 1 - 1)) →
        earliest_min A (candidates i maxi) = some m) := by
  obtain ⟨log, hm, _⟩ := trickle_down_min_m_run_local A i maxi h1 h2 hov
  obtain ⟨e1, e2⟩ := trickle_down_min_m_earliest A i maxi h1 h2
  refine ⟨_, log, ?_, e1, e2⟩
  rw [int_shl1_ok i (by omega), except_bind_ok,
    int_inc_ok (2 * i) (by unfold INT_MAX at hmaxi ⊢; omega), except_bind_ok, hm]

/-- C21 (the rule of the code, within the range of `int`): at a position `i` with at least
one child, where `maxi` is an `int` and the grandchild positions up to `4 * i + 3` fit an
`int` in case `i` has two children, the candidate `m` chosen by the checked
`__trickle_down_min` (`__trickle_down_max`) from `lchild = i << 1` and
`rchild = lchild + 1` is the earliest position holding the smallest (largest) value among
the existing candidates taken in the order right child, left child, then the grandchildren
from left to right; it is the earliest such position in the order left child, right child,
grandchildren as well, unless `m` is the right child and the two children hold the same
value. -/
theorem trickle_down_tie_rule {V : Type} [LinearOrder V] (A : Nat → V) (i maxi : Nat)
    (h1 : 1 ≤ i) (h2 : 2 * i ≤ maxi) (hmaxi : maxi ≤ INT_MAX)
    (hov : 2 * i + 1 ≤ maxi → 4 * i + 3 ≤ INT_MAX) :
    (∃ m log, ((int_shl1 i).bind fun lchild => (int_inc lchild).bind fun rchild =>
        __trickle_down_min_m_run A lchild rchild maxi) = Except.ok (m, log) ∧
      earliest_min A (candidates_right_first i maxi) = some m ∧
      ((m = 2 * i + 1 → A (2 * i - 1) ≠ A (2 * i + 1 - 1)) →
        earliest_min A (candidates i maxi) = some m)) ∧
    (∃ m log, ((int_shl1 i).bind fun lchild => (int_inc lchild).bind fun rchild =>
        __trickle_down_max_m_run A lchild rchild maxi) = Except.ok (m, log) ∧
      earliest_max A (candidates_right_first i maxi) = some m ∧
      ((m = 2 * i + 1 → A (2 * i - 1) ≠ A (2 * i + 1 - 1)) →
        earliest_max A (candidates i maxi) = some m)) :=
  ⟨trickle_down_min_m_run_earliest A i maxi h1 h2 hmaxi hov,
    trickle_down_min_m_run_earliest (V := Vᵒᵈ) A i maxi h1 h2 hmaxi hov⟩

/-- Claim C21's rule instantiated at three slots holding 5, 1, 1 and the root. -/
theorem trickle_down_tie_rule_witness :
    (1 ≤ 1 ∧ 2 * 1 ≤ 3 ∧ 3 ≤ INT_MAX ∧ (2 * 1 + 1 ≤ 3 → 4 * 1 + 3 ≤ INT_MAX)) ∧
    ∃ m log, ((int_shl1 1).bind fun lchild => (int_inc lchild).bind fun rchild =>
        __trickle_down_min_m_run example_tie_min lchild rchild 3) = Except.ok (m, log) ∧
      earliest_min example_tie_min (candidates_right_first 1 3) = some m ∧
      ((m = 2 * 1 + 1 → example_tie_min (2 * 1 - 1) ≠ example_tie_min (2 * 1 + 1 - 1)) →
        earliest_min example_tie_min (candidates 1 3) = some m) :=
  ⟨by decide, (trickle_down_tie_rule example_tie_min 1 3 (by decide) (by decide) (by decide)
    (by decide)).1⟩

/-- C21 (counterexample): with the values 5, 1, 1 in slots 0, 1, 2 the two children of the
root both hold the smallest value; the earliest of them in the order of the specification is
the left child, position 2, but `__trickle_down_min` chooses the right child, position 3, and
so moves the right child's pair to the root. With the values 1, 5, 5 `__trickle_down_max`
chooses the right child in the same way. And at position `2^29` with both children within
`maxi = 2^30 + 1` neither routine chooses any candidate: `llchild = lchild << 1` overflows
the `int`. -/
theorem trickle_down_tie_right_child :
    example_tie_min (2 - 1) = example_tie_min (3 - 1) ∧
    earliest_min example_tie_min (candidates 1 3) = some 2 ∧
    (returned ((int_shl1 1).bind fun lchild => (int_inc lchild).bind fun rchild =>
      __trickle_down_min_m_run example_tie_min lchild rchild 3)).map Prod.fst = some 3 ∧
    (returned (__trickle_down_min_run 3 example_tie_min slot_tags 1 3)).map
      (fun r => r.2.1 0) = some 2 ∧
    example_tie_max (2 - 1) = example_tie_max (3 - 1) ∧
    earliest_max example_tie_max (candidates 1 3) = some 2 ∧
    (returned ((int_shl1 1).bind fun lchild => (int_inc lchild).bind fun rchild =>
      __trickle_down_max_m_run example_tie_max lchild rchild 3)).map Prod.fst = some 3 ∧
    (returned (__trickle_down_max_run 3 example_tie_max slot_tags 1 3)).map
      (fun r => r.2.1 0) = some 2 ∧
    (1 ≤ 536870912 ∧ 2 * 536870912 + 1 ≤ 1073741825 ∧ 1073741825 ≤ INT_MAX) ∧
    returned ((int_shl1 536870912).bind fun lchild => (int_inc lchild).bind fun rchild =>
      __trickle_down_min_m_run example_tie_min lchild rchild 1073741825) = none ∧
    returned ((int_shl1 536870912).bind fun lchild => (int_inc lchild).bind fun rchild =>
      __trickle_down_max_m_run example_tie_max lchild rchild 1073741825) = none := by
  decide

/-- What the checked `__trickle_down_min` does when its candidate is a grandchild that
improves on `i`. -/
theorem trickle_down_min_run_grandchild {V : Type} [LinearOrder V] (A : Nat → V)
    (B : Nat → Int) (i maxi f : Nat) (h1 : 1 ≤ i) (h2 : 2 * i + 1 ≤ maxi)
    (hov : 4 * i + 3 ≤ INT_MAX) :
    ∃ m mlog, __trickle_down_min_m_run A (2 * i) (2 * i + 1) maxi = Except.ok (m, mlog) ∧
      (m > 2 * i + 1 → A (m - 1) < A (i - 1) →
        (__trickle_down_min_run (f + 1) A B i maxi).map (fun r => (r.1, r.2.1)) =
          (__trickle_down_min_run f (parent_correction_min A B i m).1
            (parent_correction_min A B i m).2 m maxi).map (fun r => (r.1, r.2.1)) ∧
        (__ab_swap A B (i - 1) (m - 1)).1 (m - 1) = A (i - 1) ∧
        (__ab_swap A B (i - 1) (m - 1)).1 (m / 2 - 1) = A (m / 2 - 1) ∧
        (A (i - 1) > A (m / 2 - 1) →
          parent_correction_min A B i m =
            __ab_swap (__ab_swap A B (i - 1) (m - 1)).1 (__ab_swap A B (i - 1) (m - 1)).2
              (m - 1) (m / 2 - 1)) ∧
        (¬ A (i - 1) > A (m / 2 - 1) →
          parent_correction_min A B i m = __ab_swap A B (i - 1) (m - 1))) := by
  obtain ⟨mlog, hm, _⟩ := trickle_down_min_m_run_local A i maxi h1 (by omega) (fun _ => hov)
  refine ⟨_, mlog, hm, ?_⟩
  intro hgc hlt
  obtain ⟨_, e2, e3, e4, e5⟩ := trickle_down_min_grandchild A B i maxi h1 (by omega) hgc hlt
  refine ⟨?_, e2, e3, e4, e5⟩
  generalize __trickle_down_min_m A i maxi = m at hm hgc hlt
  rw [__trickle_down_min_run, int_shl1_ok i (by omega), except_bind_ok,
    if_neg (by omega), int_inc_ok (2 * i) (by omega), except_bind_ok, hm, except_bind_ok]
  simp only []
  rw [if_pos hgc, if_pos hlt]
  unfold parent_correction_min
  simp only []
  cases __trickle_down_min_run f
      (if (__ab_swap A B (i - 1) (m - 1)).1 (m - 1) >
          (__ab_swap A B (i - 1) (m - 1)).1 (m >>> 1 - 1) then
        __ab_swap (__ab_swap A B (i - 1) (m - 1)).1 (__ab_swap A B (i - 1) (m - 1)).2
          (m - 1) (m >>> 1 - 1)
      else __ab_swap A B (i - 1) (m - 1)).1
      (if (__ab_swap A B (i - 1) (m - 1)).1 (m - 1) >
          (__ab_swap A B (i - 1) (m - 1)).1 (m >>> 1 - 1) then
        __ab_swap (__ab_swap A B (i - 1) (m - 1)).1 (__ab_swap A B (i - 1) (m - 1)).2
          (m - 1) (m >>> 1 - 1)
      else __ab_swap A B (i - 1) (m - 1)).2 m maxi with
  | error e => rfl
  | ok r => rfl

end cmmheap

namespace cmmheap

/-- C22 (the rule of the code, within the range of `int`): at a position `i` with two
children whose grandchild positions up to `4 * i + 3` fit an `int`, when the candidate `m`
of the checked `__trickle_down_min` is a grandchild of `i` that improves on `i`, the
routine exchanges the slots of `i` and `m`, so that `m` holds the former value of `i` and
the parent `m >> 1` still holds its own; it then exchanges the slots of `m` and its parent
exactly when the value now at `m` is greater than the parent's value, and recurses from
`m`: the arrays it returns are those the recursive call returns. `__trickle_down_max` does
the same with the parent exchange made exactly when the value now at `m` is less than the
parent's value. -/
theorem trickle_down_parent_correction {V : Type} [LinearOrder V] (A : Nat → V)
    (B : Nat → Int) (i maxi f : Nat) (h1 : 1 ≤ i) (h2 : 2 * i + 1 ≤ maxi)
    (hov : 4 * i + 3 ≤ INT_MAX) :
    (∃ m mlog, __trickle_down_min_m_run A (2 * i) (2 * i + 1) maxi = Except.ok (m, mlog) ∧
      (m > 2 * i + 1 → A (m - 1) < A (i - 1) →
        (__trickle_down_min_run (f + 1) A B i maxi).map (fun r => (r.1, r.2.1)) =
          (__trickle_down_min_run f (parent_correction_min A B i m).1
            (parent_correction_min A B i m).2 m maxi).map (fun r => (r.1, r.2.1)) ∧
        (__ab_swap A B (i - 1) (m - 1)).1 (m - 1) = A (i - 1) ∧
        (__ab_swap A B (i - 1) (m - 1)).1 (m / 2 - 1) = A (m / 2 - 1) ∧
        (A (i - 1) > A (m / 2 - 1) →
          parent_correction_min A B i m =
            __ab_swap (__ab_swap A B (i - 1) (m - 1)).1 (__ab_swap A B (i - 1) (m - 1)).2
              (m - 1) (m / 2 - 1)) ∧
        (¬ A (i - 1) > A (m / 2 - 1) →
          parent_correction_min A B i m = __ab_swap A B (i - 1) (m - 1)))) ∧
    (∃ m mlog, __trickle_down_max_m_run A (2 * i) (2 * i + 1) maxi = Except.ok (m, mlog) ∧
      (m > 2 * i + 1 → A (m - 1) > A (i - 1) →
        (__trickle_down_max_run (f + 1) A B i maxi).map (fun r => (r.1, r.2.1)) =
          (__trickle_down_max_run f (parent_correction_max A B i m).1
            (parent_correction_max A B i m).2 m maxi).map (fun r => (r.1, r.2.1)) ∧
        (__ab_swap A B (i - 1) (m - 1)).1 (m - 1) = A (i - 1) ∧
        (__ab_swap A B (i - 1) (m - 1)).1 (m / 2 - 1) = A (m / 2 - 1) ∧
        (A (i - 1) < A (m / 2 - 1) →
          parent_correction_max A B i m =
            __ab_swap (__ab_swap A B (i - 1) (m - 1)).1 (__ab_swap A B (i - 1) (m - 1)).2
              (m - 1) (m / 2 - 1)) ∧
        (¬ A (i - 1) < A (m / 2 - 1) →
          parent_correction_max A B i m = __ab_swap A B (i - 1) (m - 1)))) := by
  refine ⟨trickle_down_min_run_grandchild A B i maxi f h1 h2 hov, ?_⟩
  have := trickle_down_min_run_grandchild (V := Vᵒᵈ) A B i maxi f h1 h2 hov
  simp only [trickle_down_max_run_dual, trickle_down_max_m_run_dual,
    parent_correction_max_dual]
  exact this

/-- Claim C22's rule instantiated at the slots 9, 8, 7, 1 and the root: the candidate is the
grandchild at position 4, and the routine continues from the arrays in which the former root
value 9, greater than the parent's 8, has been exchanged with the parent. -/
theorem trickle_down_parent_correction_witness :
    (1 ≤ 1 ∧ 2 * 1 + 1 ≤ 4 ∧ 4 * 1 + 3 ≤ INT_MAX) ∧
    ∃ m mlog, __trickle_down_min_m_run example_correction_swap (2 * 1) (2 * 1 + 1) 4 =
        Except.ok (m, mlog) ∧
      (m > 2 * 1 + 1 → example_correction_swap (m - 1) < example_correction_swap (1 - 1) →
        (__trickle_down_min_run (3 + 1) example_correction_swap slot_tags 1 4).map
            (fun r => (r.1, r.2.1)) =
          (__trickle_down_min_run 3
            (parent_correction_min example_correction_swap slot_tags 1 m).1
            (parent_correction_min example_correction_swap slot_tags 1 m).2 m 4).map
            (fun r => (r.1, r.2.1)) ∧
        (__ab_swap example_correction_swap slot_tags (1 - 1) (m - 1)).1 (m - 1) =
          example_correction_swap (1 - 1) ∧
        (__ab_swap example_correction_swap slot_tags (1 - 1) (m - 1)).1 (m / 2 - 1) =
          example_correction_swap (m / 2 - 1) ∧
        (example_correction_swap (1 - 1) > example_correction_swap (m / 2 - 1) →
          parent_correction_min example_correction_swap slot_tags 1 m =
            __ab_swap (__ab_swap example_correction_swap slot_tags (1 - 1) (m - 1)).1
              (__ab_swap example_correction_swap slot_tags (1 - 1) (m - 1)).2
              (m - 1) (m / 2 - 1)) ∧
        (¬ example_correction_swap (1 - 1) > example_correction_swap (m / 2 - 1) →
          parent_correction_min example_correction_swap slot_tags 1 m =
            __ab_swap example_correction_swap slot_tags (1 - 1) (m - 1))) :=
  ⟨by decide, (trickle_down_parent_correction example_correction_swap slot_tags 1 4 3
    (by decide) (by decide) (by decide)).1⟩

/-- C22 (counterexample): `__trickle_down_min` at the root of the slots 5, 8, 7, 1. The
candidate is the grandchild at position 4; after the exchange with the root the parent at
position 2 holds 8, which is greater than the 5 now at position 4, yet the two are not
exchanged: the final values are 1, 8, 7, 5 (exchanging them would put 5 above 8 on a max
level). With the slots 9, 8, 7, 1 the parent's 8 is less than the 9 now at position 4, and
the two are exchanged: the final values are 1, 9, 7, 8. On the max side, from position 2 of
the slots 0, 3, 1, 2, 1, 1, 1, 9 the parent's 2 is less than the 3 now at position 8 and the
two are not exchanged. And at position `2^29` with both children within `maxi = 2^30 + 1`
neither routine gets as far as a candidate: `llchild = lchild << 1` overflows the `int`. -/
theorem parent_correction_claim_fails :
    (returned (__trickle_down_min_m_run example_correction_min 2 3 4)).map Prod.fst =
      some 4 ∧
    (__ab_swap example_correction_min slot_tags 0 3).1 (2 - 1) >
      (__ab_swap example_correction_min slot_tags 0 3).1 (4 - 1) ∧
    (returned (__trickle_down_min_run 4 example_correction_min slot_tags 1 4)).map
      (fun r => (List.range 4).map r.1) = some [1, 8, 7, 5] ∧
    (returned (__trickle_down_min_run 4 example_correction_min slot_tags 1 4)).map
      (fun r => (List.range 4).map r.2.1) = some [3, 1, 2, 0] ∧
    (returned (__trickle_down_min_m_run example_correction_swap 2 3 4)).map Prod.fst =
      some 4 ∧
    (__ab_swap example_correction_swap slot_tags 0 3).1 (2 - 1) <
      (__ab_swap example_correction_swap slot_tags 0 3).1 (4 - 1) ∧
    (returned (__trickle_down_min_run 4 example_correction_swap slot_tags 1 4)).map
      (fun r => (List.range 4).map r.1) = some [1, 9, 7, 8] ∧
    (returned (__trickle_down_max_m_run example_correction_max 4 5 8)).map Prod.fst =
      some 8 ∧
    (__ab_swap example_correction_max slot_tags 1 7).1 (4 - 1) <
      (__ab_swap example_correction_max slot_tags 1 7).1 (8 - 1) ∧
    (returned (__trickle_down_max_run 8 example_correction_max slot_tags 2 8)).map
      (fun r => (List.range 8).map r.1) = some [0, 9, 1, 2, 1, 1, 1, 3] ∧
    (1 ≤ 536870912 ∧ 2 * 536870912 + 1 ≤ 1073741825) ∧
    stops_at_overflow (__trickle_down_min_run 2 example_correction_min slot_tags 536870912
      1073741825) = true ∧
    stops_at_overflow (__trickle_down_max_run 2 example_correction_max slot_tags 536870912
      1073741825) = true ∧
    stops_at_overflow (__trickle_down_min_m_run example_correction_min (2 * 536870912)
      (2 * 536870912 + 1) 1073741825) = true ∧
    stops_at_overflow (__trickle_down_max_m_run example_correction_max (2 * 536870912)
      (2 * 536870912 + 1) 1073741825) = true := by
  decide

/-! ## The repair lemma within the range of `int` -/

/-- C23 (within the range of `int`): the trickle-down repair lemma. For every occupancy
`maxi` with `2 * maxi + 1 <= INT_MAX` and every position `1 <= i <= maxi`, if every proper
descendant of `i` dominates its own descendants within `maxi` according to its level
parity, then the checked `__trickle_down(A, B, i, maxi)` returns (no position it computes
overflows, and the recursion ends within `maxi + 1` calls) arrays in which every position
of the subtree rooted at `i`, `i` included, dominates its descendants within `maxi`; the
(value, tag) pairs held by the subtree within the first `maxi` slots are the same multiset
as before; and every slot that is outside the subtree or beyond `maxi` holds the value and
the tag it held before. -/
theorem trickle_down_repairs_subtree {V : Type} [LinearOrder V] (A : Nat → V) (B : Nat → Int)
    (i maxi : Nat) (h1 : 1 ≤ i) (hi : i ≤ maxi) (hmax : 2 * maxi + 1 ≤ INT_MAX)
    (hsub : ∀ a d k, in_subtree i a → a ≠ i → 1 ≤ k → d / 2 ^ k = a → d ≤ maxi →
      dominates A a d) :
    ∃ A' B' log, __trickle_down_run (maxi + 1) A B i maxi = Except.ok (A', B', log) ∧
      (∀ a d k, in_subtree i a → 1 ≤ k → d / 2 ^ k = a → d ≤ maxi → dominates A' a d) ∧
      subtree_pairs A' B' i maxi = subtree_pairs A B i maxi ∧
      (∀ j, ¬ (in_subtree i (j + 1) ∧ j < maxi) → A' j = A j ∧ B' j = B j) := by
  obtain ⟨log, hrun, _⟩ := trickle_down_run_ok A B i maxi h1 (by omega) hmax
  refine ⟨_, _, log, hrun, ?_, trickle_down_subtree_pairs A B i maxi h1,
    fun j hj => trickle_down_frame A B i maxi h1 j hj⟩
  have hsub' : ∀ a d, Anc i a → Anc a d → d ≤ maxi → domP minLevel A a d := by
    intro a d hia had hd
    obtain ⟨k, hk, hdk, _⟩ := had
    exact hsub a d k ((in_subtree_iff i a h1).2 (Or.inr hia)) (by have := hia.lt; omega) hk
      hdk hd
  intro a d k ha hk hdk hd
  have ha' := (in_subtree_iff i a h1).1 ha
  have ha1 : 1 ≤ a := by
    rcases ha' with h | h
    · omega
    · have := h.lt; omega
  exact trickle_down_subtree_heap A B i maxi h1 hsub' a d ha' ⟨k, hk, hdk, ha1⟩ hd

/-- Claim C23 instantiated at the root of the seven slots 6, 9, 8, 2, 5, 3, 4: the two
subtrees below the root are in order, and after `__trickle_down` the whole tree is. -/
theorem trickle_down_repairs_subtree_witness :
    (1 ≤ 1 ∧ 1 ≤ 7 ∧ 2 * 7 + 1 ≤ INT_MAX ∧
      ∀ a d k, in_subtree 1 a → a ≠ 1 → 1 ≤ k → d / 2 ^ k = a → d ≤ 7 →
        dominates example_repair a d) ∧
    ∃ A' B' log, __trickle_down_run (7 + 1) example_repair slot_tags 1 7 =
        Except.ok (A', B', log) ∧
      (∀ a d k, in_subtree 1 a → 1 ≤ k → d / 2 ^ k = a → d ≤ 7 → dominates A' a d) ∧
      subtree_pairs A' B' 1 7 = subtree_pairs example_repair slot_tags 1 7 ∧
      (∀ j, ¬ (in_subtree 1 (j + 1) ∧ j < 7) → A' j = example_repair j ∧
        B' j = slot_tags j) :=
  ⟨⟨by decide, by decide, by decide, subtree_check_sound example_repair 1 7 (by decide)⟩,
    trickle_down_repairs_subtree example_repair slot_tags 1 7 (by decide) (by decide)
      (by decide) (subtree_check_sound example_repair 1 7 (by decide))⟩

/-- C23 (counterexample): `__trickle_down` at the last position `i = maxi = 2^30` of the
first `2^30` slots of `big_heap`. The position has no descendant within `maxi`, so the
hypothesis on the descendants holds, but `lchild = i << 1` overflows the `int` before
`lchild` is compared with `maxi`: the routine returns no arrays. -/
theorem trickle_down_overflows_at_last_position :
    (1 ≤ 1073741824 ∧ 1073741824 ≤ 1073741824) ∧
    (∀ a d k, in_subtree 1073741824 a → a ≠ 1073741824 → 1 ≤ k → d / 2 ^ k = a →
      d ≤ 1073741824 → dominates big_heap.value a d) ∧
    __trickle_down_run (1073741824 + 1) big_heap.value big_heap.index 1073741824
      1073741824 = Except.error fault.overflow ∧
    ¬ ∃ A' B' log, __trickle_down_run (1073741824 + 1) big_heap.value big_heap.index
      1073741824 1073741824 = Except.ok (A', B', log) := by
  have hov : __trickle_down_run (1073741824 + 1) big_heap.value big_heap.index 1073741824
      1073741824 = Except.error fault.overflow := eq_overflow_of_stops _ (by decide)
  refine ⟨by decide, ?_, hov, ?_⟩
  · intro a d k ha hne hk hdk hd
    have ha' := (in_subtree_iff 1073741824 a (by decide)).1 ha
    have hlt : 1073741824 < a := by
      rcases ha' with h | h
      · exact absurd h hne
      · exact h.lt
    have : d / 2 ^ k ≤ d := Nat.div_le_self d (2 ^ k)
    omega
  · rintro ⟨A', B', log, hrun⟩
    rw [hov] at hrun
    exact absurd hrun (by simp)

end cmmheap
